import Mathlib

set_option maxHeartbeats 1000000
set_option linter.unusedSectionVars false

namespace ZeroCopySkiplist

/-! ## Variant without tags (first half of zerocopyskiplist.go)

Shallow embedding of the Go implementation.  Go heap pointers `*ItemPtr`
are modelled as indices into an append-only node store (`Option Nat`,
`none` standing for a nil pointer); the external record array is modelled
by record indices (`*T` becomes `Option Nat`); the caller-supplied key
extractor `getKeyFromItem` is an explicit function parameter; the
caller-supplied comparator is the canonical three-way comparison of a
linear order, which is exactly the comparator contract stated in the
package documentation.  The `sync.RWMutex` operations guard a purely
sequential body and are not represented. -/

/-- `ItemPtr` (variant without tags): record reference, cached key,
per-level forward pointers, one backward pointer. -/
structure Node (K : Type) where
  item : Option Nat
  key : K
  forward : List (Option Nat)
  backward : Option Nat
  deriving DecidableEq

/-- `ZeroCopySkiplist` (variant without tags): node store plus header id,
current level, maximum level and element count.  The callback fields of
the Go struct are modelled as parameters of the operations, and the
random generator as an explicit level oracle. -/
structure SL (K : Type) where
  nodes : List (Node K)
  header : Nat
  level : Nat
  maxLevel : Nat
  length : Int
  deriving DecidableEq

variable {K : Type} [LinearOrder K] [Inhabited K]

/-- the three-way comparator `cmpKey` (comparator contract: negative,
zero, positive exactly as the order of the keys). -/
def cmp3 (a b : K) : Int := if a < b then -1 else if b < a then 1 else 0

/-- dereference a node id in the store (ids are always in range on
well-formed states). -/
def getN (s : SL K) (n : Nat) : Node K := s.nodes.getD n ⟨none, default, [], none⟩

/-- `n.forward[i]` (out-of-range reads yield nil; they never occur on
well-formed states, where Go would fault instead). -/
def fwd (s : SL K) (n i : Nat) : Option Nat := (getN s n).forward.getD i none

/-- the cached key of a node. -/
def nodeKey (s : SL K) (n : Nat) : K := (getN s n).key

/-- `len(n.forward)`: the number of levels the node participates in. -/
def lvl (s : SL K) (n : Nat) : Nat := (getN s n).forward.length

/-- write `n.forward[i] = v`. -/
def setFwd (s : SL K) (n i : Nat) (v : Option Nat) : SL K :=
  { s with nodes := s.nodes.set n { getN s n with forward := (getN s n).forward.set i v } }

/-- write `n.backward = v`. -/
def setBack (s : SL K) (n : Nat) (v : Option Nat) : SL K :=
  { s with nodes := s.nodes.set n { getN s n with backward := v } }

/-- the `maxLevel <= 0` fallback of `MakeZeroCopySkiplist`. -/
def normMax (x : Int) : Nat := if x ≤ 0 then 16 else x.toNat

/-- `MakeZeroCopySkiplist` (variant without tags): header node with
`maxLevel` forward slots, level 0, length 0. -/
def mk (maxLevel : Int) : SL K :=
  { nodes := [⟨none, default, List.replicate (normMax maxLevel) none, none⟩],
    header := 0, level := 0, maxLevel := normMax maxLevel, length := 0 }

/-- inner loop of `search` at one level: advance while the next node's key
compares less than the target.  `fuel` bounds the walk; one unit per
visited node suffices for any acyclic chain of allocated nodes, so on
well-formed states the loop is never cut short. -/
def searchLoop (s : SL K) (k : K) (i : Nat) : Nat → Nat → Nat
  | 0, cur => cur
  | fuel + 1, cur =>
    match fwd s cur i with
    | none => cur
    | some nxt => if cmp3 (nodeKey s nxt) k < 0 then searchLoop s k i fuel nxt else cur

/-- the level-descending part of `search`, recording `update[i]` from the
argument level down to level 0; returns the update array and the level-0
position reached. -/
def searchDown (s : SL K) (k : K) : Nat → Nat → List (Option Nat) → List (Option Nat) × Nat
  | 0, cur, upd =>
    let c := searchLoop s k 0 s.nodes.length cur
    (upd.set 0 (some c), c)
  | i + 1, cur, upd =>
    let c := searchLoop s k (i + 1) s.nodes.length cur
    searchDown s k i c (upd.set (i + 1) (some c))

/-- `search`: the update array (initialised to `maxLevel` nil entries,
filled for levels `0..sl.level`) and the candidate `update[0].forward[0]`. -/
def search (s : SL K) (k : K) : List (Option Nat) × Option Nat :=
  let r := searchDown s k s.level s.header (List.replicate s.maxLevel none)
  (r.1, fwd s r.2 0)

/-- `current != nil && sl.cmpKey(current.key, key) == 0`. -/
def keyExists (s : SL K) (cur : Option Nat) (k : K) : Bool :=
  match cur with
  | none => false
  | some c => cmp3 (nodeKey s c) k == 0

/-- `for i := sl.level + 1; i <= newLevel; i++ { update[i] = sl.header }`. -/
def extendUpd (upd : List (Option Nat)) (hdr : Nat) (lo hi : Nat) : List (Option Nat) :=
  (List.range' lo (hi + 1 - lo)).foldl (fun u i => u.set i (some hdr)) upd

/-- one iteration of the splice loop of `Insert`:
`newNode.forward[i] = update[i].forward[i]; update[i].forward[i] = newNode`.
(A nil update entry is impossible on well-formed states.) -/
def spliceStep (upd : List (Option Nat)) (newId : Nat) (t : SL K) (i : Nat) : SL K :=
  match upd.getD i none with
  | none => t
  | some u => setFwd (setFwd t newId i (fwd t u i)) u i (some newId)

/-- `Insert` / `insertUnsafe` (variant without tags).  `newLevel` stands
for the value drawn by `randomLevel`, which always lies in
`[0, maxLevel-1]`. -/
def insertGo (getKey : Nat → K) (s : SL K) (item : Option Nat) (newLevel : Nat) : SL K × Bool :=
  match item with
  | none => (s, false)
  | some it =>
    let k := getKey it
    let r := search s k
    if keyExists s r.2 k then (s, false)
    else
      let upd := if s.level < newLevel then extendUpd r.1 s.header (s.level + 1) newLevel else r.1
      -- `if newLevel > sl.level { sl.level = newLevel }`: the new level is the
      -- maximum of the old level and the drawn level
      let s1 : SL K := { s with level := max s.level newLevel }
      let newId := s1.nodes.length
      let s2 : SL K :=
        { s1 with nodes := s1.nodes ++ [⟨some it, k, List.replicate (newLevel + 1) none, none⟩] }
      let s3 := (List.range (newLevel + 1)).foldl (spliceStep upd newId) s2
      let s4 := match fwd s3 newId 0 with
        | some nx => setBack s3 nx (some newId)
        | none => s3
      let s5 := match upd.getD 0 none with
        | some u0 => if u0 = s4.header then s4 else setBack s4 newId (some u0)
        | none => s4
      ({ s5 with length := s5.length + 1 }, true)

/-- `for sl.level > 0 && sl.header.forward[sl.level] == nil { sl.level-- }`. -/
def shrinkFrom (s : SL K) : Nat → Nat
  | 0 => 0
  | l + 1 => if fwd s s.header (l + 1) = none then shrinkFrom s l else l + 1

/-- one iteration of the unlink loop of `Delete`:
`update[i].forward[i] = current.forward[i]`.  (A nil update entry is
impossible on well-formed states.) -/
def unspliceStep (upd : List (Option Nat)) (c : Nat) (t : SL K) (i : Nat) : SL K :=
  match upd.getD i none with
  | none => t
  | some u => setFwd t u i (fwd t c i)

/-- `Delete` / `deleteUnsafe` (variant without tags). -/
def deleteGo (s : SL K) (k : K) : SL K × Bool :=
  let r := search s k
  match r.2 with
  | none => (s, false)
  | some c =>
    if cmp3 (nodeKey s c) k == 0 then
      let s1 := (List.range (lvl s c)).foldl (unspliceStep r.1 c) s
      let s2 := match fwd s1 c 0 with
        | some nx => setBack s1 nx (getN s1 c).backward
        | none => s1
      let s3 : SL K := { s2 with level := shrinkFrom s2 s2.level }
      ({ s3 with length := s3.length - 1 }, true)
    else (s, false)

/-- `Next` (variant without tags): nil receiver yields nil, otherwise
`forward[0]`. -/
def nextGo (s : SL K) (ip : Option Nat) : Option Nat :=
  match ip with
  | none => none
  | some n => fwd s n 0

/-- `Prev` (variant without tags): nil receiver yields nil, otherwise
`backward`. -/
def prevGo (s : SL K) (ip : Option Nat) : Option Nat :=
  match ip with
  | none => none
  | some n => (getN s n).backward

/-- `First` (variant without tags). -/
def firstGo (s : SL K) : Option Nat := fwd s s.header 0

/-- nodes strictly after `n` in `forward[i]` order; `none` when `fuel`
runs out (never on well-formed states, whose chains are acyclic and
shorter than the store). -/
def chainFrom (s : SL K) (i : Nat) : Nat → Nat → Option (List Nat)
  | 0, _ => none
  | fuel + 1, n =>
    match fwd s n i with
    | none => some []
    | some m => (chainFrom s i fuel m).map (m :: ·)

/-- the level-0 traversal from the header. -/
def chain0? (s : SL K) : Option (List Nat) := chainFrom s 0 s.nodes.length s.header

/-- loop of `ToPwritevSlice`: one byte slice per record, skipping byte
slices of zero length.  `f` is the caller-supplied `getItemBytes`. -/
def pwritevLoop (s : SL K) (f : Option Nat → List Int) : Nat → Option Nat → Option (List (List Int))
  | 0, some _ => none
  | _, none => some []
  | fuel + 1, some n =>
    let data := f (getN s n).item
    (pwritevLoop s f fuel (fwd s n 0)).map (fun r => if data.length > 0 then data :: r else r)

/-- `ToPwritevSlice` (variant without tags). -/
def toPwritevSlice (s : SL K) (f : Option Nat → List Int) : Option (List (List Int)) :=
  pwritevLoop s f s.nodes.length (fwd s s.header 0)

/-- loop of `ToPwritevSliceRaw`: a raw span is the pair (record
reference, `getItemSize` result); spans with non-positive size are
skipped. -/
def pwritevRawLoop (s : SL K) (size : Option Nat → Int) :
    Nat → Option Nat → Option (List (Option Nat × Int))
  | 0, some _ => none
  | _, none => some []
  | fuel + 1, some n =>
    let sz := size (getN s n).item
    (pwritevRawLoop s size fuel (fwd s n 0)).map
      (fun r => if sz > 0 then ((getN s n).item, sz) :: r else r)

/-- `ToPwritevSliceRaw` (variant without tags). -/
def toPwritevSliceRaw (s : SL K) (size : Option Nat → Int) : Option (List (Option Nat × Int)) :=
  pwritevRawLoop s size s.nodes.length (fwd s s.header 0)

/-- the Go `MergeStrategy` constants (`iota` values). -/
def MergeTheirs : Int := 0

/-- `MergeOurs`. -/
def MergeOurs : Int := 1

/-- `MergeError`. -/
def MergeError : Int := 2

/-- conflict-resolution loop of `Merge` (variant without tags) over the
source's level-0 node list.  `rnd i` models the value drawn by the i-th
`randomLevel` call (its range `[0, maxLevel-1]` imposed by `min`). -/
def mergeLoop (getKey : Nat → K) (other : SL K) (strat : Int) (rnd : Nat → Nat) :
    SL K → List Nat → Nat → SL K × Option String
  | dest, [], _ => (dest, none)
  | dest, n :: rest, i =>
    let k := nodeKey other n
    let it := (getN other n).item
    let r := search dest k
    if keyExists dest r.2 k then
      if strat = MergeTheirs then
        let d1 := (deleteGo dest k).1
        let r2 := insertGo getKey d1 it (min (rnd i) (d1.maxLevel - 1))
        if r2.2 then mergeLoop getKey other strat rnd r2.1 rest (i + 1)
        else (r2.1, some "failed to insert item during merge (this should not happen)")
      else if strat = MergeOurs then mergeLoop getKey other strat rnd dest rest (i + 1)
      else if strat = MergeError then (dest, some "key conflict detected during merge")
      else (dest, some "invalid merge strategy")
    else
      let r2 := insertGo getKey dest it (min (rnd i) (dest.maxLevel - 1))
      if r2.2 then mergeLoop getKey other strat rnd r2.1 rest (i + 1)
      else (r2.1, some "failed to insert item during merge")

/-- `Merge` (variant without tags): the configuration check comes before
any other work; then the loop over the source's level-0 chain.  The
result is `none` only when traversal fuel runs out, which never happens
for a well-formed source. -/
def mergeGo (getKey : Nat → K) (dest other : SL K) (strat : Int) (rnd : Nat → Nat) :
    Option (SL K × Option String) :=
  if dest.maxLevel ≠ other.maxLevel then
    some (dest, some "cannot merge skiplists with different maxLevel configurations")
  else
    (chain0? other).map (fun src => mergeLoop getKey other strat rnd dest src 0)

/-- a mutation of the variant without tags: an `Insert` (with the level
drawn by its `randomLevel` call) or a `Delete`. -/
inductive Op (K : Type) where
  | ins (item : Option Nat) (newLevel : Nat)
  | del (k : K)

/-- apply one mutation. -/
def applyOp (getKey : Nat → K) (s : SL K) : Op K → SL K
  | .ins it l => (insertGo getKey s it l).1
  | .del k => (deleteGo s k).1

/-- run a sequence of mutations on a freshly constructed skiplist. -/
def runOps (getKey : Nat → K) (maxLevel : Int) (ops : List (Op K)) : SL K :=
  ops.foldl (applyOp getKey) (mk maxLevel)

/-- the level recorded in an `ins` operation is a possible `randomLevel`
output, i.e. is below the maximum level. -/
def ValidOp (m : Nat) : Op K → Prop
  | .ins _ l => l < m
  | .del _ => True

instance (m : Nat) : (op : Op K) → Decidable (ValidOp m op)
  | .ins _ l => inferInstanceAs (Decidable (l < m))
  | .del _ => inferInstanceAs (Decidable True)

/-! ## Context variant (second half of zerocopyskiplist.go)

Same modelling conventions.  Nodes additionally carry a context value and
an explicit `level` field.  This variant's `MakeZeroCopySkiplist` does
not clamp `maxLevel` (the header gets `maxLevel+1` forward slots) and its
`randomLevel` ranges over `[0, maxLevel]`.  Its `Insert` has no nil-item
check, so the key extractor receives the raw, possibly nil, record
pointer: it is therefore modelled as a total function on `Option Nat` (a
Go extractor that dereferences its argument would fault on nil). -/

/-- `ItemPtr` (context variant). -/
structure CNode (K C : Type) where
  item : Option Nat
  key : K
  context : C
  forward : List (Option Nat)
  backward : Option Nat
  level : Nat
  deriving DecidableEq

/-- `ZeroCopySkiplist` (context variant). -/
structure CSL (K C : Type) where
  nodes : List (CNode K C)
  header : Nat
  maxLevel : Nat
  level : Nat
  length : Int
  deriving DecidableEq

variable {C : Type} [DecidableEq C] [Inhabited C]

/-- dereference a node id in the store (context variant). -/
def getNC (s : CSL K C) (n : Nat) : CNode K C := s.nodes.getD n ⟨none, default, default, [], none, 0⟩

/-- `n.forward[i]` (context variant). -/
def fwdC (s : CSL K C) (n i : Nat) : Option Nat := (getNC s n).forward.getD i none

/-- the cached key of a node (context variant). -/
def nodeKeyC (s : CSL K C) (n : Nat) : K := (getNC s n).key

/-- `len(n.forward)` (context variant). -/
def lvlC (s : CSL K C) (n : Nat) : Nat := (getNC s n).forward.length

/-- write `n.forward[i] = v` (context variant). -/
def setFwdC (s : CSL K C) (n i : Nat) (v : Option Nat) : CSL K C :=
  { s with nodes := s.nodes.set n { getNC s n with forward := (getNC s n).forward.set i v } }

/-- write `n.backward = v` (context variant). -/
def setBackC (s : CSL K C) (n : Nat) (v : Option Nat) : CSL K C :=
  { s with nodes := s.nodes.set n { getNC s n with backward := v } }

/-- `current.item = item; current.context = context` (the update-in-place
branch of the context variant's `Insert`). -/
def setItemCtx (s : CSL K C) (n : Nat) (item : Option Nat) (c : C) : CSL K C :=
  { s with nodes := s.nodes.set n { getNC s n with item := item, context := c } }

/-- `MakeZeroCopySkiplist` (context variant): no clamping; header with
`maxLevel+1` forward slots and `level = maxLevel`. -/
def mkC (maxLevel : Nat) : CSL K C :=
  { nodes := [⟨none, default, default, List.replicate (maxLevel + 1) none, none, maxLevel⟩],
    header := 0, maxLevel := maxLevel, level := 0, length := 0 }

/-- inner advancing loop at one level (context variant). -/
def searchLoopC (s : CSL K C) (k : K) (i : Nat) : Nat → Nat → Nat
  | 0, cur => cur
  | fuel + 1, cur =>
    match fwdC s cur i with
    | none => cur
    | some nxt => if cmp3 (nodeKeyC s nxt) k < 0 then searchLoopC s k i fuel nxt else cur

/-- the level-descending loop of the context variant's `Insert`,
recording the update array. -/
def searchDownC (s : CSL K C) (k : K) : Nat → Nat → List (Option Nat) → List (Option Nat) × Nat
  | 0, cur, upd =>
    let c := searchLoopC s k 0 s.nodes.length cur
    (upd.set 0 (some c), c)
  | i + 1, cur, upd =>
    let c := searchLoopC s k (i + 1) s.nodes.length cur
    searchDownC s k i c (upd.set (i + 1) (some c))

/-- the level-descending walk without an update array (the context
variant's `search` method). -/
def searchWalkC (s : CSL K C) (k : K) : Nat → Nat → Nat
  | 0, cur => searchLoopC s k 0 s.nodes.length cur
  | i + 1, cur => searchWalkC s k i (searchLoopC s k (i + 1) s.nodes.length cur)

/-- `search` (context variant): returns the matching node and its context,
or nil and the zero context value. -/
def searchC (s : CSL K C) (k : K) : Option Nat × C :=
  let c := fwdC s (searchWalkC s k s.level s.header) 0
  match c with
  | some n => if cmp3 (nodeKeyC s n) k == 0 then (some n, (getNC s n).context) else (none, default)
  | none => (none, default)

/-- `Insert` (context variant): no nil-record check; the key extractor is
applied to the raw record pointer.  On an existing key the stored record
reference and context are overwritten in place and `false` is returned.
`newLevel` stands for the `randomLevel` draw, which ranges over
`[0, maxLevel]` in this variant. -/
def insertC (getKeyC : Option Nat → K) (s : CSL K C) (item : Option Nat) (ctx : C)
    (newLevel : Nat) : CSL K C × Bool :=
  let k := getKeyC item
  let r := searchDownC s k s.level s.header (List.replicate (s.maxLevel + 1) none)
  let cur := fwdC s r.2 0
  match cur with
  | some c0 =>
    if cmp3 (nodeKeyC s c0) k == 0 then (setItemCtx s c0 item ctx, false)
    else insertFreshC s item ctx k r.1 newLevel
  | none => insertFreshC s item ctx k r.1 newLevel
where
  /-- the new-node path shared by both `match` arms. -/
  insertFreshC (s : CSL K C) (item : Option Nat) (ctx : C) (k : K)
      (upd0 : List (Option Nat)) (newLevel : Nat) : CSL K C × Bool :=
    let upd := if s.level < newLevel then extendUpd upd0 s.header (s.level + 1) newLevel else upd0
    -- the new level is the maximum of the old level and the drawn level
    let s1 : CSL K C := { s with level := max s.level newLevel }
    let newId := s1.nodes.length
    let s2 : CSL K C :=
      { s1 with nodes :=
          s1.nodes ++ [⟨item, k, ctx, List.replicate (newLevel + 1) none, none, newLevel⟩] }
    let s3 := (List.range (newLevel + 1)).foldl
      (fun t i =>
        match upd.getD i none with
        | none => t
        | some u => setFwdC (setFwdC t newId i (fwdC t u i)) u i (some newId)) s2
    let s4 := match fwdC s3 newId 0 with
      | some nx => setBackC s3 nx (some newId)
      | none => s3
    let s5 := match upd.getD 0 none with
      | some u0 => if u0 = s4.header then s4 else setBackC s4 newId (some u0)
      | none => s4
    ({ s5 with length := s5.length + 1 }, true)

/-- `First` (context variant). -/
def firstC (s : CSL K C) : Option Nat := fwdC s s.header 0

/-- `Next` (context variant): `ip.forward[0]` without a nil-receiver
check; a nil receiver faults (modelled as `Except.error`). -/
def nextC (s : CSL K C) (ip : Option Nat) : Except Unit (Option Nat) :=
  match ip with
  | none => .error ()
  | some n => .ok (fwdC s n 0)

/-- `Prev` (context variant): `ip.backward` without a nil-receiver check;
a nil receiver faults. -/
def prevC (s : CSL K C) (ip : Option Nat) : Except Unit (Option Nat) :=
  match ip with
  | none => .error ()
  | some n => .ok ((getNC s n).backward)

/-- the level-0 traversal from the header (context variant). -/
def chainFromC (s : CSL K C) (i : Nat) : Nat → Nat → Option (List Nat)
  | 0, _ => none
  | fuel + 1, n =>
    match fwdC s n i with
    | none => some []
    | some m => (chainFromC s i fuel m).map (m :: ·)

/-- the level-0 traversal from the header (context variant). -/
def chainC0? (s : CSL K C) : Option (List Nat) := chainFromC s 0 s.nodes.length s.header

/-- a `syscall.Iovec`: base pointer (record reference) and a `uint64`
length. -/
structure Iovec where
  base : Option Nat
  len : Nat
  deriving DecidableEq

/-- the iovec built for one node: `Base` is the record pointer, `Len` the
`uint64` conversion of the `getItemSize` result. -/
def mkIovec (size : Option Nat → Int) (nd : CNode K C) : Iovec :=
  ⟨nd.item, ((size nd.item) % (2 ^ 64)).toNat⟩

/-- loop of `CallbackToIovecSlice`: the successor is captured before the
callback runs; a descriptor is emitted for every node the callback
accepts, with no check on the span length. -/
def iovecLoop (s : CSL K C) (size : Option Nat → Int) (cb : CNode K C → Bool) :
    Nat → Option Nat → Option (List Iovec)
  | 0, some _ => none
  | _, none => some []
  | fuel + 1, some n =>
    let tmp := fwdC s n 0
    (iovecLoop s size cb fuel tmp).map
      (fun r => if cb (getNC s n) then mkIovec size (getNC s n) :: r else r)

/-- `CallbackToIovecSlice` (context variant). -/
def callbackToIovecSliceC (s : CSL K C) (size : Option Nat → Int) (cb : CNode K C → Bool) :
    Option (List Iovec) :=
  iovecLoop s size cb s.nodes.length (firstC s)

/-- `ToIovecSlice` (context variant): the context parameter is ignored;
all items are included via the constantly-true callback. -/
def toIovecSliceC (s : CSL K C) (size : Option Nat → Int) (_ctx : C) : Option (List Iovec) :=
  callbackToIovecSliceC s size (fun _ => true)

/-- `ToContextIovecSlice` (context variant). -/
def toContextIovecSliceC (s : CSL K C) (size : Option Nat → Int) (ctx : C) : Option (List Iovec) :=
  callbackToIovecSliceC s size (fun nd => nd.context == ctx)

/-- `ToNotContextIovecSlice` (context variant). -/
def toNotContextIovecSliceC (s : CSL K C) (size : Option Nat → Int) (ctx : C) :
    Option (List Iovec) :=
  callbackToIovecSliceC s size (fun nd => nd.context != ctx)

/-- conflict-resolution loop of `Merge` (context variant).  On conflict
the switch has no default branch, so an unknown strategy silently skips
the record.  (The Go conflict error message also interpolates the key.) -/
def mergeLoopC (getKeyC : Option Nat → K) (other : CSL K C) (strat : Int) (rnd : Nat → Nat) :
    CSL K C → List Nat → Nat → CSL K C × Option String
  | dest, [], _ => (dest, none)
  | dest, n :: rest, i =>
    let r := searchC dest (nodeKeyC other n)
    match r.1 with
    | some _ =>
      if strat = MergeTheirs then
        mergeLoopC getKeyC other strat rnd
          (insertC getKeyC dest (getNC other n).item (getNC other n).context
            (min (rnd i) dest.maxLevel)).1 rest (i + 1)
      else if strat = MergeOurs then mergeLoopC getKeyC other strat rnd dest rest (i + 1)
      else if strat = MergeError then (dest, some "key conflict during merge")
      else mergeLoopC getKeyC other strat rnd dest rest (i + 1)
    | none =>
      mergeLoopC getKeyC other strat rnd
        (insertC getKeyC dest (getNC other n).item (getNC other n).context
          (min (rnd i) dest.maxLevel)).1 rest (i + 1)

/-- `Merge` (context variant): no configuration check at all; the source
is traversed in level-0 order immediately. -/
def mergeC (getKeyC : Option Nat → K) (dest other : CSL K C) (strat : Int) (rnd : Nat → Nat) :
    Option (CSL K C × Option String) :=
  (chainC0? other).map (fun src => mergeLoopC getKeyC other strat rnd dest src 0)

/-! ## Structural predicates (variant without tags)

`linksTo s i n l e` says: starting at node `n` and following `forward[i]`,
one visits exactly the nodes of `l` in order, after which the forward
pointer is `e`.  The well-formedness invariant `Inv s L` collects the
documented data-structure invariants, with `L` the level-0 chain: every
level-`i` chain is the sublist of `L` of nodes tall enough to reach
level `i`. -/

/-- follow `forward[i]` from `n` through exactly `l`, ending with pointer
value `e`. -/
def linksTo (s : SL K) (i : Nat) : Nat → List Nat → Option Nat → Prop
  | n, [], e => fwd s n i = e
  | n, m :: rest, e => fwd s n i = some m ∧ linksTo s i m rest e

/-- decidability of `linksTo` (used to certify concrete states). -/
def decLinksTo (s : SL K) (i : Nat) : (n : Nat) → (l : List Nat) → (e : Option Nat) →
    Decidable (linksTo s i n l e)
  | n, [], e => inferInstanceAs (Decidable (fwd s n i = e))
  | n, m :: rest, e =>
    haveI := decLinksTo s i m rest e
    inferInstanceAs (Decidable (fwd s n i = some m ∧ linksTo s i m rest e))

instance (s : SL K) (i n : Nat) (l : List Nat) (e : Option Nat) : Decidable (linksTo s i n l e) :=
  decLinksTo s i n l e

/-- the keys along a node list. -/
def chainKeys (s : SL K) (L : List Nat) : List K := L.map (nodeKey s)

/-- the level-`i` chain carried by a level-0 chain `L`: the nodes of `L`
tall enough to participate in level `i`. -/
def chainAt (s : SL K) (L : List Nat) (i : Nat) : List Nat :=
  L.filter (fun n => decide (i < lvl s n))

/-- the documented invariants of the variant without tags, relative to the
level-0 chain `L`. -/
structure Inv (s : SL K) (L : List Nat) : Prop where
  header_lt : s.header < s.nodes.length
  header_len : lvl s s.header = s.maxLevel
  header_back : (getN s s.header).backward = none
  level_lt : s.level < s.maxLevel
  mem_lt : ∀ n ∈ L, n < s.nodes.length
  mem_ne : ∀ n ∈ L, n ≠ s.header
  nodup : L.Nodup
  sorted : (chainKeys s L).Pairwise (· < ·)
  lvl_pos : ∀ n ∈ L, 0 < lvl s n
  lvl_le : ∀ n ∈ L, lvl s n ≤ s.level + 1
  item_ne : ∀ n ∈ L, (getN s n).item ≠ none
  fwd_ok : ∀ i < s.maxLevel, linksTo s i s.header (chainAt s L i) none
  back_head : (getN s (L.headD s.header)).backward = none
  back_chain : L.Chain' (fun a b => (getN s b).backward = some a)

/-- the nodes of `L` with keys below `k` (a prefix of `L` when `L` is
sorted). -/
def Wlt (s : SL K) (L : List Nat) (k : K) : List Nat :=
  L.filter (fun n => decide (nodeKey s n < k))

/-- the nodes of `L` with keys at least `k` (a suffix of `L` when `L` is
sorted). -/
def Bge (s : SL K) (L : List Nat) (k : K) : List Nat :=
  L.filter (fun n => decide (¬ nodeKey s n < k))

/-- the node recorded by `search` in `update[i]`: the last node of the
level-`i` chain with key below `k`, the header when there is none. -/
def predAt (s : SL K) (L : List Nat) (k : K) (i : Nat) : Nat :=
  ((Wlt s L k).filter (fun n => decide (i < lvl s n))).getLastD s.header

/-- the loop of `Merge` restricted to conflict-free inserts: insert the
records of the given source nodes one after the other (levels drawn from
`rnd` as in `mergeLoop`). -/
def insertAllFrom (getKey : Nat → K) (other : SL K) (rnd : Nat → Nat) :
    SL K → Nat → List Nat → SL K
  | dest, _, [] => dest
  | dest, i, n :: rest =>
    insertAllFrom getKey other rnd
      (insertGo getKey dest (getN other n).item (min (rnd i) (dest.maxLevel - 1))).1 (i + 1) rest

/-! ## Structural predicates (context variant) -/

/-- `linksTo` for the context variant. -/
def linksToC (s : CSL K C) (i : Nat) : Nat → List Nat → Option Nat → Prop
  | n, [], e => fwdC s n i = e
  | n, m :: rest, e => fwdC s n i = some m ∧ linksToC s i m rest e

/-- decidability of `linksToC`. -/
def decLinksToC (s : CSL K C) (i : Nat) : (n : Nat) → (l : List Nat) → (e : Option Nat) →
    Decidable (linksToC s i n l e)
  | n, [], e => inferInstanceAs (Decidable (fwdC s n i = e))
  | n, m :: rest, e =>
    haveI := decLinksToC s i m rest e
    inferInstanceAs (Decidable (fwdC s n i = some m ∧ linksToC s i m rest e))

instance (s : CSL K C) (i n : Nat) (l : List Nat) (e : Option Nat) :
    Decidable (linksToC s i n l e) :=
  decLinksToC s i n l e

/-- the keys along a node list (context variant). -/
def chainKeysC (s : CSL K C) (L : List Nat) : List K := L.map (nodeKeyC s)

/-- the level-`i` chain carried by a level-0 chain `L` (context variant). -/
def chainAtC (s : CSL K C) (L : List Nat) (i : Nat) : List Nat :=
  L.filter (fun n => decide (i < lvlC s n))

/-- the documented invariants of the context variant relative to the
level-0 chain `L` (the header has `maxLevel+1` forward slots and node
levels range up to `maxLevel` in this variant). -/
structure InvC (s : CSL K C) (L : List Nat) : Prop where
  header_lt : s.header < s.nodes.length
  header_len : lvlC s s.header = s.maxLevel + 1
  header_back : (getNC s s.header).backward = none
  level_le : s.level ≤ s.maxLevel
  mem_lt : ∀ n ∈ L, n < s.nodes.length
  mem_ne : ∀ n ∈ L, n ≠ s.header
  nodup : L.Nodup
  sorted : (chainKeysC s L).Pairwise (· < ·)
  lvl_pos : ∀ n ∈ L, 0 < lvlC s n
  lvl_le : ∀ n ∈ L, lvlC s n ≤ s.level + 1
  fwd_ok : ∀ i < s.maxLevel + 1, linksToC s i s.header (chainAtC s L i) none
  back_head : (getNC s (L.headD s.header)).backward = none
  back_chain : L.Chain' (fun a b => (getNC s b).backward = some a)

/-- `Wlt` for the context variant. -/
def WltC (s : CSL K C) (L : List Nat) (k : K) : List Nat :=
  L.filter (fun n => decide (nodeKeyC s n < k))

/-- `Bge` for the context variant. -/
def BgeC (s : CSL K C) (L : List Nat) (k : K) : List Nat :=
  L.filter (fun n => decide (¬ nodeKeyC s n < k))

/-- `predAt` for the context variant. -/
def predAtC (s : CSL K C) (L : List Nat) (k : K) (i : Nat) : Nat :=
  ((WltC s L k).filter (fun n => decide (i < lvlC s n))).getLastD s.header

/-! ## Concrete instantiations used by counterexamples and witnesses -/

/-- a concrete key extractor: records `10k..10k+9` carry key `k`. -/
def exGetKey : Nat → Int := fun n => (n : Int) / 10

/-- the same extractor for the context variant (total on the nullable
record pointer; a nil pointer is read as record 0). -/
def exGetKeyC : Option Nat → Int := fun o => ((o.getD 0 : Nat) : Int) / 10

/-- a context-variant skiplist holding one record (record 5, key 0,
context 77), built with maximum level 3. -/
def exCtxOther : CSL Int Int := (insertC exGetKeyC (mkC 3) (some 5) 77 0).1

/-- the tagless view of a context-variant store: context and explicit
level field dropped, every record reference replaced by a dummy non-nil
one (the search walk never reads it).  The header of the context variant
carries `maxLevel + 1` forward slots, so the view's configured maximum is
`maxLevel + 1`. -/
def toSL (s : CSL K C) : SL K :=
  { nodes := s.nodes.map (fun nd => ⟨some 0, nd.key, nd.forward, nd.backward⟩),
    header := s.header, level := s.level, maxLevel := s.maxLevel + 1, length := 0 }

/-- the conflict-free prefix of a `Merge` run (variant without tags):
every listed source node's key is absent from the accumulated destination
and its insertion succeeds, each step drawing its level as `mergeLoop`
does. -/
def noConflictRun (getKey : Nat → K) (other : SL K) (rnd : Nat → Nat) :
    SL K → Nat → List Nat → Bool
  | _, _, [] => true
  | dest, i, n :: rest =>
    let k := nodeKey other n
    let r := search dest k
    !(keyExists dest r.2 k) &&
      ((insertGo getKey dest (getN other n).item (min (rnd i) (dest.maxLevel - 1))).2 &&
        noConflictRun getKey other rnd
          (insertGo getKey dest (getN other n).item (min (rnd i) (dest.maxLevel - 1))).1
          (i + 1) rest)

/-- the loop of the context variant's `Merge` restricted to conflict-free
inserts: copy the given source nodes (record and context) one after the
other, levels drawn from `rnd` as in `mergeLoopC`. -/
def insertAllFromC (getKeyC : Option Nat → K) (other : CSL K C) (rnd : Nat → Nat) :
    CSL K C → Nat → List Nat → CSL K C
  | dest, _, [] => dest
  | dest, i, n :: rest =>
    insertAllFromC getKeyC other rnd
      (insertC getKeyC dest (getNC other n).item (getNC other n).context
        (min (rnd i) dest.maxLevel)).1 (i + 1) rest

/-- the conflict-free prefix of a context-variant `Merge` run: every
listed source node's key is absent from the accumulated destination (the
context variant's loop ignores the insert's return value). -/
def noConflictRunC (getKeyC : Option Nat → K) (other : CSL K C) (rnd : Nat → Nat) :
    CSL K C → Nat → List Nat → Bool
  | _, _, [] => true
  | dest, i, n :: rest =>
    match (searchC dest (nodeKeyC other n)).1 with
    | some _ => false
    | none =>
      noConflictRunC getKeyC other rnd
        (insertC getKeyC dest (getNC other n).item (getNC other n).context
          (min (rnd i) dest.maxLevel)).1 (i + 1) rest

/-! ## Pointwise store lemmas (variant without tags) -/

theorem getN_set_nodes (s : SL K) (n : Nat) (x : Node K) (m : Nat) :
    getN { s with nodes := s.nodes.set n x } m =
      if m = n ∧ n < s.nodes.length then x else getN s m := by
  by_cases h1 : m = n
  · subst h1
    by_cases h2 : m < s.nodes.length
    · simp [getN, List.getD_eq_getElem?_getD, List.getElem?_set, h2]
    · simp [getN, List.getD_eq_getElem?_getD, List.getElem?_set, h2,
        List.getElem?_eq_none (Nat.le_of_not_lt h2)]
  · have h1' : n ≠ m := fun hh => h1 hh.symm
    simp [getN, List.getD_eq_getElem?_getD, List.getElem?_set, h1', h1]

theorem fwd_setFwd_self (s : SL K) (n i : Nat) (v : Option Nat)
    (hn : n < s.nodes.length) (hi : i < lvl s n) :
    fwd (setFwd s n i v) n i = v := by
  have hi' : i < (getN s n).forward.length := hi
  have h := getN_set_nodes s n ({ getN s n with forward := (getN s n).forward.set i v }) n
  rw [if_pos ⟨rfl, hn⟩] at h
  simp only [fwd, setFwd, h]
  simp [List.getD_eq_getElem?_getD, List.getElem?_set, hi']

theorem fwd_setFwd_ne (s : SL K) (n i : Nat) (v : Option Nat) (m j : Nat)
    (h : m ≠ n ∨ j ≠ i) :
    fwd (setFwd s n i v) m j = fwd s m j := by
  have hg := getN_set_nodes s n ({ getN s n with forward := (getN s n).forward.set i v }) m
  rcases h with h | h
  · rw [if_neg (fun hh => h hh.1)] at hg
    simp only [fwd, setFwd, hg]
  · simp only [fwd, setFwd, hg]
    by_cases h1 : m = n ∧ n < s.nodes.length
    · rcases h1 with ⟨rfl, h2⟩
      rw [if_pos ⟨rfl, h2⟩]
      simp [List.getD_eq_getElem?_getD, List.getElem?_set_ne (fun hh : i = j => h hh.symm)]
    · rw [if_neg h1]

theorem getN_setFwd_ne (s : SL K) (n i : Nat) (v : Option Nat) (m : Nat) (h : m ≠ n) :
    getN (setFwd s n i v) m = getN s m := by
  have hg := getN_set_nodes s n ({ getN s n with forward := (getN s n).forward.set i v }) m
  rw [if_neg (fun hh => h hh.1)] at hg
  exact hg

theorem lvl_setFwd (s : SL K) (n i : Nat) (v : Option Nat) (m : Nat) :
    lvl (setFwd s n i v) m = lvl s m := by
  have hg := getN_set_nodes s n ({ getN s n with forward := (getN s n).forward.set i v }) m
  simp only [lvl, setFwd, hg]
  by_cases h1 : m = n ∧ n < s.nodes.length
  · rcases h1 with ⟨rfl, h2⟩
    rw [if_pos ⟨rfl, h2⟩]
    simp
  · rw [if_neg h1]

theorem key_setFwd (s : SL K) (n i : Nat) (v : Option Nat) (m : Nat) :
    nodeKey (setFwd s n i v) m = nodeKey s m := by
  have hg := getN_set_nodes s n ({ getN s n with forward := (getN s n).forward.set i v }) m
  simp only [nodeKey, setFwd, hg]
  by_cases h1 : m = n ∧ n < s.nodes.length
  · rcases h1 with ⟨rfl, h2⟩
    rw [if_pos ⟨rfl, h2⟩]
  · rw [if_neg h1]

theorem back_setFwd (s : SL K) (n i : Nat) (v : Option Nat) (m : Nat) :
    (getN (setFwd s n i v) m).backward = (getN s m).backward := by
  have hg := getN_set_nodes s n ({ getN s n with forward := (getN s n).forward.set i v }) m
  simp only [setFwd, hg]
  by_cases h1 : m = n ∧ n < s.nodes.length
  · rcases h1 with ⟨rfl, h2⟩
    rw [if_pos ⟨rfl, h2⟩]
  · rw [if_neg h1]

theorem item_setFwd (s : SL K) (n i : Nat) (v : Option Nat) (m : Nat) :
    (getN (setFwd s n i v) m).item = (getN s m).item := by
  have hg := getN_set_nodes s n ({ getN s n with forward := (getN s n).forward.set i v }) m
  simp only [setFwd, hg]
  by_cases h1 : m = n ∧ n < s.nodes.length
  · rcases h1 with ⟨rfl, h2⟩
    rw [if_pos ⟨rfl, h2⟩]
  · rw [if_neg h1]

theorem len_setFwd (s : SL K) (n i : Nat) (v : Option Nat) :
    (setFwd s n i v).nodes.length = s.nodes.length := by
  simp [setFwd]

theorem back_setBack_self (s : SL K) (n : Nat) (v : Option Nat) (hn : n < s.nodes.length) :
    (getN (setBack s n v) n).backward = v := by
  have hg := getN_set_nodes s n ({ getN s n with backward := v }) n
  rw [if_pos ⟨rfl, hn⟩] at hg
  simp only [setBack, hg]

theorem back_setBack_ne (s : SL K) (n : Nat) (v : Option Nat) (m : Nat) (h : m ≠ n) :
    (getN (setBack s n v) m).backward = (getN s m).backward := by
  have hg := getN_set_nodes s n ({ getN s n with backward := v }) m
  rw [if_neg (fun hh => h hh.1)] at hg
  simp only [setBack, hg]

theorem fwd_setBack (s : SL K) (n : Nat) (v : Option Nat) (m j : Nat) :
    fwd (setBack s n v) m j = fwd s m j := by
  have hg := getN_set_nodes s n ({ getN s n with backward := v }) m
  simp only [fwd, setBack, hg]
  by_cases h1 : m = n ∧ n < s.nodes.length
  · rcases h1 with ⟨rfl, h2⟩
    rw [if_pos ⟨rfl, h2⟩]
  · rw [if_neg h1]

theorem lvl_setBack (s : SL K) (n : Nat) (v : Option Nat) (m : Nat) :
    lvl (setBack s n v) m = lvl s m := by
  have hg := getN_set_nodes s n ({ getN s n with backward := v }) m
  simp only [lvl, setBack, hg]
  by_cases h1 : m = n ∧ n < s.nodes.length
  · rcases h1 with ⟨rfl, h2⟩
    rw [if_pos ⟨rfl, h2⟩]
  · rw [if_neg h1]

theorem key_setBack (s : SL K) (n : Nat) (v : Option Nat) (m : Nat) :
    nodeKey (setBack s n v) m = nodeKey s m := by
  have hg := getN_set_nodes s n ({ getN s n with backward := v }) m
  simp only [nodeKey, setBack, hg]
  by_cases h1 : m = n ∧ n < s.nodes.length
  · rcases h1 with ⟨rfl, h2⟩
    rw [if_pos ⟨rfl, h2⟩]
  · rw [if_neg h1]

theorem item_setBack (s : SL K) (n : Nat) (v : Option Nat) (m : Nat) :
    (getN (setBack s n v) m).item = (getN s m).item := by
  have hg := getN_set_nodes s n ({ getN s n with backward := v }) m
  simp only [setBack, hg]
  by_cases h1 : m = n ∧ n < s.nodes.length
  · rcases h1 with ⟨rfl, h2⟩
    rw [if_pos ⟨rfl, h2⟩]
  · rw [if_neg h1]

theorem len_setBack (s : SL K) (n : Nat) (v : Option Nat) :
    (setBack s n v).nodes.length = s.nodes.length := by
  simp [setBack]

theorem getN_append_lt (s : SL K) (x : Node K) (m : Nat) (h : m < s.nodes.length) :
    getN { s with nodes := s.nodes ++ [x] } m = getN s m := by
  simp [getN, List.getD_eq_getElem?_getD, List.getElem?_append, h]

theorem getN_append_self (s : SL K) (x : Node K) :
    getN { s with nodes := s.nodes ++ [x] } s.nodes.length = x := by
  simp [getN, List.getD_eq_getElem?_getD, List.getElem?_append_right (Nat.le_refl _)]

/-! ## Comparator lemmas -/

theorem cmp3_lt_iff (a b : K) : cmp3 a b < 0 ↔ a < b := by
  unfold cmp3
  split_ifs with h1 h2
  · simp [h1]
  · simp [asymm h2, not_lt_of_gt h2]
  · simp [h1]

theorem cmp3_eq_zero_iff (a b : K) : cmp3 a b = 0 ↔ a = b := by
  unfold cmp3
  split_ifs with h1 h2
  · simp [ne_of_lt h1]
  · simp [(ne_of_lt h2).symm]
  · simp [le_antisymm (not_lt.mp h2) (not_lt.mp h1)]

theorem cmp3_beq_zero_iff (a b : K) : (cmp3 a b == 0) = true ↔ a = b := by
  rw [beq_iff_eq]
  exact cmp3_eq_zero_iff a b

/-! ## Chain-description lemmas -/

theorem linksTo_congr {s s' : SL K} {i n : Nat} {l : List Nat} {e : Option Nat}
    (hf : ∀ m ∈ n :: l, fwd s' m i = fwd s m i) (h : linksTo s i n l e) :
    linksTo s' i n l e := by
  induction l generalizing n with
  | nil => exact (hf n (by simp)).trans h
  | cons a l ih =>
    obtain ⟨h1, h2⟩ := h
    exact ⟨(hf n (by simp)).trans h1, ih (fun m hm => hf m (by simp [hm])) h2⟩

theorem linksTo_nil {s : SL K} {i n : Nat} {e : Option Nat} :
    linksTo s i n [] e ↔ fwd s n i = e := Iff.rfl

theorem linksTo_cons {s : SL K} {i n a : Nat} {l : List Nat} {e : Option Nat} :
    linksTo s i n (a :: l) e ↔ fwd s n i = some a ∧ linksTo s i a l e := Iff.rfl

theorem linksTo_append_cons {s : SL K} {i n m : Nat} {l1 l2 : List Nat} {e : Option Nat} :
    linksTo s i n (l1 ++ m :: l2) e ↔ linksTo s i n l1 (some m) ∧ linksTo s i m l2 e := by
  induction l1 generalizing n with
  | nil => simp [linksTo_nil, linksTo_cons, and_assoc]
  | cons a l1 ih =>
    simp only [List.cons_append, linksTo_cons, ih, and_assoc]

theorem linksTo_last {s : SL K} {i n : Nat} {l : List Nat} {e : Option Nat}
    (h : linksTo s i n l e) : fwd s (l.getLastD n) i = e := by
  induction l generalizing n with
  | nil => exact h
  | cons a l ih => rw [List.getLastD_cons]; exact ih h.2

theorem linksTo_retarget {s s' : SL K} {i n : Nat} {l : List Nat} {e e' : Option Nat}
    (h : linksTo s i n l e) (hnd : (n :: l).Nodup)
    (hlast : fwd s' (l.getLastD n) i = e')
    (hoth : ∀ m ∈ n :: l, m ≠ l.getLastD n → fwd s' m i = fwd s m i) :
    linksTo s' i n l e' := by
  induction l generalizing n with
  | nil => exact hlast
  | cons a l ih =>
    obtain ⟨h1, h2⟩ := h
    rw [List.getLastD_cons] at hlast
    have hne : n ≠ l.getLastD a := by
      intro hh
      exact (List.nodup_cons.mp hnd).1 (hh ▸ List.getLastD_mem_cons l a)
    refine ⟨?_, ih h2 (List.nodup_cons.mp hnd).2 hlast ?_⟩
    · rw [hoth n (by simp) (by rw [List.getLastD_cons]; exact hne)]
      exact h1
    · intro m hm hm2
      exact hoth m (by simp [hm]) (by rw [List.getLastD_cons]; exact hm2)

theorem chainFrom_of_linksTo {s : SL K} {i n : Nat} {l : List Nat} {fuel : Nat}
    (h : linksTo s i n l none) (hfuel : l.length < fuel) :
    chainFrom s i fuel n = some l := by
  induction l generalizing n fuel with
  | nil =>
    obtain ⟨f, rfl⟩ := Nat.exists_eq_succ_of_ne_zero (Nat.pos_iff_ne_zero.mp hfuel)
    have h' : fwd s n i = none := h
    simp [chainFrom, h']
  | cons a l ih =>
    obtain ⟨f, rfl⟩ := Nat.exists_eq_succ_of_ne_zero
      (Nat.pos_iff_ne_zero.mp (Nat.lt_of_le_of_lt (Nat.zero_le _) hfuel))
    obtain ⟨h1, h2⟩ := h
    simp only [chainFrom, h1]
    rw [ih h2 (Nat.lt_of_succ_lt_succ hfuel)]
    rfl

/-! ## Sorted-list lemmas -/

theorem sorted_filter_split (f : Nat → K) (k : K) (L : List Nat)
    (h : (L.map f).Pairwise (· < ·)) :
    L = L.filter (fun n => decide (f n < k)) ++ L.filter (fun n => decide (¬ f n < k)) := by
  induction L with
  | nil => rfl
  | cons a L ih =>
    rw [List.map_cons, List.pairwise_cons] at h
    by_cases ha : f a < k
    · simp only [List.filter_cons, decide_eq_true ha, decide_eq_false (not_not_intro ha)]
      simpa using ih h.2
    · have hall : ∀ m ∈ L, ¬ f m < k := by
        intro m hm
        have : f a < f m := h.1 (f m) (List.mem_map_of_mem f hm)
        exact fun hc => ha (lt_trans this hc)
      have h1 : L.filter (fun n => decide (f n < k)) = [] :=
        List.filter_eq_nil_iff.mpr (fun m hm => by simpa using hall m hm)
      have h2 : L.filter (fun n => decide (¬ f n < k)) = L :=
        List.filter_eq_self.mpr (fun m hm => by simpa using hall m hm)
      have e1 : List.filter (fun n => decide (f n < k)) (a :: L) = [] := by
        rw [List.filter_cons, if_neg (by simpa using ha)]
        exact h1
      have e2 : List.filter (fun n => decide (¬ f n < k)) (a :: L) = a :: L := by
        rw [List.filter_cons, if_pos (by simpa using ha), h2]
      rw [e1, e2, List.nil_append]

theorem getLastD_append_cons {α : Type} (l1 : List α) (a : α) (l2 : List α) (d : α) :
    (l1 ++ a :: l2).getLastD d = l2.getLastD a := by
  induction l1 generalizing d with
  | nil => rw [List.nil_append, List.getLastD_cons]
  | cons b l1 ih => rw [List.cons_append, List.getLastD_cons]; exact ih b

/-! ## Search correctness (variant without tags) -/

theorem mem_Wlt {s : SL K} {L : List Nat} {k : K} {n : Nat} (h : n ∈ Wlt s L k) :
    n ∈ L ∧ nodeKey s n < k := by
  have := List.mem_filter.mp h
  simpa using this

theorem mem_Bge {s : SL K} {L : List Nat} {k : K} {n : Nat} (h : n ∈ Bge s L k) :
    n ∈ L ∧ ¬ nodeKey s n < k := by
  have := List.mem_filter.mp h
  simpa using this

theorem Wlt_append_Bge {s : SL K} {L : List Nat} (k : K)
    (hs : (chainKeys s L).Pairwise (· < ·)) :
    L = Wlt s L k ++ Bge s L k :=
  sorted_filter_split (nodeKey s) k L hs

theorem key_mem_iff_head {s : SL K} {L : List Nat} {k : K}
    (hs : (chainKeys s L).Pairwise (· < ·)) :
    k ∈ chainKeys s L ↔ ∃ c, (Bge s L k).head? = some c ∧ nodeKey s c = k := by
  constructor
  · rintro hk
    obtain ⟨x, hxL, hxk⟩ := List.mem_map.mp hk
    have hxB : x ∈ Bge s L k :=
      List.mem_filter.mpr ⟨hxL, by simp [hxk]⟩
    have hBne : Bge s L k ≠ [] := List.ne_nil_of_mem hxB
    obtain ⟨b, T, hbT⟩ := List.exists_cons_of_ne_nil hBne
    refine ⟨b, by rw [hbT]; rfl, ?_⟩
    have hsB : (chainKeys s (Bge s L k)).Pairwise (· < ·) :=
      List.Pairwise.sublist (List.Sublist.map _ (List.filter_sublist L)) hs
    by_cases hbx : b = x
    · rw [hbx]; exact hxk
    · have hxT : x ∈ T := by
        have hx' : x ∈ b :: T := hbT ▸ hxB
        rcases List.mem_cons.mp hx' with h | h
        · exact absurd h.symm hbx
        · exact h
      have : nodeKey s b < nodeKey s x := by
        rw [hbT] at hsB
        exact (List.pairwise_cons.mp hsB).1 _ (List.mem_map_of_mem _ hxT)
      have hbk : nodeKey s b < k := hxk ▸ this
      exact absurd hbk (mem_Bge (hbT ▸ List.mem_cons_self b T)).2
  · rintro ⟨c, hc, hck⟩
    have hcB : c ∈ Bge s L k := List.mem_of_mem_head? hc
    exact hck ▸ List.mem_map_of_mem _ (mem_Bge hcB).1

theorem chainLen_lt {s : SL K} {L : List Nat} (hInv : Inv s L) :
    L.length < s.nodes.length := by
  have hnd : (s.header :: L).Nodup :=
    List.nodup_cons.mpr ⟨fun h => hInv.mem_ne _ h rfl, hInv.nodup⟩
  have h1 : (s.header :: L).toFinset.card = (s.header :: L).length :=
    List.toFinset_card_of_nodup hnd
  have h2 : (s.header :: L).toFinset ⊆ Finset.range s.nodes.length := by
    intro x hx
    rw [List.mem_toFinset] at hx
    rcases List.mem_cons.mp hx with h | h
    · exact Finset.mem_range.mpr (h ▸ hInv.header_lt)
    · exact Finset.mem_range.mpr (hInv.mem_lt _ h)
  have h3 := Finset.card_le_card h2
  rw [h1, Finset.card_range] at h3
  simpa using h3

theorem searchLoop_spec (s : SL K) (k : K) (i : Nat) (l1 l2 : List Nat) (n : Nat) (fuel : Nat)
    (h : linksTo s i n (l1 ++ l2) none)
    (h1 : ∀ m ∈ l1, nodeKey s m < k)
    (h2 : ∀ m, l2.head? = some m → ¬ nodeKey s m < k)
    (hfuel : l1.length < fuel) :
    searchLoop s k i fuel n = l1.getLastD n := by
  induction l1 generalizing n fuel with
  | nil =>
    obtain ⟨f, rfl⟩ := Nat.exists_eq_succ_of_ne_zero (Nat.pos_iff_ne_zero.mp hfuel)
    cases l2 with
    | nil =>
      have h' : fwd s n i = none := h
      simp [searchLoop, h']
    | cons b l2' =>
      obtain ⟨hb, _⟩ := linksTo_cons.mp (by simpa using h)
      have hnb : ¬ nodeKey s b < k := h2 b rfl
      simp only [searchLoop, hb]
      rw [if_neg (by rw [cmp3_lt_iff]; exact hnb)]
      rfl
  | cons a l1 ih =>
    obtain ⟨f, rfl⟩ := Nat.exists_eq_succ_of_ne_zero
      (Nat.pos_iff_ne_zero.mp (Nat.lt_of_le_of_lt (Nat.zero_le _) hfuel))
    obtain ⟨ha, h'⟩ := linksTo_cons.mp (by simpa using h)
    have hka : nodeKey s a < k := h1 a (by simp)
    simp only [searchLoop, ha]
    rw [if_pos (by rw [cmp3_lt_iff]; exact hka), List.getLastD_cons]
    exact ih a f h' (fun m hm => h1 m (List.mem_cons_of_mem _ hm))
      (Nat.lt_of_succ_lt_succ hfuel)

theorem chainAt_split {s : SL K} {L : List Nat} (k : K) (i : Nat)
    (hs : (chainKeys s L).Pairwise (· < ·)) :
    chainAt s L i =
      (Wlt s L k).filter (fun n => decide (i < lvl s n)) ++
        (Bge s L k).filter (fun n => decide (i < lvl s n)) := by
  unfold chainAt
  conv_lhs => rw [Wlt_append_Bge k hs]
  rw [List.filter_append]

theorem predAt_top {s : SL K} {L : List Nat} (hInv : Inv s L) (k : K) (j : Nat)
    (hj : s.level + 1 ≤ j) : predAt s L k j = s.header := by
  unfold predAt
  have : (Wlt s L k).filter (fun n => decide (j < lvl s n)) = [] := by
    rw [List.filter_eq_nil_iff]
    intro m hm
    have hmL : m ∈ L := (mem_Wlt hm).1
    have := hInv.lvl_le m hmL
    simp only [decide_eq_true_eq]
    omega
  rw [this]
  rfl

theorem level_step {s : SL K} {L : List Nat} (hInv : Inv s L) (k : K) (i : Nat)
    (hi : i < s.maxLevel) :
    searchLoop s k i s.nodes.length (predAt s L k (i + 1)) = predAt s L k i := by
  have hsplit := chainAt_split (s := s) (L := L) k i hInv.sorted
  have hlinks : linksTo s i s.header
      ((Wlt s L k).filter (fun n => decide (i < lvl s n)) ++
        (Bge s L k).filter (fun n => decide (i < lvl s n))) none := by
    rw [← hsplit]; exact hInv.fwd_ok i hi
  have hA0k : ∀ m ∈ (Wlt s L k).filter (fun n => decide (i < lvl s n)), nodeKey s m < k :=
    fun m hm => (mem_Wlt (List.mem_of_mem_filter hm)).2
  have hB0 : ∀ m, ((Bge s L k).filter (fun n => decide (i < lvl s n))).head? = some m →
      ¬ nodeKey s m < k :=
    fun m hm => (mem_Bge (List.mem_of_mem_filter (List.mem_of_mem_head? hm))).2
  have hWlen : ∀ l' : List Nat, l'.Sublist L → l'.length < s.nodes.length :=
    fun l' hsub => Nat.lt_of_le_of_lt (List.Sublist.length_le hsub) (chainLen_lt hInv)
  have hA0sub : ((Wlt s L k).filter (fun n => decide (i < lvl s n))).Sublist L :=
    List.Sublist.trans (List.filter_sublist _) (List.filter_sublist _)
  rcases hcase : (Wlt s L k).filter (fun n => decide ((i + 1) < lvl s n)) with _ | ⟨q0, A1'⟩
  · -- no node of the level-(i+1) chain is below k: the walk starts at the header
    have hp : predAt s L k (i + 1) = s.header := by unfold predAt; rw [hcase]; rfl
    rw [hp]
    rw [searchLoop_spec s k i _ _ _ _ hlinks hA0k hB0 (hWlen _ hA0sub)]
    rfl
  · -- the walk starts at the last below-k node of the level-(i+1) chain
    have hne : (Wlt s L k).filter (fun n => decide ((i + 1) < lvl s n)) ≠ [] := by
      rw [hcase]; exact List.cons_ne_nil _ _
    obtain ⟨A1, q, hA1⟩ := (List.eq_nil_or_concat ((Wlt s L k).filter
      (fun n => decide ((i + 1) < lvl s n)))).resolve_left hne
    have hp : predAt s L k (i + 1) = q := by
      unfold predAt
      rw [hA1, List.concat_eq_append, getLastD_append_cons]
      rfl
    have hqmem : q ∈ (Wlt s L k).filter (fun n => decide ((i + 1) < lvl s n)) := by
      rw [hA1, List.concat_eq_append]
      simp
    have hqA0 : q ∈ (Wlt s L k).filter (fun n => decide (i < lvl s n)) := by
      have h' := List.mem_filter.mp hqmem
      refine List.mem_filter.mpr ⟨h'.1, ?_⟩
      have := of_decide_eq_true h'.2
      simp only [decide_eq_true_eq]
      omega
    obtain ⟨P, S, hPS⟩ := List.append_of_mem hqA0
    have hlinks2 : linksTo s i s.header
        (P ++ q :: (S ++ (Bge s L k).filter (fun n => decide (i < lvl s n)))) none := by
      have : (Wlt s L k).filter (fun n => decide (i < lvl s n)) ++
          (Bge s L k).filter (fun n => decide (i < lvl s n)) =
          P ++ q :: (S ++ (Bge s L k).filter (fun n => decide (i < lvl s n))) := by
        rw [hPS]
        simp
      rw [this] at hlinks
      exact hlinks
    have hq := (linksTo_append_cons.mp hlinks2).2
    rw [hp]
    rw [searchLoop_spec s k i S _ q s.nodes.length hq
      (fun m hm => hA0k m (by rw [hPS]; simp [hm]))
      (fun m hm => hB0 m hm)
      (hWlen S (by
        have : S.Sublist ((Wlt s L k).filter (fun n => decide (i < lvl s n))) := by
          rw [hPS]
          exact ((S.sublist_cons_self q).trans (List.sublist_append_right P _))
        exact this.trans hA0sub))]
    unfold predAt
    rw [hPS, getLastD_append_cons]

theorem searchDown_spec {s : SL K} {L : List Nat} (hInv : Inv s L) (k : K) :
    ∀ i : Nat, i ≤ s.level → ∀ upd : List (Option Nat), upd.length = s.maxLevel →
    (searchDown s k i (predAt s L k (i + 1)) upd).2 = predAt s L k 0 ∧
    (searchDown s k i (predAt s L k (i + 1)) upd).1.length = s.maxLevel ∧
    ∀ j, (searchDown s k i (predAt s L k (i + 1)) upd).1.getD j none =
      if j ≤ i then some (predAt s L k j) else upd.getD j none := by
  intro i
  induction i with
  | zero =>
    intro _ upd hlen
    have hstep := level_step hInv k 0 (Nat.lt_of_le_of_lt (Nat.zero_le _) hInv.level_lt)
    have heq : searchDown s k 0 (predAt s L k (0 + 1)) upd =
        (upd.set 0 (some (predAt s L k 0)), predAt s L k 0) := by
      simp only [searchDown, hstep]
    rw [heq]
    refine ⟨rfl, by simpa using hlen, ?_⟩
    intro j
    by_cases hj : j = 0
    · subst hj
      rw [if_pos (Nat.le_refl 0)]
      have h0 : 0 < upd.length := by
        rw [hlen]; exact Nat.lt_of_le_of_lt (Nat.zero_le _) hInv.level_lt
      simp [List.getD_eq_getElem?_getD, List.getElem?_set, h0]
    · rw [if_neg (by omega)]
      simp [List.getD_eq_getElem?_getD, List.getElem?_set_ne (by omega : (0 : Nat) ≠ j)]
  | succ i ih =>
    intro hle upd hlen
    have hstep := level_step hInv k (i + 1) (Nat.lt_of_le_of_lt hle hInv.level_lt)
    have heq : searchDown s k (i + 1) (predAt s L k (i + 1 + 1)) upd =
        searchDown s k i (predAt s L k (i + 1)) (upd.set (i + 1) (some (predAt s L k (i + 1)))) := by
      simp only [searchDown, hstep]
    rw [heq]
    have hIH := ih (Nat.le_of_succ_le hle) (upd.set (i + 1) (some (predAt s L k (i + 1))))
      (by simpa using hlen)
    refine ⟨hIH.1, hIH.2.1, ?_⟩
    intro j
    rw [hIH.2.2 j]
    by_cases hj : j ≤ i
    · rw [if_pos hj, if_pos (by omega)]
    · rw [if_neg hj]
      by_cases hj2 : j = i + 1
      · subst hj2
        rw [if_pos (by omega)]
        have hi1 : i + 1 < upd.length := by
          rw [hlen]; exact Nat.lt_of_le_of_lt hle hInv.level_lt
        simp [List.getD_eq_getElem?_getD, List.getElem?_set, hi1]
      · rw [if_neg (by omega)]
        simp [List.getD_eq_getElem?_getD, List.getElem?_set_ne (by omega : i + 1 ≠ j)]

theorem search_spec {s : SL K} {L : List Nat} (hInv : Inv s L) (k : K) :
    (search s k).2 = (Bge s L k).head? ∧
    (search s k).1.length = s.maxLevel ∧
    ∀ j, (search s k).1.getD j none =
      if j ≤ s.level then some (predAt s L k j) else none := by
  have hhdr : predAt s L k (s.level + 1) = s.header := predAt_top hInv k _ (Nat.le_refl _)
  have hsd := searchDown_spec hInv k s.level (Nat.le_refl _)
    (List.replicate s.maxLevel none) (by simp)
  rw [hhdr] at hsd
  have hchain0 : linksTo s 0 s.header (Wlt s L k ++ Bge s L k) none := by
    have h0 := hInv.fwd_ok 0 (Nat.lt_of_le_of_lt (Nat.zero_le _) hInv.level_lt)
    have hc : chainAt s L 0 = L :=
      List.filter_eq_self.mpr (fun m hm => by simpa using hInv.lvl_pos m hm)
    rw [hc] at h0
    rw [← Wlt_append_Bge k hInv.sorted]
    exact h0
  have hW : (Wlt s L k).filter (fun n => decide (0 < lvl s n)) = Wlt s L k :=
    List.filter_eq_self.mpr (fun m hm => by simpa using hInv.lvl_pos m (mem_Wlt hm).1)
  have hfwd : fwd s (predAt s L k 0) 0 = (Bge s L k).head? := by
    cases hB : Bge s L k with
    | nil =>
      rw [hB, List.append_nil] at hchain0
      have hlast := linksTo_last hchain0
      unfold predAt
      rw [hW]
      simpa using hlast
    | cons b B' =>
      rw [hB] at hchain0
      have hlast := linksTo_last (linksTo_append_cons.mp hchain0).1
      unfold predAt
      rw [hW]
      simpa using hlast
  refine ⟨?_, ?_, ?_⟩
  · simp only [search]
    rw [hsd.1]
    exact hfwd
  · simp only [search]
    exact hsd.2.1
  · intro j
    simp only [search]
    rw [hsd.2.2 j]
    by_cases hj : j ≤ s.level
    · rw [if_pos hj, if_pos hj]
    · rw [if_neg hj, if_neg hj]
      rcases Nat.lt_or_ge j s.maxLevel with h | h
      · simp [List.getD_eq_getElem?_getD, List.getElem?_replicate, h]
      · simp [List.getD_eq_getElem?_getD, List.getElem?_replicate, Nat.not_lt.mpr h]

theorem found_iff {s : SL K} {L : List Nat} (hInv : Inv s L) (k : K) :
    keyExists s (search s k).2 k = true ↔ k ∈ chainKeys s L := by
  rw [show (search s k).2 = (Bge s L k).head? from (search_spec hInv k).1]
  constructor
  · intro h
    cases hB : (Bge s L k).head? with
    | none => rw [hB] at h; exact absurd h (by simp [keyExists])
    | some c =>
      rw [hB] at h
      have hck : nodeKey s c = k :=
        (cmp3_eq_zero_iff _ _).mp (by simpa [keyExists] using h)
      exact (key_mem_iff_head hInv.sorted).mpr ⟨c, hB, hck⟩
  · intro h
    obtain ⟨c, hc, hck⟩ := (key_mem_iff_head hInv.sorted).mp h
    rw [hc]
    simp [keyExists, cmp3_eq_zero_iff, hck]

/-! ## Characterisation of the splice loops -/

theorem foldl_set_length (u : List (Option Nat)) (hdr : Nat) (l : List Nat) :
    (l.foldl (fun u i => u.set i (some hdr)) u).length = u.length := by
  induction l generalizing u with
  | nil => rfl
  | cons a l ih => simpa using ih (u.set a (some hdr))

theorem foldl_set_range'_getD (hdr : Nat) (cnt : Nat) :
    ∀ (lo : Nat) (u : List (Option Nat)) (j : Nat),
    ((List.range' lo cnt).foldl (fun u i => u.set i (some hdr)) u).getD j none =
      if lo ≤ j ∧ j < lo + cnt ∧ j < u.length then some hdr else u.getD j none := by
  induction cnt with
  | zero =>
    intro lo u j
    rw [if_neg (by omega)]
    rfl
  | succ cnt ih =>
    intro lo u j
    rw [List.range'_succ]
    show ((List.range' (lo + 1) cnt).foldl _ (u.set lo (some hdr))).getD j none = _
    rw [ih (lo + 1) (u.set lo (some hdr)) j]
    by_cases h1 : lo + 1 ≤ j ∧ j < lo + 1 + cnt ∧ j < (u.set lo (some hdr)).length
    · rw [if_pos h1, if_pos (by simp at h1; omega)]
    · rw [if_neg h1]
      by_cases h2 : j = lo ∧ j < u.length
      · rw [if_pos (by omega)]
        simp [List.getD_eq_getElem?_getD, List.getElem?_set, h2.1.symm, h2.2]
      · rw [if_neg (by simp at h1; omega)]
        rcases eq_or_ne j lo with h3 | h3
        · subst h3
          have : ¬ j < u.length := fun hc => h2 ⟨rfl, hc⟩
          simp [List.getD_eq_getElem?_getD, List.getElem?_set, this,
            List.getElem?_eq_none (Nat.le_of_not_lt this)]
        · simp [List.getD_eq_getElem?_getD, List.getElem?_set_ne (fun hh => h3 hh.symm)]

theorem extendUpd_getD (upd : List (Option Nat)) (hdr lo hi j : Nat) (hlo : lo ≤ hi + 1) :
    (extendUpd upd hdr lo hi).getD j none =
      if lo ≤ j ∧ j ≤ hi ∧ j < upd.length then some hdr else upd.getD j none := by
  unfold extendUpd
  rw [foldl_set_range'_getD hdr (hi + 1 - lo) lo upd j]
  by_cases h : lo ≤ j ∧ j ≤ hi ∧ j < upd.length
  · rw [if_pos (by omega), if_pos h]
  · rw [if_neg (by omega), if_neg h]

theorem extendUpd_length (upd : List (Option Nat)) (hdr lo hi : Nat) :
    (extendUpd upd hdr lo hi).length = upd.length :=
  foldl_set_length upd hdr _

theorem splice_foldl (upd : List (Option Nat)) (newId : Nat) (u : Nat → Nat) (s2 : SL K)
    (hnb : newId < s2.nodes.length) :
    ∀ len : Nat,
    (∀ j < len, upd.getD j none = some (u j)) →
    (∀ j < len, u j ≠ newId) →
    (∀ j < len, u j < s2.nodes.length) →
    (∀ j < len, j < lvl s2 (u j)) →
    (∀ j < len, j < lvl s2 newId) →
    (∀ m j, fwd ((List.range len).foldl (spliceStep upd newId) s2) m j =
      if j < len ∧ m = newId then fwd s2 (u j) j
      else if j < len ∧ m = u j then some newId
      else fwd s2 m j) ∧
    (∀ m, lvl ((List.range len).foldl (spliceStep upd newId) s2) m = lvl s2 m) ∧
    (∀ m, nodeKey ((List.range len).foldl (spliceStep upd newId) s2) m = nodeKey s2 m) ∧
    (∀ m, (getN ((List.range len).foldl (spliceStep upd newId) s2) m).backward =
      (getN s2 m).backward) ∧
    (∀ m, (getN ((List.range len).foldl (spliceStep upd newId) s2) m).item =
      (getN s2 m).item) ∧
    ((List.range len).foldl (spliceStep upd newId) s2).nodes.length = s2.nodes.length ∧
    ((List.range len).foldl (spliceStep upd newId) s2).header = s2.header ∧
    ((List.range len).foldl (spliceStep upd newId) s2).level = s2.level ∧
    ((List.range len).foldl (spliceStep upd newId) s2).maxLevel = s2.maxLevel ∧
    ((List.range len).foldl (spliceStep upd newId) s2).length = s2.length := by
  intro len
  induction len with
  | zero =>
    intro _ _ _ _ _
    have h0 : (List.range 0).foldl (spliceStep upd newId) s2 = s2 := by simp
    rw [h0]
    refine ⟨?_, fun m => rfl, fun m => rfl, fun m => rfl, fun m => rfl, rfl, rfl, rfl, rfl, rfl⟩
    intro m j
    rw [if_neg (by omega), if_neg (by omega)]
  | succ len ih =>
    intro hu hne hub hul hnl
    obtain ⟨hf, hl, hk, hb, hi2, hlen2, hh, hlv, hm2, hln⟩ :=
      ih (fun j hj => hu j (by omega)) (fun j hj => hne j (by omega))
        (fun j hj => hub j (by omega)) (fun j hj => hul j (by omega))
        (fun j hj => hnl j (by omega))
    have hstep : (List.range (len + 1)).foldl (spliceStep upd newId) s2 =
        spliceStep upd newId ((List.range len).foldl (spliceStep upd newId) s2) len := by
      rw [List.range_succ, List.foldl_append]
      rfl
    set T := (List.range len).foldl (spliceStep upd newId) s2 with hT
    have hul' : upd.getD len none = some (u len) := hu len (by omega)
    have hTspl : spliceStep upd newId T len =
        setFwd (setFwd T newId len (fwd T (u len) len)) (u len) len (some newId) := by
      unfold spliceStep
      rw [hul']
    have hfTu : fwd T (u len) len = fwd s2 (u len) len := by
      rw [hf]
      rw [if_neg (by omega), if_neg (by omega)]
    rw [hstep, hTspl, hfTu]
    have hTlen : (setFwd T newId len (fwd s2 (u len) len)).nodes.length = s2.nodes.length := by
      rw [len_setFwd]; exact hlen2
    refine ⟨?_, ?_, ?_, ?_, ?_, ?_, ?_, ?_, ?_, ?_⟩
    · intro m j
      by_cases hc1 : m = u len ∧ j = len
      · rw [hc1.1, hc1.2]
        rw [fwd_setFwd_self _ _ _ _ (by rw [hTlen]; exact hub len (by omega))
          (by rw [lvl_setFwd, hl]; exact hul len (by omega))]
        rw [if_neg (fun hh => hne len (by omega) hh.2), if_pos ⟨by omega, rfl⟩]
      · by_cases hc2 : m = newId ∧ j = len
        · rw [hc2.1, hc2.2]
          rw [fwd_setFwd_ne _ _ _ _ _ _ (Or.inl (fun hh => hne len (by omega) hh.symm))]
          rw [fwd_setFwd_self _ _ _ _ (by rw [hlen2]; exact hnb)
            (by rw [hl]; exact hnl len (by omega))]
          rw [if_pos ⟨by omega, rfl⟩]
        · rw [fwd_setFwd_ne _ _ _ _ _ _ (by
            by_cases hmu : m = u len
            · exact Or.inr (fun hj => hc1 ⟨hmu, hj⟩)
            · exact Or.inl hmu)]
          rw [fwd_setFwd_ne _ _ _ _ _ _ (by
            by_cases hmn : m = newId
            · exact Or.inr (fun hj => hc2 ⟨hmn, hj⟩)
            · exact Or.inl hmn)]
          rw [hf]
          by_cases hj : j < len
          · have hj1 : j < len + 1 := by omega
            by_cases hmn : m = newId
            · rw [if_pos (show j < len ∧ m = newId from ⟨hj, hmn⟩),
                if_pos (show j < len + 1 ∧ m = newId from ⟨hj1, hmn⟩)]
            · rw [if_neg (show ¬ (j < len ∧ m = newId) from fun hh => hmn hh.2),
                if_neg (show ¬ (j < len + 1 ∧ m = newId) from fun hh => hmn hh.2)]
              by_cases hmu : m = u j
              · rw [if_pos (show j < len ∧ m = u j from ⟨hj, hmu⟩),
                  if_pos (show j < len + 1 ∧ m = u j from ⟨hj1, hmu⟩)]
              · rw [if_neg (show ¬ (j < len ∧ m = u j) from fun hh => hmu hh.2),
                  if_neg (show ¬ (j < len + 1 ∧ m = u j) from fun hh => hmu hh.2)]
          · by_cases hjl : j = len
            · have hmn : ¬ (j < len + 1 ∧ m = newId) := fun hh => hc2 ⟨hh.2, hjl⟩
              have hmu : ¬ (j < len + 1 ∧ m = u j) := fun hh => hc1 ⟨hjl ▸ hh.2, hjl⟩
              rw [if_neg (show ¬ (j < len ∧ m = newId) from fun hh => hj hh.1),
                if_neg (show ¬ (j < len ∧ m = u j) from fun hh => hj hh.1),
                if_neg hmn, if_neg hmu]
            · have hj1 : ¬ j < len + 1 := by omega
              rw [if_neg (show ¬ (j < len ∧ m = newId) from fun hh => hj hh.1),
                if_neg (show ¬ (j < len ∧ m = u j) from fun hh => hj hh.1),
                if_neg (show ¬ (j < len + 1 ∧ m = newId) from fun hh => hj1 hh.1),
                if_neg (show ¬ (j < len + 1 ∧ m = u j) from fun hh => hj1 hh.1)]
    · intro m
      rw [lvl_setFwd, lvl_setFwd]
      exact hl m
    · intro m
      rw [key_setFwd, key_setFwd]
      exact hk m
    · intro m
      rw [back_setFwd, back_setFwd]
      exact hb m
    · intro m
      rw [item_setFwd, item_setFwd]
      exact hi2 m
    · rw [len_setFwd, len_setFwd]
      exact hlen2
    · exact hh
    · exact hlv
    · exact hm2
    · exact hln

theorem unsplice_foldl (upd : List (Option Nat)) (c : Nat) (u : Nat → Nat) (s : SL K) :
    ∀ len : Nat,
    (∀ j < len, upd.getD j none = some (u j)) →
    (∀ j < len, u j ≠ c) →
    (∀ j < len, u j < s.nodes.length) →
    (∀ j < len, j < lvl s (u j)) →
    (∀ m j, fwd ((List.range len).foldl (unspliceStep upd c) s) m j =
      if j < len ∧ m = u j then fwd s c j else fwd s m j) ∧
    (∀ m, lvl ((List.range len).foldl (unspliceStep upd c) s) m = lvl s m) ∧
    (∀ m, nodeKey ((List.range len).foldl (unspliceStep upd c) s) m = nodeKey s m) ∧
    (∀ m, (getN ((List.range len).foldl (unspliceStep upd c) s) m).backward =
      (getN s m).backward) ∧
    (∀ m, (getN ((List.range len).foldl (unspliceStep upd c) s) m).item =
      (getN s m).item) ∧
    ((List.range len).foldl (unspliceStep upd c) s).nodes.length = s.nodes.length ∧
    ((List.range len).foldl (unspliceStep upd c) s).header = s.header ∧
    ((List.range len).foldl (unspliceStep upd c) s).level = s.level ∧
    ((List.range len).foldl (unspliceStep upd c) s).maxLevel = s.maxLevel ∧
    ((List.range len).foldl (unspliceStep upd c) s).length = s.length := by
  intro len
  induction len with
  | zero =>
    intro _ _ _ _
    have h0 : (List.range 0).foldl (unspliceStep upd c) s = s := by simp
    rw [h0]
    refine ⟨?_, fun m => rfl, fun m => rfl, fun m => rfl, fun m => rfl, rfl, rfl, rfl, rfl, rfl⟩
    intro m j
    rw [if_neg (by omega)]
  | succ len ih =>
    intro hu hne hub hul
    obtain ⟨hf, hl, hk, hb, hi2, hlen2, hh, hlv, hm2, hln⟩ :=
      ih (fun j hj => hu j (by omega)) (fun j hj => hne j (by omega))
        (fun j hj => hub j (by omega)) (fun j hj => hul j (by omega))
    have hstep : (List.range (len + 1)).foldl (unspliceStep upd c) s =
        unspliceStep upd c ((List.range len).foldl (unspliceStep upd c) s) len := by
      rw [List.range_succ, List.foldl_append]
      rfl
    set T := (List.range len).foldl (unspliceStep upd c) s with hT
    have hul' : upd.getD len none = some (u len) := hu len (by omega)
    have hTspl : unspliceStep upd c T len = setFwd T (u len) len (fwd T c len) := by
      unfold unspliceStep
      rw [hul']
    have hfTc : fwd T c len = fwd s c len := by
      rw [hf]
      rw [if_neg (show ¬ (len < len ∧ c = u len) from fun hh2 => absurd hh2.1 (by omega))]
    rw [hstep, hTspl, hfTc]
    refine ⟨?_, ?_, ?_, ?_, ?_, ?_, ?_, ?_, ?_, ?_⟩
    · intro m j
      by_cases hc1 : m = u len ∧ j = len
      · rw [hc1.1, hc1.2]
        rw [fwd_setFwd_self _ _ _ _ (by rw [hlen2]; exact hub len (by omega))
          (by rw [hl]; exact hul len (by omega))]
        rw [if_pos ⟨by omega, rfl⟩]
      · rw [fwd_setFwd_ne _ _ _ _ _ _ (by
          by_cases hmu : m = u len
          · exact Or.inr (fun hj => hc1 ⟨hmu, hj⟩)
          · exact Or.inl hmu)]
        rw [hf]
        by_cases hj : j < len
        · have hj1 : j < len + 1 := by omega
          by_cases hmu : m = u j
          · rw [if_pos (show j < len ∧ m = u j from ⟨hj, hmu⟩),
              if_pos (show j < len + 1 ∧ m = u j from ⟨hj1, hmu⟩)]
          · rw [if_neg (show ¬ (j < len ∧ m = u j) from fun hh2 => hmu hh2.2),
              if_neg (show ¬ (j < len + 1 ∧ m = u j) from fun hh2 => hmu hh2.2)]
        · by_cases hjl : j = len
          · have hmu : ¬ (j < len + 1 ∧ m = u j) := fun hh2 => hc1 ⟨hjl ▸ hh2.2, hjl⟩
            rw [if_neg (show ¬ (j < len ∧ m = u j) from fun hh2 => hj hh2.1), if_neg hmu]
          · have hj1 : ¬ j < len + 1 := by omega
            rw [if_neg (show ¬ (j < len ∧ m = u j) from fun hh2 => hj hh2.1),
              if_neg (show ¬ (j < len + 1 ∧ m = u j) from fun hh2 => hj1 hh2.1)]
    · intro m
      rw [lvl_setFwd]
      exact hl m
    · intro m
      rw [key_setFwd]
      exact hk m
    · intro m
      rw [back_setFwd]
      exact hb m
    · intro m
      rw [item_setFwd]
      exact hi2 m
    · rw [len_setFwd]
      exact hlen2
    · exact hh
    · exact hlv
    · exact hm2
    · exact hln

/-! ## Properties of the update-path nodes -/

theorem predAt_cases (s : SL K) (L : List Nat) (k : K) (i : Nat) :
    predAt s L k i = s.header ∨
      (predAt s L k i ∈ Wlt s L k ∧ i < lvl s (predAt s L k i)) := by
  unfold predAt
  rcases hA : (Wlt s L k).filter (fun n => decide (i < lvl s n)) with _ | ⟨a, A'⟩
  · exact Or.inl rfl
  · right
    have hmem : (a :: A').getLastD s.header ∈ a :: A' := by
      rw [List.getLastD_cons]
      exact List.getLastD_mem_cons A' a
    have hmem2 : (a :: A').getLastD s.header ∈
        (Wlt s L k).filter (fun n => decide (i < lvl s n)) := by
      rw [hA]; exact hmem
    have h3 := List.mem_filter.mp hmem2
    exact ⟨h3.1, by simpa using h3.2⟩

theorem predAt_lt {s : SL K} {L : List Nat} (hInv : Inv s L) (k : K) (i : Nat) :
    predAt s L k i < s.nodes.length := by
  rcases predAt_cases s L k i with h | h
  · rw [h]; exact hInv.header_lt
  · exact hInv.mem_lt _ (mem_Wlt h.1).1

theorem predAt_ne_newId {s : SL K} {L : List Nat} (hInv : Inv s L) (k : K) (i : Nat) :
    predAt s L k i ≠ s.nodes.length :=
  Nat.ne_of_lt (predAt_lt hInv k i)

theorem predAt_lvl {s : SL K} {L : List Nat} (hInv : Inv s L) (k : K) (i : Nat)
    (hi : i < s.maxLevel) : i < lvl s (predAt s L k i) := by
  rcases predAt_cases s L k i with h | h
  · rw [h, hInv.header_len]; exact hi
  · exact h.2

theorem predAt_ne_mem_Bge {s : SL K} {L : List Nat} (hInv : Inv s L) (k : K) (i : Nat)
    {b : Nat} (hb : b ∈ Bge s L k) : predAt s L k i ≠ b := by
  rcases predAt_cases s L k i with h | h
  · rw [h]
    exact fun hh => hInv.mem_ne b (mem_Bge hb).1 hh.symm
  · intro hh
    exact absurd ((mem_Wlt h.1).2) (hh ▸ (mem_Bge hb).2)

theorem fwd_predAt {s : SL K} {L : List Nat} (hInv : Inv s L) (k : K) (i : Nat)
    (hi : i < s.maxLevel) :
    fwd s (predAt s L k i) i =
      ((Bge s L k).filter (fun n => decide (i < lvl s n))).head? := by
  have hsplit := chainAt_split (s := s) (L := L) k i hInv.sorted
  have hlinks : linksTo s i s.header
      ((Wlt s L k).filter (fun n => decide (i < lvl s n)) ++
        (Bge s L k).filter (fun n => decide (i < lvl s n))) none := by
    rw [← hsplit]; exact hInv.fwd_ok i hi
  rcases hB : (Bge s L k).filter (fun n => decide (i < lvl s n)) with _ | ⟨b, B'⟩
  · rw [hB, List.append_nil] at hlinks
    have := linksTo_last hlinks
    unfold predAt
    simpa using this
  · rw [hB] at hlinks
    have := linksTo_last (linksTo_append_cons.mp hlinks).1
    unfold predAt
    simpa using this

/-! ## Insert preserves the invariants -/

theorem insert_existing {s : SL K} {L : List Nat} (hInv : Inv s L) (getKey : Nat → K)
    (it nl : Nat) (hk : getKey it ∈ chainKeys s L) :
    insertGo getKey s (some it) nl = (s, false) := by
  have hkeyEx : keyExists s (search s (getKey it)).2 (getKey it) = true :=
    (found_iff hInv (getKey it)).mpr hk
  simp only [insertGo, hkeyEx]
  rfl

theorem getN_oob (s : SL K) (m : Nat) (h : ¬ m < s.nodes.length) :
    getN s m = ⟨none, default, [], none⟩ := by
  simp [getN, List.getD_eq_getElem?_getD, List.getElem?_eq_none (Nat.le_of_not_lt h)]

theorem insert_new_shape {s : SL K} {L : List Nat} (hInv : Inv s L) (getKey : Nat → K)
    (it nl : Nat) (hk : getKey it ∉ chainKeys s L) (hnl : nl < s.maxLevel) :
    (insertGo getKey s (some it) nl).2 = true ∧
    (insertGo getKey s (some it) nl).1.nodes.length = s.nodes.length + 1 ∧
    (insertGo getKey s (some it) nl).1.header = s.header ∧
    (insertGo getKey s (some it) nl).1.maxLevel = s.maxLevel ∧
    (insertGo getKey s (some it) nl).1.level = max s.level nl ∧
    (insertGo getKey s (some it) nl).1.length = s.length + 1 ∧
    (∀ m, lvl (insertGo getKey s (some it) nl).1 m =
      if m = s.nodes.length then nl + 1 else lvl s m) ∧
    (∀ m, nodeKey (insertGo getKey s (some it) nl).1 m =
      if m = s.nodes.length then getKey it else nodeKey s m) ∧
    (∀ m, (getN (insertGo getKey s (some it) nl).1 m).item =
      if m = s.nodes.length then some it else (getN s m).item) ∧
    (∀ m j, fwd (insertGo getKey s (some it) nl).1 m j =
      if j ≤ nl ∧ m = s.nodes.length then fwd s (predAt s L (getKey it) j) j
      else if j ≤ nl ∧ m = predAt s L (getKey it) j then some s.nodes.length
      else fwd s m j) ∧
    (∀ m, (getN (insertGo getKey s (some it) nl).1 m).backward =
      if m = s.nodes.length then
        (if Wlt s L (getKey it) = [] then none else some (predAt s L (getKey it) 0))
      else if (Bge s L (getKey it)).head? = some m then some s.nodes.length
      else (getN s m).backward) := by
  set k := getKey it with hkdef
  have hkeyEx : keyExists s (search s k).2 k = false := by
    rcases hE : keyExists s (search s k).2 k
    · rfl
    · exact absurd ((found_iff hInv k).mp hE) hk
  set upd := (if s.level < nl then extendUpd (search s k).1 s.header (s.level + 1) nl
    else (search s k).1) with hupddef
  set nd : Node K := ⟨some it, k, List.replicate (nl + 1) none, none⟩ with hnddef
  set s2 : SL K := { s with level := max s.level nl, nodes := s.nodes ++ [nd] } with hs2def
  set s3 := (List.range (nl + 1)).foldl (spliceStep upd s.nodes.length) s2 with hs3def
  set s4 := (match fwd s3 s.nodes.length 0 with
    | some nx => setBack s3 nx (some s.nodes.length)
    | none => s3) with hs4def
  set s5 := (match upd.getD 0 none with
    | some u0 => if u0 = s4.header then s4 else setBack s4 s.nodes.length (some u0)
    | none => s4) with hs5def
  have hres : insertGo getKey s (some it) nl = ({ s5 with length := s5.length + 1 }, true) := by
    simp only [insertGo]
    rw [hkeyEx]
    simp only [Bool.false_eq_true, if_false]
  -- the update path entries for the levels being spliced
  have hsspec := search_spec hInv k
  have hupd : ∀ j, j ≤ nl → upd.getD j none = some (predAt s L k j) := by
    intro j hj
    by_cases hlc : s.level < nl
    · rw [hupddef, if_pos hlc, extendUpd_getD _ _ _ _ _ (by omega)]
      by_cases hjl : s.level + 1 ≤ j
      · rw [if_pos ⟨hjl, hj, by rw [hsspec.2.1]; omega⟩, predAt_top hInv k j hjl]
      · rw [if_neg (fun hh => hjl hh.1), hsspec.2.2 j, if_pos (by omega)]
    · rw [hupddef, if_neg hlc, hsspec.2.2 j, if_pos (by omega)]
  -- the store right after allocating the new node
  have hgetN2 : ∀ m, getN s2 m = if m = s.nodes.length then nd else getN s m := by
    intro m
    by_cases hm : m = s.nodes.length
    · rw [hm, if_pos rfl]
      show (s.nodes ++ [nd]).getD s.nodes.length _ = nd
      simp [List.getD_eq_getElem?_getD, List.getElem?_append_right (Nat.le_refl _)]
    · rw [if_neg hm]
      by_cases hm2 : m < s.nodes.length
      · show (s.nodes ++ [nd]).getD m _ = getN s m
        simp only [getN, List.getD_eq_getElem?_getD, List.getElem?_append]
        rw [if_pos hm2]
      · have hm3 : ¬ m < s.nodes.length + 1 := by
          rcases Nat.lt_or_ge m (s.nodes.length + 1) with h | h
          · exact absurd (by omega : m = s.nodes.length) hm
          · omega
        have hoob : getN s2 m = ⟨none, default, [], none⟩ := by
          apply getN_oob
          show ¬ m < (s.nodes ++ [nd]).length
          simpa using hm3
        rw [hoob, getN_oob s m hm2]
  have hlen2 : s2.nodes.length = s.nodes.length + 1 := by
    show (s.nodes ++ [nd]).length = _
    simp
  have hfwd2 : ∀ m j, fwd s2 m j = if m = s.nodes.length then none else fwd s m j := by
    intro m j
    unfold fwd
    rw [hgetN2 m]
    by_cases hm : m = s.nodes.length
    · rw [if_pos hm, if_pos hm, hnddef]
      show (List.replicate (nl + 1) (none : Option Nat)).getD j none = none
      rcases Nat.lt_or_ge j (nl + 1) with h | h
      · simp [List.getD_eq_getElem?_getD, List.getElem?_replicate, h]
      · simp [List.getD_eq_getElem?_getD, List.getElem?_replicate, Nat.not_lt.mpr h]
    · rw [if_neg hm, if_neg hm]
  have hlvl2 : ∀ m, lvl s2 m = if m = s.nodes.length then nl + 1 else lvl s m := by
    intro m
    unfold lvl
    rw [hgetN2 m]
    by_cases hm : m = s.nodes.length
    · rw [if_pos hm, if_pos hm, hnddef]
      simp
    · rw [if_neg hm, if_neg hm]
  have hkey2 : ∀ m, nodeKey s2 m = if m = s.nodes.length then k else nodeKey s m := by
    intro m
    unfold nodeKey
    rw [hgetN2 m]
    by_cases hm : m = s.nodes.length
    · rw [if_pos hm, if_pos hm]
    · rw [if_neg hm, if_neg hm]
  -- splice-loop description
  have hsplice := splice_foldl upd s.nodes.length (predAt s L k) s2
    (by rw [hlen2]; omega) (nl + 1)
    (fun j hj => hupd j (by omega))
    (fun j hj => predAt_ne_newId hInv k j)
    (fun j hj => by
      rw [hlen2]
      have := predAt_lt hInv k j
      omega)
    (fun j hj => by
      rw [hlvl2, if_neg (predAt_ne_newId hInv k j)]
      exact predAt_lvl hInv k j (by omega))
    (fun j hj => by rw [hlvl2, if_pos rfl]; omega)
  obtain ⟨hf3, hl3, hk3, hb3, hi3, hlen3, hh3, hlv3, hm3, hln3⟩ := hsplice
  have hf3' : ∀ m j, fwd s3 m j =
      if j ≤ nl ∧ m = s.nodes.length then fwd s (predAt s L k j) j
      else if j ≤ nl ∧ m = predAt s L k j then some s.nodes.length
      else fwd s m j := by
    intro m j
    rw [hf3 m j]
    by_cases h1 : j < nl + 1 ∧ m = s.nodes.length
    · rw [if_pos h1, if_pos (show j ≤ nl ∧ m = s.nodes.length from ⟨by omega, h1.2⟩),
        hfwd2, if_neg (predAt_ne_newId hInv k j)]
    · rw [if_neg h1]
      by_cases h2 : j < nl + 1 ∧ m = predAt s L k j
      · rw [if_pos h2,
          if_neg (show ¬ (j ≤ nl ∧ m = s.nodes.length) from fun hh => h1 ⟨by omega, hh.2⟩),
          if_pos (show j ≤ nl ∧ m = predAt s L k j from ⟨by omega, h2.2⟩)]
      · rw [if_neg h2,
          if_neg (show ¬ (j ≤ nl ∧ m = s.nodes.length) from fun hh => h1 ⟨by omega, hh.2⟩),
          if_neg (show ¬ (j ≤ nl ∧ m = predAt s L k j) from fun hh => h2 ⟨by omega, hh.2⟩),
          hfwd2]
        by_cases hm : m = s.nodes.length
        · rw [if_pos hm, hm]
          show (none : Option Nat) = fwd s s.nodes.length j
          unfold fwd
          rw [getN_oob s _ (by omega)]
          rfl
        · rw [if_neg hm]
  -- the backward fixups
  have hBfilter : (Bge s L k).filter (fun n => decide (0 < lvl s n)) = Bge s L k :=
    List.filter_eq_self.mpr (fun m hm => by simpa using hInv.lvl_pos m (mem_Bge hm).1)
  have hfwd30 : fwd s3 s.nodes.length 0 = (Bge s L k).head? := by
    rw [hf3' s.nodes.length 0, if_pos ⟨by omega, rfl⟩, fwd_predAt hInv k 0 (by omega),
      hBfilter]
  have hBne_newId : ∀ b, (Bge s L k).head? = some b → b ≠ s.nodes.length := by
    intro b hb hbn
    have := hInv.mem_lt b (mem_Bge (List.mem_of_mem_head? hb)).1
    omega
  have hback4 : ∀ m, (getN s4 m).backward =
      if (Bge s L k).head? = some m then some s.nodes.length
      else (getN s3 m).backward := by
    intro m
    rw [hs4def, hfwd30]
    rcases hB : (Bge s L k).head? with _ | b
    · rw [if_neg (by simp)]
    · show (getN (setBack s3 b (some s.nodes.length)) m).backward = _
      by_cases hm : b = m
      · rw [if_pos (by rw [hm]), ← hm,
          back_setBack_self _ _ _ (by
            rw [hlen3, hlen2]
            have := hInv.mem_lt b (mem_Bge (List.mem_of_mem_head? hB)).1
            omega)]
      · rw [if_neg (by simpa using hm),
          back_setBack_ne _ _ _ _ (fun hh => hm hh.symm)]
  have hfwd4 : ∀ m j, fwd s4 m j = fwd s3 m j := by
    intro m j
    rw [hs4def]
    rcases hB : fwd s3 s.nodes.length 0 with _ | b
    · rfl
    · exact fwd_setBack _ _ _ _ _
  have hoth4 : (∀ m, lvl s4 m = lvl s3 m) ∧ (∀ m, nodeKey s4 m = nodeKey s3 m) ∧
      (∀ m, (getN s4 m).item = (getN s3 m).item) ∧
      s4.nodes.length = s3.nodes.length ∧ s4.header = s3.header ∧ s4.level = s3.level ∧
      s4.maxLevel = s3.maxLevel ∧ s4.length = s3.length := by
    rw [hs4def]
    rcases hB : fwd s3 s.nodes.length 0 with _ | b
    · exact ⟨fun m => rfl, fun m => rfl, fun m => rfl, rfl, rfl, rfl, rfl, rfl⟩
    · exact ⟨fun m => lvl_setBack _ _ _ _, fun m => key_setBack _ _ _ _,
        fun m => item_setBack _ _ _ _, len_setBack _ _ _, rfl, rfl, rfl, rfl⟩
  obtain ⟨hl4, hk4, hi4, hlen4, hh4, hlv4, hm4, hln4⟩ := hoth4
  -- the final backward fixup on the new node itself
  have hWfilter : (Wlt s L k).filter (fun n => decide (0 < lvl s n)) = Wlt s L k :=
    List.filter_eq_self.mpr (fun m hm => by simpa using hInv.lvl_pos m (mem_Wlt hm).1)
  have hp0 : predAt s L k 0 = (Wlt s L k).getLastD s.header := by
    unfold predAt
    rw [hWfilter]
  have hs4hdr : s4.header = s.header := by rw [hh4, hh3]
  have hs5eq : s5 = if Wlt s L k = [] then s4
      else setBack s4 s.nodes.length (some (predAt s L k 0)) := by
    rw [hs5def, hupd 0 (by omega)]
    show (if predAt s L k 0 = s4.header then s4
      else setBack s4 s.nodes.length (some (predAt s L k 0))) = _
    rcases hW : Wlt s L k with _ | ⟨w, W'⟩
    · rw [if_pos (by rw [hp0, hW, hs4hdr]; rfl), if_pos rfl]
    · rw [if_neg (by
        rw [hp0, hW, hs4hdr, List.getLastD_cons]
        intro hh
        exact hInv.mem_ne _ ((mem_Wlt (hW ▸ List.getLastD_mem_cons W' w)).1) hh),
        if_neg (by simp)]
  have hnewId4 : s.nodes.length < s4.nodes.length := by
    rw [hlen4, hlen3, hlen2]
    omega
  have hback5 : ∀ m, (getN s5 m).backward =
      if m = s.nodes.length then (if Wlt s L k = [] then none else some (predAt s L k 0))
      else if (Bge s L k).head? = some m then some s.nodes.length
      else (getN s m).backward := by
    intro m
    rw [hs5eq]
    by_cases hm : m = s.nodes.length
    · rw [if_pos hm]
      rcases hW : Wlt s L k with _ | ⟨w, W'⟩
      · rw [if_pos rfl, if_pos rfl, hm, hback4,
          if_neg (fun hh => hBne_newId _ hh rfl), hb3, hgetN2, if_pos rfl, hnddef]
      · rw [if_neg (by simp), if_neg (by simp), hm,
          back_setBack_self _ _ _ hnewId4]
    · rw [if_neg hm]
      have hrest : (getN s4 m).backward =
          if (Bge s L k).head? = some m then some s.nodes.length
          else (getN s m).backward := by
        rw [hback4]
        by_cases hBm : (Bge s L k).head? = some m
        · rw [if_pos hBm, if_pos hBm]
        · rw [if_neg hBm, if_neg hBm, hb3, hgetN2, if_neg hm]
      rcases hW : Wlt s L k with _ | ⟨w, W'⟩
      · rw [if_pos rfl]
        exact hrest
      · rw [if_neg (by simp), back_setBack_ne _ _ _ _ hm]
        exact hrest
  have hfwd5 : ∀ m j, fwd s5 m j = fwd s3 m j := by
    intro m j
    rw [hs5eq]
    rcases hW : Wlt s L k with _ | ⟨w, W'⟩
    · rw [if_pos rfl, hfwd4]
    · rw [if_neg (by simp), fwd_setBack, hfwd4]
  have hoth5 : (∀ m, lvl s5 m = lvl s3 m) ∧ (∀ m, nodeKey s5 m = nodeKey s3 m) ∧
      (∀ m, (getN s5 m).item = (getN s3 m).item) ∧
      s5.nodes.length = s3.nodes.length ∧ s5.header = s3.header ∧ s5.level = s3.level ∧
      s5.maxLevel = s3.maxLevel ∧ s5.length = s3.length := by
    rw [hs5eq]
    rcases hW : Wlt s L k with _ | ⟨w, W'⟩
    · rw [if_pos rfl]
      exact ⟨hl4, hk4, hi4, hlen4, hh4, hlv4, hm4, hln4⟩
    · rw [if_neg (by simp)]
      exact ⟨fun m => (lvl_setBack _ _ _ _).trans (hl4 m),
        fun m => (key_setBack _ _ _ _).trans (hk4 m),
        fun m => (item_setBack _ _ _ _).trans (hi4 m),
        (len_setBack _ _ _).trans hlen4, hh4, hlv4, hm4, hln4⟩
  obtain ⟨hl5, hk5, hi5, hlen5, hh5, hlv5, hm5, hln5⟩ := hoth5
  -- assemble
  rw [hres]
  refine ⟨rfl, ?_, ?_, ?_, ?_, ?_, ?_, ?_, ?_, ?_, ?_⟩
  · show s5.nodes.length = _
    rw [hlen5, hlen3, hlen2]
  · show s5.header = _
    rw [hh5, hh3]
  · show s5.maxLevel = _
    rw [hm5, hm3]
  · show s5.level = _
    rw [hlv5, hlv3]
  · show s5.length + 1 = _
    rw [hln5, hln3]
  · intro m
    show lvl s5 m = _
    rw [hl5, hl3, hlvl2]
  · intro m
    show nodeKey s5 m = _
    rw [hk5, hk3, hkey2]
  · intro m
    show (getN s5 m).item = _
    rw [hi5, hi3, hgetN2]
    by_cases hm : m = s.nodes.length
    · rw [if_pos hm, if_pos hm, hnddef]
    · rw [if_neg hm, if_neg hm]
  · intro m j
    show fwd s5 m j = _
    rw [hfwd5, hf3']
  · intro m
    show (getN s5 m).backward = _
    rw [hback5]

theorem chain'_imp_mem {α : Type} {R S : α → α → Prop} :
    ∀ (l : List α), (∀ a b, a ∈ l → b ∈ l → R a b → S a b) → l.Chain' R → l.Chain' S := by
  intro l
  induction l with
  | nil => intro _ _; exact List.chain'_nil
  | cons x l ih =>
    intro himp hch
    rw [List.chain'_cons'] at hch ⊢
    refine ⟨?_, ih (fun a b ha hb => himp a b (by simp [ha]) (by simp [hb])) hch.2⟩
    intro y hy
    exact himp x y (by simp) (by simp [List.mem_of_mem_head? hy]) (hch.1 y hy)

theorem insert_new_inv {s : SL K} {L : List Nat} (hInv : Inv s L) (getKey : Nat → K)
    (it nl : Nat) (hk : getKey it ∉ chainKeys s L) (hnl : nl < s.maxLevel) :
    Inv (insertGo getKey s (some it) nl).1
      (Wlt s L (getKey it) ++ s.nodes.length :: Bge s L (getKey it)) := by
  obtain ⟨-, hlen', hh', hm', hlv', -, hlvl', hkey', hitem', hfwd', hback'⟩ :=
    insert_new_shape hInv getKey it nl hk hnl
  have hWB : L = Wlt s L (getKey it) ++ Bge s L (getKey it) :=
    Wlt_append_Bge (getKey it) hInv.sorted
  have hWmem : ∀ n ∈ Wlt s L (getKey it), n ∈ L := fun n hn => (mem_Wlt hn).1
  have hBmem : ∀ n ∈ Bge s L (getKey it), n ∈ L := fun n hn => (mem_Bge hn).1
  have hmemL : ∀ n ∈ L, n < s.nodes.length := hInv.mem_lt
  have hWne : ∀ n ∈ Wlt s L (getKey it), n ≠ s.nodes.length :=
    fun n hn hh => by have := hmemL n (hWmem n hn); omega
  have hBne : ∀ n ∈ Bge s L (getKey it), n ≠ s.nodes.length :=
    fun n hn hh => by have := hmemL n (hBmem n hn); omega
  have hBgt : ∀ n ∈ Bge s L (getKey it), getKey it < nodeKey s n := by
    intro n hn
    rcases lt_or_eq_of_le (not_lt.mp (mem_Bge hn).2) with h | h
    · exact h
    · exact absurd (h ▸ List.mem_map_of_mem (nodeKey s) (hBmem n hn)) hk
  have hWBdisj : ∀ n ∈ Wlt s L (getKey it), n ∉ Bge s L (getKey it) := by
    intro n hnW hnB
    exact absurd ((mem_Wlt hnW).2) ((mem_Bge hnB).2).elim
  have hNnotin : s.nodes.length ∉ Wlt s L (getKey it) ++ Bge s L (getKey it) := by
    intro hmem
    rcases List.mem_append.mp hmem with h | h
    · exact hWne _ h rfl
    · exact hBne _ h rfl
  -- the level-i slice of the new chain
  have hchainAt : ∀ i, chainAt (insertGo getKey s (some it) nl).1
      (Wlt s L (getKey it) ++ s.nodes.length :: Bge s L (getKey it)) i =
      (Wlt s L (getKey it)).filter (fun n => decide (i < lvl s n)) ++
        (if i ≤ nl then [s.nodes.length] else []) ++
        (Bge s L (getKey it)).filter (fun n => decide (i < lvl s n)) := by
    intro i
    unfold chainAt
    rw [List.filter_append, List.filter_cons]
    have hWf : (Wlt s L (getKey it)).filter
        (fun n => decide (i < lvl (insertGo getKey s (some it) nl).1 n)) =
        (Wlt s L (getKey it)).filter (fun n => decide (i < lvl s n)) := by
      apply List.filter_congr
      intro n hn
      rw [hlvl' n, if_neg (hWne n hn)]
    have hBf : (Bge s L (getKey it)).filter
        (fun n => decide (i < lvl (insertGo getKey s (some it) nl).1 n)) =
        (Bge s L (getKey it)).filter (fun n => decide (i < lvl s n)) := by
      apply List.filter_congr
      intro n hn
      rw [hlvl' n, if_neg (hBne n hn)]
    rw [hWf, hBf]
    by_cases hi : i ≤ nl
    · rw [if_pos (by rw [hlvl' s.nodes.length, if_pos rfl]; simpa using by omega),
        if_pos hi]
      simp
    · rw [if_neg (by rw [hlvl' s.nodes.length, if_pos rfl]; simpa using by omega),
        if_neg hi]
      simp
  -- the nodes whose forward pointers were touched
  have hfwd'' : ∀ m j, m ≠ s.nodes.length → m ≠ predAt s L (getKey it) j →
      fwd (insertGo getKey s (some it) nl).1 m j = fwd s m j := by
    intro m j h1 h2
    rw [hfwd' m j, if_neg (fun hh => h1 hh.2), if_neg (fun hh => h2 hh.2)]
  refine ⟨?_, ?_, ?_, ?_, ?_, ?_, ?_, ?_, ?_, ?_, ?_, ?_, ?_, ?_⟩
  · rw [hh', hlen']
    have := hInv.header_lt
    omega
  · rw [hh', hm', hlvl', if_neg (by have := hInv.header_lt; omega)]
    exact hInv.header_len
  · rw [hh', hback' s.header, if_neg (by have := hInv.header_lt; omega),
      if_neg (fun hh => hInv.mem_ne _
        (hBmem _ (List.mem_of_mem_head? (Option.mem_def.mpr hh))) rfl)]
    exact hInv.header_back
  · rw [hlv', hm']
    have := hInv.level_lt
    omega
  · intro n hn
    rw [hlen']
    rcases List.mem_append.mp hn with h | h
    · have := hmemL n (hWmem n h); omega
    · rcases List.mem_cons.mp h with h | h
      · omega
      · have := hmemL n (hBmem n h); omega
  · intro n hn
    rw [hh']
    rcases List.mem_append.mp hn with h | h
    · exact hInv.mem_ne n (hWmem n h)
    · rcases List.mem_cons.mp h with h | h
      · rw [h]
        have := hInv.header_lt
        omega
      · exact hInv.mem_ne n (hBmem n h)
  · rw [List.nodup_middle, List.nodup_cons]
    exact ⟨hNnotin, hWB ▸ hInv.nodup⟩
  · -- sortedness of the new key list
    have hmapeq : chainKeys (insertGo getKey s (some it) nl).1
        (Wlt s L (getKey it) ++ s.nodes.length :: Bge s L (getKey it)) =
        (Wlt s L (getKey it)).map (nodeKey s) ++
          getKey it :: (Bge s L (getKey it)).map (nodeKey s) := by
      unfold chainKeys
      rw [List.map_append, List.map_cons]
      congr 1
      · apply List.map_congr_left
        intro n hn
        rw [hkey' n, if_neg (hWne n hn)]
      · congr 1
        · rw [hkey' s.nodes.length, if_pos rfl]
        · apply List.map_congr_left
          intro n hn
          rw [hkey' n, if_neg (hBne n hn)]
    rw [hmapeq]
    have hold : ((Wlt s L (getKey it)).map (nodeKey s) ++
        (Bge s L (getKey it)).map (nodeKey s)).Pairwise (· < ·) := by
      have := hInv.sorted
      rw [show chainKeys s L = (Wlt s L (getKey it)).map (nodeKey s) ++
        (Bge s L (getKey it)).map (nodeKey s) by
          unfold chainKeys
          rw [← List.map_append, ← hWB]] at this
      exact this
    rw [List.pairwise_append] at hold ⊢
    refine ⟨hold.1, ?_, ?_⟩
    · rw [List.pairwise_cons]
      refine ⟨?_, hold.2.1⟩
      intro b hb
      obtain ⟨n, hn, rfl⟩ := List.mem_map.mp hb
      exact hBgt n hn
    · intro a ha b hb
      rcases List.mem_cons.mp hb with h | h
      · obtain ⟨n, hn, rfl⟩ := List.mem_map.mp ha
        rw [h]
        exact (mem_Wlt hn).2
      · exact hold.2.2 a ha b h
  · intro n hn
    rw [hlvl' n]
    rcases List.mem_append.mp hn with h | h
    · rw [if_neg (hWne n h)]
      exact hInv.lvl_pos n (hWmem n h)
    · rcases List.mem_cons.mp h with h | h
      · rw [if_pos h]; omega
      · rw [if_neg (hBne n h)]
        exact hInv.lvl_pos n (hBmem n h)
  · intro n hn
    rw [hlvl' n, hlv']
    rcases List.mem_append.mp hn with h | h
    · rw [if_neg (hWne n h)]
      have := hInv.lvl_le n (hWmem n h)
      omega
    · rcases List.mem_cons.mp h with h | h
      · rw [if_pos h]; omega
      · rw [if_neg (hBne n h)]
        have := hInv.lvl_le n (hBmem n h)
        omega
  · intro n hn
    rw [hitem' n]
    rcases List.mem_append.mp hn with h | h
    · rw [if_neg (hWne n h)]
      exact hInv.item_ne n (hWmem n h)
    · rcases List.mem_cons.mp h with h | h
      · rw [if_pos h]; simp
      · rw [if_neg (hBne n h)]
        exact hInv.item_ne n (hBmem n h)
  · -- the forward chains at every level
    intro i hi
    rw [hm'] at hi
    rw [hh', hchainAt i]
    have hold : linksTo s i s.header
        ((Wlt s L (getKey it)).filter (fun n => decide (i < lvl s n)) ++
          (Bge s L (getKey it)).filter (fun n => decide (i < lvl s n))) none := by
      rw [← chainAt_split (getKey it) i hInv.sorted]
      exact hInv.fwd_ok i hi
    have hpredeq : predAt s L (getKey it) i =
        ((Wlt s L (getKey it)).filter (fun n => decide (i < lvl s n))).getLastD s.header :=
      rfl
    have hAnodup : (s.header :: (Wlt s L (getKey it)).filter
        (fun n => decide (i < lvl s n))).Nodup := by
      rw [List.nodup_cons]
      constructor
      · intro hmem
        exact hInv.mem_ne _ (hWmem _ (List.mem_of_mem_filter hmem)) rfl
      · have hWsub : (Wlt s L (getKey it)).Sublist L := by
          conv_rhs => rw [hWB]
          exact List.sublist_append_left _ _
        exact List.Nodup.sublist ((List.filter_sublist _).trans hWsub) hInv.nodup
    have hAmem : ∀ m ∈ s.header :: (Wlt s L (getKey it)).filter
        (fun n => decide (i < lvl s n)), m ≠ s.nodes.length := by
      intro m hm
      rcases List.mem_cons.mp hm with h | h
      · rw [h]; have := hInv.header_lt; omega
      · exact hWne _ (List.mem_of_mem_filter h)
    by_cases hile : i ≤ nl
    · rw [if_pos hile]
      have hfwdN : fwd (insertGo getKey s (some it) nl).1 s.nodes.length i =
          ((Bge s L (getKey it)).filter (fun n => decide (i < lvl s n))).head? := by
        rw [hfwd' s.nodes.length i, if_pos ⟨hile, rfl⟩, fwd_predAt hInv (getKey it) i hi]
      have hfwdP : fwd (insertGo getKey s (some it) nl).1 (predAt s L (getKey it) i) i =
          some s.nodes.length := by
        rw [hfwd' _ i, if_neg (fun hh => predAt_ne_newId hInv (getKey it) i hh.2),
          if_pos ⟨hile, rfl⟩]
      have hpart1 : linksTo (insertGo getKey s (some it) nl).1 i s.header
          ((Wlt s L (getKey it)).filter (fun n => decide (i < lvl s n)))
          (some s.nodes.length) := by
        have holdA : linksTo s i s.header
            ((Wlt s L (getKey it)).filter (fun n => decide (i < lvl s n)))
            (((Bge s L (getKey it)).filter (fun n => decide (i < lvl s n))).head?) := by
          rcases hBi : (Bge s L (getKey it)).filter (fun n => decide (i < lvl s n)) with
            _ | ⟨b, B'⟩
          · rw [hBi, List.append_nil] at hold
            exact hold
          · rw [hBi] at hold
            exact (linksTo_append_cons.mp hold).1
        refine linksTo_retarget holdA hAnodup (by rw [← hpredeq]; exact hfwdP) ?_
        intro m hm hm2
        refine hfwd'' m i (hAmem m hm) ?_
        rw [hpredeq]
        exact hm2
      have hpart2 : linksTo (insertGo getKey s (some it) nl).1 i s.nodes.length
          ((Bge s L (getKey it)).filter (fun n => decide (i < lvl s n))) none := by
        rcases hBi : (Bge s L (getKey it)).filter (fun n => decide (i < lvl s n)) with
          _ | ⟨b, B'⟩
        · show fwd _ _ i = none
          rw [hfwdN, hBi]
          rfl
        · refine linksTo_cons.mpr ⟨by rw [hfwdN, hBi]; rfl, ?_⟩
          have holdB : linksTo s i b B' none := by
            rw [hBi] at hold
            exact (linksTo_append_cons.mp hold).2
          refine linksTo_congr ?_ holdB
          intro m hm
          have hmB : m ∈ Bge s L (getKey it) := by
            rcases List.mem_cons.mp hm with h | h
            · rw [h]
              exact List.mem_of_mem_filter (hBi ▸ List.mem_cons_self b B')
            · exact List.mem_of_mem_filter (hBi ▸ List.mem_cons_of_mem b h)
          exact hfwd'' m i (hBne m hmB) (Ne.symm (predAt_ne_mem_Bge hInv (getKey it) i hmB))
      rw [show (Wlt s L (getKey it)).filter (fun n => decide (i < lvl s n)) ++
          [s.nodes.length] ++
          (Bge s L (getKey it)).filter (fun n => decide (i < lvl s n)) =
          (Wlt s L (getKey it)).filter (fun n => decide (i < lvl s n)) ++
          s.nodes.length ::
          (Bge s L (getKey it)).filter (fun n => decide (i < lvl s n)) by simp]
      exact linksTo_append_cons.mpr ⟨hpart1, hpart2⟩
    · rw [if_neg hile, List.append_nil]
      have hfwdhi : ∀ m, fwd (insertGo getKey s (some it) nl).1 m i = fwd s m i := by
        intro m
        rw [hfwd' m i, if_neg (fun hh => hile hh.1), if_neg (fun hh => hile hh.1)]
      exact linksTo_congr (fun m _ => hfwdhi m) hold
  · -- the first node's backward pointer is absent
    rw [hh']
    rcases hW : Wlt s L (getKey it) with _ | ⟨w, W'⟩
    · rw [show ((([] : List Nat)) ++ s.nodes.length :: Bge s L (getKey it)).headD s.header =
        s.nodes.length from rfl]
      rw [hback' _, if_pos rfl, if_pos hW]
    · rw [show ((w :: W') ++ s.nodes.length :: Bge s L (getKey it)).headD s.header = w from
        rfl]
      have hwW : w ∈ Wlt s L (getKey it) := by rw [hW]; simp
      rw [hback' w, if_neg (hWne w hwW),
        if_neg (fun hh => hWBdisj w hwW
          (List.mem_of_mem_head? (Option.mem_def.mpr hh)))]
      have hhd : L.headD s.header = w := by
        rw [hWB, hW]
        rfl
      rw [← hhd]
      exact hInv.back_head
  · -- the backward pointers along the chain
    have hBsub : (Bge s L (getKey it)).Sublist L := by
      conv_rhs => rw [hWB]
      exact List.sublist_append_right _ _
    have hBnodup : (Bge s L (getKey it)).Nodup := List.Nodup.sublist hBsub hInv.nodup
    have holdWB : (Wlt s L (getKey it) ++ Bge s L (getKey it)).Chain'
        (fun a b => (getN s b).backward = some a) := by
      rw [← hWB]
      exact hInv.back_chain
    have holdW := (List.chain'_append.mp holdWB).1
    have holdB := (List.chain'_append.mp holdWB).2.1
    rw [List.chain'_append]
    refine ⟨?_, ?_, ?_⟩
    · refine chain'_imp_mem _ ?_ holdW
      intro a b _ hb hr
      show (getN (insertGo getKey s (some it) nl).1 b).backward = some a
      rw [hback' b, if_neg (hWne b hb),
        if_neg (fun hh => hWBdisj b hb
          (List.mem_of_mem_head? (Option.mem_def.mpr hh)))]
      exact hr
    · rw [List.chain'_cons']
      constructor
      · intro y hy
        have hyB : y ∈ Bge s L (getKey it) := List.mem_of_mem_head? hy
        show (getN (insertGo getKey s (some it) nl).1 y).backward = some s.nodes.length
        rw [hback' y, if_neg (hBne y hyB), if_pos (Option.mem_def.mp hy)]
      · rcases hBc : Bge s L (getKey it) with _ | ⟨bb, B'⟩
        · exact List.chain'_nil
        · rw [hBc] at holdB hBnodup
          rw [List.chain'_cons'] at holdB ⊢
          have hbbB' : bb ∉ B' := (List.nodup_cons.mp hBnodup).1
          constructor
          · intro y hy
            have hyB' : y ∈ B' := List.mem_of_mem_head? hy
            have hyB : y ∈ Bge s L (getKey it) := by
              rw [hBc]
              exact List.mem_cons_of_mem bb hyB'
            show (getN (insertGo getKey s (some it) nl).1 y).backward = some bb
            rw [hback' y, if_neg (hBne y hyB), if_neg (by
              rw [hBc]
              intro hh
              exact hbbB' ((Option.some.injEq _ _ ▸ hh : bb = y) ▸ hyB'))]
            exact holdB.1 y hy
          · refine chain'_imp_mem _ ?_ holdB.2
            intro a b _ hb hr
            have hbB : b ∈ Bge s L (getKey it) := by
              rw [hBc]
              exact List.mem_cons_of_mem bb hb
            show (getN (insertGo getKey s (some it) nl).1 b).backward = some a
            rw [hback' b, if_neg (hBne b hbB), if_neg (by
              rw [hBc]
              intro hh
              exact hbbB' ((Option.some.injEq _ _ ▸ hh : bb = b) ▸ hb))]
            exact hr
    · intro x hx y hy
      have hyN : y = s.nodes.length := by
        have : (s.nodes.length :: Bge s L (getKey it)).head? = some y := Option.mem_def.mp hy
        simpa using this.symm
      have hxW : x ∈ Wlt s L (getKey it) := by
        have hx' := Option.mem_def.mp hx
        have : Wlt s L (getKey it) ≠ [] := by
          intro hh
          rw [hh] at hx'
          exact absurd hx' (by simp)
        exact List.mem_of_mem_getLast? hx
      rw [hyN]
      show (getN (insertGo getKey s (some it) nl).1 s.nodes.length).backward = some x
      rw [hback' _, if_pos rfl, if_neg (List.ne_nil_of_mem hxW)]
      have hWfilter : (Wlt s L (getKey it)).filter (fun n => decide (0 < lvl s n)) =
          Wlt s L (getKey it) :=
        List.filter_eq_self.mpr (fun m hm => by simpa using hInv.lvl_pos m (hWmem m hm))
      have hp0 : predAt s L (getKey it) 0 = (Wlt s L (getKey it)).getLastD s.header := by
        unfold predAt
        rw [hWfilter]
      rw [hp0, List.getLastD_eq_getLast?, Option.mem_def.mp hx]
      rfl

/-! ## Delete preserves the invariants -/

theorem shrinkFrom_le (s : SL K) (l : Nat) : shrinkFrom s l ≤ l := by
  induction l with
  | zero => exact Nat.le_refl 0
  | succ l ih =>
    unfold shrinkFrom
    by_cases h : fwd s s.header (l + 1) = none
    · rw [if_pos h]; omega
    · rw [if_neg h]

theorem shrinkFrom_none (s : SL K) (l : Nat) :
    ∀ j, shrinkFrom s l < j → j ≤ l → fwd s s.header j = none := by
  induction l with
  | zero => intro j h1 h2; omega
  | succ l ih =>
    intro j h1 h2
    unfold shrinkFrom at h1
    by_cases h : fwd s s.header (l + 1) = none
    · rw [if_pos h] at h1
      rcases Nat.lt_or_ge j (l + 1) with hj | hj
      · exact ih j h1 (by omega)
      · rw [show j = l + 1 by omega]
        exact h
    · rw [if_neg h] at h1
      omega

theorem delete_absent {s : SL K} {L : List Nat} (hInv : Inv s L) (k : K)
    (hk : k ∉ chainKeys s L) :
    deleteGo s k = (s, false) := by
  have hs2 := (search_spec hInv k).1
  have hbody : deleteGo s k = (match (search s k).2 with
    | none => (s, false)
    | some c =>
      if cmp3 (nodeKey s c) k == 0 then
        let s1 := (List.range (lvl s c)).foldl (unspliceStep (search s k).1 c) s
        let s2 := match fwd s1 c 0 with
          | some nx => setBack s1 nx (getN s1 c).backward
          | none => s1
        let s3 : SL K := { s2 with level := shrinkFrom s2 s2.level }
        ({ s3 with length := s3.length - 1 }, true)
      else (s, false)) := rfl
  rcases hB : (Bge s L k).head? with _ | c
  · rw [hbody, hs2, hB]
  · rw [hbody, hs2, hB]
    have hcne : nodeKey s c ≠ k := by
      intro hh
      exact hk ((key_mem_iff_head hInv.sorted).mpr ⟨c, hB, hh⟩)
    have hcmp : (cmp3 (nodeKey s c) k == 0) = false := by
      rw [Bool.eq_false_iff]
      intro hh
      exact hcne ((cmp3_eq_zero_iff _ _).mp (by simpa using hh))
    show (if cmp3 (nodeKey s c) k == 0 then _ else (s, false)) = (s, false)
    rw [hcmp]
    simp

theorem chain0_links {s : SL K} {L : List Nat} (hInv : Inv s L) (k : K) :
    linksTo s 0 s.header (Wlt s L k ++ Bge s L k) none := by
  have h0 := hInv.fwd_ok 0 (Nat.lt_of_le_of_lt (Nat.zero_le _) hInv.level_lt)
  have hc0 : chainAt s L 0 = L :=
    List.filter_eq_self.mpr (fun m hm => by simpa using hInv.lvl_pos m hm)
  rw [hc0] at h0
  rw [← Wlt_append_Bge k hInv.sorted]
  exact h0

theorem delete_shape {s : SL K} {L : List Nat} (hInv : Inv s L) (k : K) {c : Nat}
    (hc : (Bge s L k).head? = some c) (hck : nodeKey s c = k) :
    (deleteGo s k).2 = true ∧
    (deleteGo s k).1.nodes.length = s.nodes.length ∧
    (deleteGo s k).1.header = s.header ∧
    (deleteGo s k).1.maxLevel = s.maxLevel ∧
    (deleteGo s k).1.length = s.length - 1 ∧
    (deleteGo s k).1.level ≤ s.level ∧
    (∀ m, lvl (deleteGo s k).1 m = lvl s m) ∧
    (∀ m, nodeKey (deleteGo s k).1 m = nodeKey s m) ∧
    (∀ m, (getN (deleteGo s k).1 m).item = (getN s m).item) ∧
    (∀ m j, fwd (deleteGo s k).1 m j =
      if j < lvl s c ∧ m = predAt s L k j then fwd s c j else fwd s m j) ∧
    (∀ m, (getN (deleteGo s k).1 m).backward =
      if ((Bge s L k).tail).head? = some m then (getN s c).backward
      else (getN s m).backward) ∧
    (∀ j, (deleteGo s k).1.level < j → j ≤ s.level →
      fwd (deleteGo s k).1 s.header j = none) := by
  have hbody : deleteGo s k = (match (search s k).2 with
    | none => (s, false)
    | some c =>
      if cmp3 (nodeKey s c) k == 0 then
        let s1 := (List.range (lvl s c)).foldl (unspliceStep (search s k).1 c) s
        let s2 := match fwd s1 c 0 with
          | some nx => setBack s1 nx (getN s1 c).backward
          | none => s1
        let s3 : SL K := { s2 with level := shrinkFrom s2 s2.level }
        ({ s3 with length := s3.length - 1 }, true)
      else (s, false)) := rfl
  have hs2spec := (search_spec hInv k).1
  have hupdspec := (search_spec hInv k).2.2
  have hcmp : (cmp3 (nodeKey s c) k == 0) = true := (cmp3_beq_zero_iff _ _).mpr hck
  have hcB : c ∈ Bge s L k := List.mem_of_mem_head? (Option.mem_def.mpr hc)
  have hcL : c ∈ L := (mem_Bge hcB).1
  have hclt : c < s.nodes.length := hInv.mem_lt c hcL
  have hlvlc_le : lvl s c ≤ s.level + 1 := hInv.lvl_le c hcL
  set s1 := (List.range (lvl s c)).foldl (unspliceStep (search s k).1 c) s with hs1def
  set s2 := (match fwd s1 c 0 with
    | some nx => setBack s1 nx (getN s1 c).backward
    | none => s1) with hs2def
  set s3 : SL K := { s2 with level := shrinkFrom s2 s2.level } with hs3def
  have hres : deleteGo s k = ({ s3 with length := s3.length - 1 }, true) := by
    rw [hbody, hs2spec, hc]
    show (if cmp3 (nodeKey s c) k == 0 then _ else _) = _
    rw [hcmp, if_pos rfl]
  obtain ⟨hf1, hl1, hk1, hb1, hi1, hlen1, hh1, hlv1, hm1, hln1⟩ :=
    unsplice_foldl (search s k).1 c (predAt s L k) s (lvl s c)
      (fun j hj => by rw [hupdspec j, if_pos (by omega)])
      (fun j hj => predAt_ne_mem_Bge hInv k j hcB)
      (fun j hj => predAt_lt hInv k j)
      (fun j hj => predAt_lvl hInv k j (by have := hInv.level_lt; omega))
  have hfwd1c : ∀ j, fwd s1 c j = fwd s c j := by
    intro j
    rw [hf1]
    rw [if_neg (fun hh => predAt_ne_mem_Bge hInv k j hcB hh.2.symm)]
  have hBeq : Bge s L k = c :: (Bge s L k).tail := by
    rcases hBge : Bge s L k with _ | ⟨b, T⟩
    · rw [hBge] at hc
      exact absurd hc (by simp)
    · rw [hBge] at hc
      have hbc : b = c := by simpa using hc
      rw [List.tail_cons, ← hbc]
  have hlinksc : linksTo s 0 c ((Bge s L k).tail) none := by
    have hch := chain0_links hInv k
    rw [hBeq] at hch
    exact (linksTo_append_cons.mp hch).2
  have hfc0 : fwd s c 0 = ((Bge s L k).tail).head? := by
    rcases hT : (Bge s L k).tail with _ | ⟨b, T'⟩
    · rw [hT] at hlinksc
      exact hlinksc
    · rw [hT] at hlinksc
      exact (linksTo_cons.mp hlinksc).1
  rw [hfwd1c 0, hfc0] at hs2def
  have hbmem : ∀ b, ((Bge s L k).tail).head? = some b → b < s1.nodes.length := by
    intro b hb
    have h1 : b ∈ (Bge s L k).tail := List.mem_of_mem_head? (Option.mem_def.mpr hb)
    have h2 : b ∈ Bge s L k := by
      rw [hBeq]
      exact List.mem_cons_of_mem c h1
    rw [hlen1]
    exact hInv.mem_lt b (mem_Bge h2).1
  have hback2 : ∀ m, (getN s2 m).backward =
      if ((Bge s L k).tail).head? = some m then (getN s c).backward
      else (getN s1 m).backward := by
    intro m
    rw [hs2def]
    rcases hT : ((Bge s L k).tail).head? with _ | b
    · rw [if_neg (by simp)]
    · show (getN (setBack s1 b ((getN s1 c).backward)) m).backward = _
      by_cases hm : b = m
      · rw [if_pos (by rw [hm]), ← hm, back_setBack_self _ _ _ (hbmem b hT), hb1]
      · rw [if_neg (by simpa using hm), back_setBack_ne _ _ _ _ (fun hh => hm hh.symm)]
  have hoth2 : (∀ m j, fwd s2 m j = fwd s1 m j) ∧ (∀ m, lvl s2 m = lvl s1 m) ∧
      (∀ m, nodeKey s2 m = nodeKey s1 m) ∧ (∀ m, (getN s2 m).item = (getN s1 m).item) ∧
      s2.nodes.length = s1.nodes.length ∧ s2.header = s1.header ∧ s2.level = s1.level ∧
      s2.maxLevel = s1.maxLevel ∧ s2.length = s1.length := by
    rw [hs2def]
    rcases hT : ((Bge s L k).tail).head? with _ | b
    · exact ⟨fun m j => rfl, fun m => rfl, fun m => rfl, fun m => rfl, rfl, rfl, rfl, rfl,
        rfl⟩
    · exact ⟨fun m j => fwd_setBack _ _ _ _ _, fun m => lvl_setBack _ _ _ _,
        fun m => key_setBack _ _ _ _, fun m => item_setBack _ _ _ _,
        len_setBack _ _ _, rfl, rfl, rfl, rfl⟩
  obtain ⟨hf2, hl2, hk2, hi2', hlen2, hh2, hlv2, hm2, hln2⟩ := hoth2
  rw [hres]
  refine ⟨rfl, ?_, ?_, ?_, ?_, ?_, ?_, ?_, ?_, ?_, ?_, ?_⟩
  · show s2.nodes.length = _
    rw [hlen2, hlen1]
  · show s2.header = _
    rw [hh2, hh1]
  · show s2.maxLevel = _
    rw [hm2, hm1]
  · show s2.length - 1 = _
    rw [hln2, hln1]
  · show shrinkFrom s2 s2.level ≤ _
    have := shrinkFrom_le s2 s2.level
    rw [hlv2, hlv1] at *
    omega
  · intro m
    show lvl s2 m = _
    rw [hl2, hl1]
  · intro m
    show nodeKey s2 m = _
    rw [hk2, hk1]
  · intro m
    show (getN s2 m).item = _
    rw [hi2', hi1]
  · intro m j
    show fwd s2 m j = _
    rw [hf2, hf1]
  · intro m
    show (getN s2 m).backward = _
    rw [hback2 m]
    by_cases hT : ((Bge s L k).tail).head? = some m
    · rw [if_pos hT, if_pos hT]
    · rw [if_neg hT, if_neg hT, hb1]
  · intro j hj1 hj2
    show fwd s2 s.header j = none
    have := shrinkFrom_none s2 s2.level j (by simpa using hj1)
      (by rw [hlv2, hlv1]; exact hj2)
    rw [show s2.header = s.header by rw [hh2, hh1]] at this
    exact this

theorem delete_inv {s : SL K} {L : List Nat} (hInv : Inv s L) (k : K) {c : Nat}
    (hc : (Bge s L k).head? = some c) (hck : nodeKey s c = k) :
    Inv (deleteGo s k).1 (Wlt s L k ++ (Bge s L k).tail) := by
  obtain ⟨-, hlen', hh', hm', -, hlv', hlvl', hkey', hitem', hfwd', hback', hshrink'⟩ :=
    delete_shape hInv k hc hck
  have hBeq : Bge s L k = c :: (Bge s L k).tail := by
    rcases hBge : Bge s L k with _ | ⟨b, T⟩
    · rw [hBge] at hc
      exact absurd hc (by simp)
    · rw [hBge] at hc
      have hbc : b = c := by simpa using hc
      rw [List.tail_cons, ← hbc]
  have hLeq : L = Wlt s L k ++ c :: (Bge s L k).tail := by
    have h := Wlt_append_Bge k hInv.sorted
    rw [hBeq] at h
    exact h
  have hWmem : ∀ n ∈ Wlt s L k, n ∈ L := fun n hn => (mem_Wlt hn).1
  have hTB : ∀ n ∈ (Bge s L k).tail, n ∈ Bge s L k := by
    intro n hn
    rw [hBeq]
    exact List.mem_cons_of_mem c hn
  have hTmem : ∀ n ∈ (Bge s L k).tail, n ∈ L := fun n hn => (mem_Bge (hTB n hn)).1
  have hWT : ∀ n ∈ Wlt s L k, n ∉ (Bge s L k).tail := by
    intro n hnW hnT
    exact absurd ((mem_Wlt hnW).2) ((mem_Bge (hTB n hnT)).2).elim
  have hsub : List.Sublist (Wlt s L k ++ (Bge s L k).tail) L := by
    conv_rhs => rw [hLeq]
    exact (List.sublist_cons_self c _).append_left _
  have hBnodup : (Bge s L k).Nodup :=
    List.Nodup.sublist (List.filter_sublist L) hInv.nodup
  have hhb : (getN (deleteGo s k).1 s.header).backward = none := by
    rw [hback' s.header, if_neg (fun hh => hInv.mem_ne s.header
      (hTmem s.header (List.mem_of_mem_head? (Option.mem_def.mpr hh))) rfl)]
    exact hInv.header_back
  have hchain : ∀ i, chainAt (deleteGo s k).1 (Wlt s L k ++ (Bge s L k).tail) i =
      (Wlt s L k).filter (fun n => decide (i < lvl s n)) ++
        ((Bge s L k).tail).filter (fun n => decide (i < lvl s n)) := by
    intro i
    unfold chainAt
    rw [List.filter_append]
    congr 1
    · exact List.filter_congr (fun n _ => by rw [hlvl' n])
    · exact List.filter_congr (fun n _ => by rw [hlvl' n])
  have hfwdok : ∀ i, i < s.maxLevel → linksTo (deleteGo s k).1 i s.header
      ((Wlt s L k).filter (fun n => decide (i < lvl s n)) ++
        ((Bge s L k).tail).filter (fun n => decide (i < lvl s n))) none := by
    intro i hi
    have hold : linksTo s i s.header
        ((Wlt s L k).filter (fun n => decide (i < lvl s n)) ++
          (Bge s L k).filter (fun n => decide (i < lvl s n))) none := by
      rw [← chainAt_split k i hInv.sorted]
      exact hInv.fwd_ok i hi
    by_cases hA : i < lvl s c
    · have hBfil : (Bge s L k).filter (fun n => decide (i < lvl s n)) =
          c :: ((Bge s L k).tail).filter (fun n => decide (i < lvl s n)) := by
        conv_lhs => rw [hBeq]
        rw [List.filter_cons, if_pos (by simpa using hA)]
      rw [hBfil] at hold
      obtain ⟨hW0, hT0⟩ := linksTo_append_cons.mp hold
      have hAnodup : (s.header :: (Wlt s L k).filter
          (fun n => decide (i < lvl s n))).Nodup := by
        rw [List.nodup_cons]
        constructor
        · intro hmem
          exact hInv.mem_ne _ (hWmem _ (List.mem_of_mem_filter hmem)) rfl
        · have hWsub : List.Sublist (Wlt s L k) L := by
            conv_rhs => rw [Wlt_append_Bge k hInv.sorted]
            exact List.sublist_append_left _ _
          exact List.Nodup.sublist ((List.filter_sublist _).trans hWsub) hInv.nodup
      have hpredeq : predAt s L k i =
          ((Wlt s L k).filter (fun n => decide (i < lvl s n))).getLastD s.header := rfl
      have hWd : linksTo (deleteGo s k).1 i s.header
          ((Wlt s L k).filter (fun n => decide (i < lvl s n))) (fwd s c i) := by
        refine linksTo_retarget hW0 hAnodup ?_ ?_
        · rw [show ((Wlt s L k).filter (fun n => decide (i < lvl s n))).getLastD s.header =
            predAt s L k i from rfl]
          rw [hfwd' _ i, if_pos ⟨hA, rfl⟩]
        · intro m _ hm2
          rw [hfwd' m i, if_neg (fun hh => hm2 (by rw [hh.2, hpredeq]))]
      rcases hTfil : ((Bge s L k).tail).filter (fun n => decide (i < lvl s n)) with
        _ | ⟨b, T2⟩
      · rw [List.append_nil]
        rw [hTfil] at hT0
        have hcnone : fwd s c i = none := hT0
        rw [hcnone] at hWd
        exact hWd
      · rw [hTfil] at hT0
        obtain ⟨hcb, hb0⟩ := linksTo_cons.mp hT0
        rw [hcb] at hWd
        refine linksTo_append_cons.mpr ⟨hWd, ?_⟩
        refine linksTo_congr ?_ hb0
        intro m hm
        have hmT : m ∈ (Bge s L k).tail := by
          rcases List.mem_cons.mp hm with h | h
          · rw [h]
            exact List.mem_of_mem_filter (hTfil ▸ List.mem_cons_self b T2)
          · exact List.mem_of_mem_filter (hTfil ▸ List.mem_cons_of_mem b h)
        rw [hfwd' m i, if_neg (fun hh =>
          predAt_ne_mem_Bge hInv k i (hTB m hmT) hh.2.symm)]
    · have hBfil : (Bge s L k).filter (fun n => decide (i < lvl s n)) =
          ((Bge s L k).tail).filter (fun n => decide (i < lvl s n)) := by
        conv_lhs => rw [hBeq]
        rw [List.filter_cons, if_neg (by simpa using hA)]
      rw [hBfil] at hold
      refine linksTo_congr ?_ hold
      intro m _
      rw [hfwd' m i, if_neg (fun hh => hA hh.1)]
  refine ⟨?_, ?_, ?_, ?_, ?_, ?_, ?_, ?_, ?_, ?_, ?_, ?_, ?_, ?_⟩
  · rw [hh', hlen']
    exact hInv.header_lt
  · rw [hh', hm', hlvl']
    exact hInv.header_len
  · rw [hh']
    exact hhb
  · rw [hm']
    have := hInv.level_lt
    omega
  · intro n hn
    rw [hlen']
    rcases List.mem_append.mp hn with h | h
    · exact hInv.mem_lt n (hWmem n h)
    · exact hInv.mem_lt n (hTmem n h)
  · intro n hn
    rw [hh']
    rcases List.mem_append.mp hn with h | h
    · exact hInv.mem_ne n (hWmem n h)
    · exact hInv.mem_ne n (hTmem n h)
  · exact List.Nodup.sublist hsub hInv.nodup
  · have hmapeq : chainKeys (deleteGo s k).1 (Wlt s L k ++ (Bge s L k).tail) =
        (Wlt s L k ++ (Bge s L k).tail).map (nodeKey s) :=
      List.map_congr_left (fun n _ => hkey' n)
    rw [hmapeq]
    exact List.Pairwise.sublist (List.Sublist.map _ hsub) hInv.sorted
  · intro n hn
    rw [hlvl' n]
    rcases List.mem_append.mp hn with h | h
    · exact hInv.lvl_pos n (hWmem n h)
    · exact hInv.lvl_pos n (hTmem n h)
  · intro n hn
    rw [hlvl' n]
    by_contra hcon
    have hnum : (deleteGo s k).1.level + 2 ≤ lvl s n := by omega
    have hnL : n ∈ L := by
      rcases List.mem_append.mp hn with h | h
      · exact hWmem n h
      · exact hTmem n h
    have hle : lvl s n ≤ s.level + 1 := hInv.lvl_le n hnL
    have hils : (deleteGo s k).1.level + 1 ≤ s.level := by omega
    have hnone : fwd (deleteGo s k).1 s.header ((deleteGo s k).1.level + 1) = none :=
      hshrink' _ (by omega) hils
    have hlink := hfwdok ((deleteGo s k).1.level + 1)
      (by have := hInv.level_lt; omega)
    have hmemfil : n ∈ (Wlt s L k).filter
        (fun m => decide ((deleteGo s k).1.level + 1 < lvl s m)) ++
        ((Bge s L k).tail).filter
          (fun m => decide ((deleteGo s k).1.level + 1 < lvl s m)) := by
      rcases List.mem_append.mp hn with h | h
      · exact List.mem_append.mpr (Or.inl (List.mem_filter.mpr ⟨h, by
          simp only [decide_eq_true_eq]; omega⟩))
      · exact List.mem_append.mpr (Or.inr (List.mem_filter.mpr ⟨h, by
          simp only [decide_eq_true_eq]; omega⟩))
    rcases hl : (Wlt s L k).filter
        (fun m => decide ((deleteGo s k).1.level + 1 < lvl s m)) ++
        ((Bge s L k).tail).filter
          (fun m => decide ((deleteGo s k).1.level + 1 < lvl s m)) with _ | ⟨a, rest⟩
    · rw [hl] at hmemfil
      exact absurd hmemfil (List.not_mem_nil n)
    · rw [hl] at hlink
      have hsome : fwd (deleteGo s k).1 s.header ((deleteGo s k).1.level + 1) = some a :=
        match rest, hlink with
        | [], h => h.1
        | _ :: _, h => h.1
      rw [hnone] at hsome
      exact absurd hsome (by simp)
  · intro n hn
    rw [hitem' n]
    rcases List.mem_append.mp hn with h | h
    · exact hInv.item_ne n (hWmem n h)
    · exact hInv.item_ne n (hTmem n h)
  · intro i hi
    rw [hm'] at hi
    rw [hh', hchain i]
    exact hfwdok i hi
  · rw [hh']
    rcases hW : Wlt s L k with _ | ⟨w, W'⟩
    · rw [List.nil_append]
      rcases hT0 : (Bge s L k).tail with _ | ⟨t0, T'⟩
      · exact hhb
      · show (getN (deleteGo s k).1 t0).backward = none
        rw [hback' t0, if_pos (show (Bge s L k).tail.head? = some t0 by rw [hT0]; rfl)]
        have hLhead : L.headD s.header = c := by
          rw [hLeq, hW]
          rfl
        rw [← hLhead]
        exact hInv.back_head
    · show (getN (deleteGo s k).1 w).backward = none
      have hwW : w ∈ Wlt s L k := by rw [hW]; simp
      rw [hback' w, if_neg (fun hh => hWT w hwW
        (List.mem_of_mem_head? (Option.mem_def.mpr hh)))]
      have hLhead : L.headD s.header = w := by
        rw [hLeq, hW]
        rfl
      rw [← hLhead]
      exact hInv.back_head
  · have holdL : L.Chain' (fun a b => (getN s b).backward = some a) := hInv.back_chain
    rw [hLeq] at holdL
    rw [List.chain'_append] at holdL
    obtain ⟨chW, chcT, hlink⟩ := holdL
    rw [List.chain'_append]
    refine ⟨?_, ?_, ?_⟩
    · refine chain'_imp_mem _ ?_ chW
      intro a b _ hb hr
      show (getN (deleteGo s k).1 b).backward = some a
      rw [hback' b, if_neg (fun hh => hWT b hb
        (List.mem_of_mem_head? (Option.mem_def.mpr hh)))]
      exact hr
    · rcases hT0 : (Bge s L k).tail with _ | ⟨t0, T'⟩
      · exact List.chain'_nil
      · rw [hT0] at chcT
        have chT : (t0 :: T').Chain' (fun a b => (getN s b).backward = some a) :=
          (List.chain'_cons.mp chcT).2
        have hTnodup : (t0 :: T').Nodup := by
          rw [hBeq, hT0] at hBnodup
          exact (List.nodup_cons.mp hBnodup).2
        have ht0T' : t0 ∉ T' := (List.nodup_cons.mp hTnodup).1
        rw [List.chain'_cons'] at chT ⊢
        constructor
        · intro y hy
          have hyT' : y ∈ T' := List.mem_of_mem_head? hy
          show (getN (deleteGo s k).1 y).backward = some t0
          rw [hback' y, if_neg (by
            rw [hT0]
            intro hh
            exact ht0T' ((Option.some.injEq _ _ ▸ hh : t0 = y) ▸ hyT'))]
          exact chT.1 y hy
        · refine chain'_imp_mem _ ?_ chT.2
          intro a b _ hb hr
          show (getN (deleteGo s k).1 b).backward = some a
          rw [hback' b, if_neg (by
            rw [hT0]
            intro hh
            exact ht0T' ((Option.some.injEq _ _ ▸ hh : t0 = b) ▸ hb))]
          exact hr
    · intro x hx y hy
      show (getN (deleteGo s k).1 y).backward = some x
      rw [hback' y, if_pos (Option.mem_def.mp hy)]
      exact hlink x hx c (by simp)

/-! ## The invariants hold along every run -/

theorem normMax_pos (x : Int) : 0 < normMax x := by
  unfold normMax
  split
  · omega
  · omega

theorem fwd_mk (maxLevel : Int) (n i : Nat) : fwd (mk maxLevel : SL K) n i = none := by
  unfold fwd getN mk
  rcases n with _ | n
  · simp [List.getD_eq_getElem?_getD, List.getElem?_replicate]
    split <;> rfl
  · simp [List.getD_eq_getElem?_getD]

theorem mk_inv (maxLevel : Int) : Inv (mk maxLevel : SL K) [] := by
  refine ⟨?_, ?_, ?_, ?_, ?_, ?_, ?_, ?_, ?_, ?_, ?_, ?_, ?_, ?_⟩
  · show 0 < 1
    omega
  · show (List.replicate (normMax maxLevel) (none : Option Nat)).length = normMax maxLevel
    simp
  · rfl
  · exact normMax_pos maxLevel
  · intro n hn
    exact absurd hn (List.not_mem_nil n)
  · intro n hn
    exact absurd hn (List.not_mem_nil n)
  · exact List.nodup_nil
  · exact List.Pairwise.nil
  · intro n hn
    exact absurd hn (List.not_mem_nil n)
  · intro n hn
    exact absurd hn (List.not_mem_nil n)
  · intro n hn
    exact absurd hn (List.not_mem_nil n)
  · intro i _
    show fwd (mk maxLevel : SL K) 0 i = none
    exact fwd_mk maxLevel 0 i
  · rfl
  · exact List.chain'_nil

theorem inv_applyOp {s : SL K} {L : List Nat} (hInv : Inv s L) (getKey : Nat → K)
    (op : Op K) (hop : ValidOp s.maxLevel op) :
    ∃ L', Inv (applyOp getKey s op) L' ∧ (applyOp getKey s op).maxLevel = s.maxLevel := by
  cases op with
  | ins item nl =>
    cases item with
    | none => exact ⟨L, hInv, rfl⟩
    | some it =>
      by_cases hk : getKey it ∈ chainKeys s L
      · have he : applyOp getKey s (Op.ins (some it) nl) = s := by
          show (insertGo getKey s (some it) nl).1 = s
          rw [insert_existing hInv getKey it nl hk]
        rw [he]
        exact ⟨L, hInv, rfl⟩
      · have hnl : nl < s.maxLevel := hop
        refine ⟨_, insert_new_inv hInv getKey it nl hk hnl, ?_⟩
        exact (insert_new_shape hInv getKey it nl hk hnl).2.2.2.1
  | del k =>
    by_cases hk : k ∈ chainKeys s L
    · obtain ⟨c, hc, hck⟩ := (key_mem_iff_head hInv.sorted).mp hk
      refine ⟨_, delete_inv hInv k hc hck, ?_⟩
      exact (delete_shape hInv k hc hck).2.2.2.1
    · have he : applyOp getKey s (Op.del k) = s := by
        show (deleteGo s k).1 = s
        rw [delete_absent hInv k hk]
      rw [he]
      exact ⟨L, hInv, rfl⟩

theorem inv_foldl (getKey : Nat → K) :
    ∀ (ops : List (Op K)) (s : SL K) (L : List Nat), Inv s L →
      (∀ op ∈ ops, ValidOp s.maxLevel op) →
      ∃ L', Inv (ops.foldl (applyOp getKey) s) L' ∧
        (ops.foldl (applyOp getKey) s).maxLevel = s.maxLevel := by
  intro ops
  induction ops with
  | nil =>
    intro s L hInv _
    exact ⟨L, hInv, rfl⟩
  | cons op ops ih =>
    intro s L hInv hops
    obtain ⟨L1, hInv1, hm1⟩ := inv_applyOp hInv getKey op (hops op (by simp))
    obtain ⟨L', hInv', hm'⟩ := ih (applyOp getKey s op) L1 hInv1
      (fun o ho => by rw [hm1]; exact hops o (by simp [ho]))
    exact ⟨L', by rw [List.foldl_cons]; exact hInv',
      by rw [List.foldl_cons, hm', hm1]⟩

theorem inv_run (getKey : Nat → K) (maxLevel : Int) (ops : List (Op K))
    (hops : ∀ op ∈ ops, ValidOp (normMax maxLevel) op) :
    ∃ L, Inv (runOps getKey maxLevel ops) L := by
  obtain ⟨L, hL, -⟩ := inv_foldl getKey ops (mk maxLevel) [] (mk_inv maxLevel) hops
  exact ⟨L, hL⟩

theorem chain0_eq {s : SL K} {L : List Nat} (hInv : Inv s L) : chain0? s = some L := by
  have h0 : linksTo s 0 s.header L none := by
    have h := hInv.fwd_ok 0 (Nat.lt_of_le_of_lt (Nat.zero_le _) hInv.level_lt)
    rwa [show chainAt s L 0 = L from
      List.filter_eq_self.mpr (fun m hm => by simpa using hInv.lvl_pos m hm)] at h
  exact chainFrom_of_linksTo h0 (chainLen_lt hInv)

theorem linksTo_chain' {s : SL K} {i : Nat} {l : List Nat} {e : Option Nat} :
    ∀ {n : Nat}, linksTo s i n l e → l.Chain' (fun a b => fwd s a i = some b) := by
  induction l with
  | nil =>
    intro n _
    exact List.chain'_nil
  | cons a l ih =>
    intro n h
    obtain ⟨h1, h2⟩ := h
    refine List.chain'_cons'.mpr ⟨?_, ih h2⟩
    intro y hy
    cases l with
    | nil => exact absurd hy (by simp)
    | cons b l2 =>
      have hyb : b = y := by simpa using hy
      rw [← hyb]
      exact h2.1

theorem chain'_conj {α : Type} {R S : α → α → Prop} :
    ∀ (l : List α), l.Chain' R → l.Chain' S → l.Chain' (fun a b => R a b ∧ S a b) := by
  intro l
  induction l with
  | nil => intro _ _; exact List.chain'_nil
  | cons x l ih =>
    intro hR hS
    rw [List.chain'_cons'] at hR hS ⊢
    exact ⟨fun y hy => ⟨hR.1 y hy, hS.1 y hy⟩, ih hR.2 hS.2⟩

/-! ## Transport of the search correctness to the context variant -/

theorem len_toSL (s : CSL K C) : (toSL s).nodes.length = s.nodes.length := by
  unfold toSL
  exact List.length_map _ _

theorem forward_toSL (s : CSL K C) (n : Nat) :
    (getN (toSL s) n).forward = (getNC s n).forward := by
  unfold toSL getN getNC
  rw [List.getD_eq_getElem?_getD, List.getD_eq_getElem?_getD, List.getElem?_map]
  rcases hx : s.nodes[n]? with _ | nd
  · rfl
  · rfl

theorem key_toSL (s : CSL K C) (n : Nat) :
    (getN (toSL s) n).key = (getNC s n).key := by
  unfold toSL getN getNC
  rw [List.getD_eq_getElem?_getD, List.getD_eq_getElem?_getD, List.getElem?_map]
  rcases hx : s.nodes[n]? with _ | nd
  · rfl
  · rfl

theorem back_toSL (s : CSL K C) (n : Nat) :
    (getN (toSL s) n).backward = (getNC s n).backward := by
  unfold toSL getN getNC
  rw [List.getD_eq_getElem?_getD, List.getD_eq_getElem?_getD, List.getElem?_map]
  rcases hx : s.nodes[n]? with _ | nd
  · rfl
  · rfl

theorem item_toSL (s : CSL K C) (n : Nat) (h : n < s.nodes.length) :
    (getN (toSL s) n).item = some 0 := by
  unfold toSL getN
  rw [List.getD_eq_getElem?_getD, List.getElem?_map,
    List.getElem?_eq_getElem h]
  rfl

theorem fwd_toSL (s : CSL K C) (n i : Nat) : fwd (toSL s) n i = fwdC s n i := by
  unfold fwd fwdC
  rw [forward_toSL]

theorem nodeKey_toSL (s : CSL K C) (n : Nat) : nodeKey (toSL s) n = nodeKeyC s n := by
  unfold nodeKey nodeKeyC
  rw [key_toSL]

theorem lvl_toSL (s : CSL K C) (n : Nat) : lvl (toSL s) n = lvlC s n := by
  unfold lvl lvlC
  rw [forward_toSL]

theorem searchLoop_toSL (s : CSL K C) (k : K) (i : Nat) :
    ∀ (fuel : Nat) (cur : Nat),
      searchLoop (toSL s) k i fuel cur = searchLoopC s k i fuel cur := by
  intro fuel
  induction fuel with
  | zero => intro cur; rfl
  | succ fuel ih =>
    intro cur
    show (match fwd (toSL s) cur i with
      | none => cur
      | some nxt =>
        if cmp3 (nodeKey (toSL s) nxt) k < 0 then searchLoop (toSL s) k i fuel nxt
        else cur) =
      (match fwdC s cur i with
      | none => cur
      | some nxt =>
        if cmp3 (nodeKeyC s nxt) k < 0 then searchLoopC s k i fuel nxt else cur)
    rw [fwd_toSL]
    rcases fwdC s cur i with _ | nxt
    · rfl
    · show (if cmp3 (nodeKey (toSL s) nxt) k < 0 then searchLoop (toSL s) k i fuel nxt
        else cur) =
        (if cmp3 (nodeKeyC s nxt) k < 0 then searchLoopC s k i fuel nxt else cur)
      rw [nodeKey_toSL]
      by_cases hc : cmp3 (nodeKeyC s nxt) k < 0
      · rw [if_pos hc, if_pos hc, ih]
      · rw [if_neg hc, if_neg hc]

theorem searchDown_toSL (s : CSL K C) (k : K) :
    ∀ (i : Nat) (cur : Nat) (upd : List (Option Nat)),
      searchDown (toSL s) k i cur upd = searchDownC s k i cur upd := by
  intro i
  induction i with
  | zero =>
    intro cur upd
    show (upd.set 0 (some (searchLoop (toSL s) k 0 (toSL s).nodes.length cur)),
      searchLoop (toSL s) k 0 (toSL s).nodes.length cur) = _
    rw [len_toSL, searchLoop_toSL]
    rfl
  | succ i ih =>
    intro cur upd
    show searchDown (toSL s) k i (searchLoop (toSL s) k (i + 1) (toSL s).nodes.length cur)
        (upd.set (i + 1) (some (searchLoop (toSL s) k (i + 1) (toSL s).nodes.length cur))) = _
    rw [len_toSL, searchLoop_toSL, ih]
    rfl

theorem chainKeys_toSL (s : CSL K C) (L : List Nat) :
    chainKeys (toSL s) L = chainKeysC s L := by
  unfold chainKeys chainKeysC
  exact List.map_congr_left (fun n _ => nodeKey_toSL s n)

theorem Bge_toSL (s : CSL K C) (L : List Nat) (k : K) :
    Bge (toSL s) L k = BgeC s L k := by
  unfold Bge BgeC
  exact List.filter_congr (fun n _ => by rw [nodeKey_toSL])

theorem linksTo_toSL {s : CSL K C} {i : Nat} {l : List Nat} {e : Option Nat} :
    ∀ {n : Nat}, linksToC s i n l e → linksTo (toSL s) i n l e := by
  induction l with
  | nil =>
    intro n h
    show fwd (toSL s) n i = e
    rw [fwd_toSL]
    exact h
  | cons a l ih =>
    intro n h
    exact ⟨by rw [fwd_toSL]; exact h.1, ih h.2⟩

theorem InvC_toSL {s : CSL K C} {L : List Nat} (hInv : InvC s L) : Inv (toSL s) L := by
  refine ⟨?_, ?_, ?_, ?_, ?_, ?_, ?_, ?_, ?_, ?_, ?_, ?_, ?_, ?_⟩
  · show s.header < (toSL s).nodes.length
    rw [len_toSL]
    exact hInv.header_lt
  · show lvl (toSL s) s.header = s.maxLevel + 1
    rw [lvl_toSL]
    exact hInv.header_len
  · show (getN (toSL s) s.header).backward = none
    rw [back_toSL]
    exact hInv.header_back
  · show s.level < s.maxLevel + 1
    have := hInv.level_le
    omega
  · intro n hn
    show n < (toSL s).nodes.length
    rw [len_toSL]
    exact hInv.mem_lt n hn
  · intro n hn
    exact hInv.mem_ne n hn
  · exact hInv.nodup
  · rw [chainKeys_toSL]
    exact hInv.sorted
  · intro n hn
    rw [lvl_toSL]
    exact hInv.lvl_pos n hn
  · intro n hn
    show lvl (toSL s) n ≤ s.level + 1
    rw [lvl_toSL]
    exact hInv.lvl_le n hn
  · intro n hn
    rw [item_toSL s n (hInv.mem_lt n hn)]
    simp
  · intro i hi
    have hch : chainAt (toSL s) L i = chainAtC s L i := by
      unfold chainAt chainAtC
      exact List.filter_congr (fun n _ => by rw [lvl_toSL])
    rw [hch]
    show linksTo (toSL s) i s.header (chainAtC s L i) none
    exact linksTo_toSL (hInv.fwd_ok i hi)
  · show (getN (toSL s) (L.headD s.header)).backward = none
    rw [back_toSL]
    exact hInv.back_head
  · refine chain'_imp_mem _ ?_ hInv.back_chain
    intro a b _ _ hr
    show (getN (toSL s) b).backward = some a
    rw [back_toSL]
    exact hr

theorem insertC_search_spec {s : CSL K C} {L : List Nat} (hInv : InvC s L) (k : K) :
    fwdC s (searchDownC s k s.level s.header
      (List.replicate (s.maxLevel + 1) none)).2 0 = (BgeC s L k).head? := by
  have h := (search_spec (InvC_toSL hInv) k).1
  rw [show (search (toSL s) k).2 = fwd (toSL s)
      (searchDown (toSL s) k s.level s.header
        (List.replicate (s.maxLevel + 1) none)).2 0 from rfl] at h
  rw [searchDown_toSL, fwd_toSL, Bge_toSL] at h
  exact h

/-! ## Pointwise store lemmas for `setItemCtx` -/

theorem getNC_set_nodes (s : CSL K C) (n : Nat) (x : CNode K C) (m : Nat) :
    getNC { s with nodes := s.nodes.set n x } m =
      if m = n ∧ n < s.nodes.length then x else getNC s m := by
  by_cases h1 : m = n
  · subst h1
    by_cases h2 : m < s.nodes.length
    · simp [getNC, List.getD_eq_getElem?_getD, List.getElem?_set, h2]
    · simp [getNC, List.getD_eq_getElem?_getD, List.getElem?_set, h2,
        List.getElem?_eq_none (Nat.le_of_not_lt h2)]
  · have h1' : n ≠ m := fun hh => h1 hh.symm
    simp [getNC, List.getD_eq_getElem?_getD, List.getElem?_set, h1', h1]

theorem getNC_setItemCtx (s : CSL K C) (n : Nat) (it : Option Nat) (c : C) (m : Nat) :
    getNC (setItemCtx s n it c) m =
      if m = n ∧ n < s.nodes.length then { getNC s n with item := it, context := c }
      else getNC s m :=
  getNC_set_nodes s n _ m

/-! ## The exporters of the variant without tags skip empty spans -/

theorem pwritevLoop_pos (s : SL K) (f : Option Nat → List Int) :
    ∀ (fuel : Nat) (cur : Option Nat) (out : List (List Int)),
      pwritevLoop s f fuel cur = some out → ∀ d ∈ out, 0 < d.length := by
  intro fuel
  induction fuel with
  | zero =>
    intro cur out h
    rcases cur with _ | n
    · have hout : out = [] := by
        have : some ([] : List (List Int)) = some out := h
        simpa using this.symm
      rw [hout]
      intro d hd
      exact absurd hd (List.not_mem_nil d)
    · exact absurd h (by simp [pwritevLoop])
  | succ fuel ih =>
    intro cur out h
    rcases cur with _ | n
    · have hout : out = [] := by
        have : some ([] : List (List Int)) = some out := h
        simpa using this.symm
      rw [hout]
      intro d hd
      exact absurd hd (List.not_mem_nil d)
    · have h' : (pwritevLoop s f fuel (fwd s n 0)).map
          (fun r => if (f (getN s n).item).length > 0 then f (getN s n).item :: r else r) =
          some out := h
      obtain ⟨r, hr, hout⟩ := Option.map_eq_some'.mp h'
      intro d hd
      by_cases hp : (f (getN s n).item).length > 0
      · rw [if_pos hp] at hout
        rw [← hout] at hd
        rcases List.mem_cons.mp hd with hh | hh
        · rw [hh]
          exact hp
        · exact ih (fwd s n 0) r hr d hh
      · rw [if_neg hp] at hout
        rw [← hout] at hd
        exact ih (fwd s n 0) r hr d hd

theorem pwritevRawLoop_pos (s : SL K) (size : Option Nat → Int) :
    ∀ (fuel : Nat) (cur : Option Nat) (out : List (Option Nat × Int)),
      pwritevRawLoop s size fuel cur = some out → ∀ e ∈ out, 0 < e.2 := by
  intro fuel
  induction fuel with
  | zero =>
    intro cur out h
    rcases cur with _ | n
    · have hout : out = [] := by
        have : some ([] : List (Option Nat × Int)) = some out := h
        simpa using this.symm
      rw [hout]
      intro e he
      exact absurd he (List.not_mem_nil e)
    · exact absurd h (by simp [pwritevRawLoop])
  | succ fuel ih =>
    intro cur out h
    rcases cur with _ | n
    · have hout : out = [] := by
        have : some ([] : List (Option Nat × Int)) = some out := h
        simpa using this.symm
      rw [hout]
      intro e he
      exact absurd he (List.not_mem_nil e)
    · have h' : (pwritevRawLoop s size fuel (fwd s n 0)).map
          (fun r => if size (getN s n).item > 0 then
            ((getN s n).item, size (getN s n).item) :: r else r) = some out := h
      obtain ⟨r, hr, hout⟩ := Option.map_eq_some'.mp h'
      intro e he
      by_cases hp : size (getN s n).item > 0
      · rw [if_pos hp] at hout
        rw [← hout] at he
        rcases List.mem_cons.mp he with hh | hh
        · rw [hh]
          exact hp
        · exact ih (fwd s n 0) r hr e hh
      · rw [if_neg hp] at hout
        rw [← hout] at he
        exact ih (fwd s n 0) r hr e he

theorem pwritevRawLoop_spec (s : SL K) (size : Option Nat → Int) :
    ∀ (l : List Nat) (n : Nat) (fuel : Nat), linksTo s 0 n l none → l.length < fuel →
      pwritevRawLoop s size fuel (fwd s n 0) =
        some ((l.map (fun m => ((getN s m).item, size (getN s m).item))).filter
          (fun e => decide (e.2 > 0))) := by
  intro l
  induction l with
  | nil =>
    intro n fuel h _
    have h' : fwd s n 0 = none := h
    rw [h']
    rcases fuel with _ | fuel
    · rfl
    · rfl
  | cons m rest ih =>
    intro n fuel h hfuel
    obtain ⟨f, rfl⟩ := Nat.exists_eq_succ_of_ne_zero
      (Nat.pos_iff_ne_zero.mp (Nat.lt_of_le_of_lt (Nat.zero_le _) hfuel))
    obtain ⟨h1, h2⟩ := h
    rw [h1]
    show (pwritevRawLoop s size f (fwd s m 0)).map
        (fun r => if size (getN s m).item > 0 then
          ((getN s m).item, size (getN s m).item) :: r else r) = _
    rw [ih m f h2 (Nat.lt_of_succ_lt_succ hfuel), Option.map_some', List.map_cons,
      List.filter_cons]
    by_cases hp : size (getN s m).item > 0
    · rw [if_pos hp, if_pos (by simpa using hp)]
    · rw [if_neg hp, if_neg (by simpa using hp)]

/-! ## The first conflict of a merge run (variant without tags) -/

theorem mergeLoop_cleanRun (getKey : Nat → K) (other : SL K) (strat : Int) (rnd : Nat → Nat) :
    ∀ (pre : List Nat) (dest : SL K) (i : Nat) (tl : List Nat),
      noConflictRun getKey other rnd dest i pre = true →
      mergeLoop getKey other strat rnd dest (pre ++ tl) i =
        mergeLoop getKey other strat rnd (insertAllFrom getKey other rnd dest i pre) tl
          (i + pre.length) := by
  intro pre
  induction pre with
  | nil =>
    intro dest i tl _
    rfl
  | cons n pre ih =>
    intro dest i tl hrun
    have hrun' : ((!(keyExists dest (search dest (nodeKey other n)).2 (nodeKey other n))) &&
        ((insertGo getKey dest (getN other n).item
            (min (rnd i) (dest.maxLevel - 1))).2 &&
          noConflictRun getKey other rnd
            (insertGo getKey dest (getN other n).item
              (min (rnd i) (dest.maxLevel - 1))).1 (i + 1) pre)) = true := hrun
    rw [Bool.and_eq_true, Bool.and_eq_true, Bool.not_eq_true'] at hrun'
    obtain ⟨hkey, hins, hrest⟩ := hrun'
    rw [List.cons_append]
    show (if keyExists dest (search dest (nodeKey other n)).2 (nodeKey other n) then _
      else _) = _
    rw [hkey, if_neg (by simp)]
    show (if (insertGo getKey dest (getN other n).item
        (min (rnd i) (dest.maxLevel - 1))).2 = true then
        mergeLoop getKey other strat rnd
          (insertGo getKey dest (getN other n).item
            (min (rnd i) (dest.maxLevel - 1))).1 (pre ++ tl) (i + 1)
      else _) = _
    rw [if_pos hins, ih _ (i + 1) tl hrest]
    show _ = mergeLoop getKey other strat rnd
      (insertAllFrom getKey other rnd
        (insertGo getKey dest (getN other n).item
          (min (rnd i) (dest.maxLevel - 1))).1 (i + 1) pre) tl (i + (n :: pre).length)
    rw [List.length_cons, show i + (pre.length + 1) = i + 1 + pre.length from by omega]

theorem pwritevLoop_spec (s : SL K) (f : Option Nat → List Int) :
    ∀ (l : List Nat) (n : Nat) (fuel : Nat), linksTo s 0 n l none → l.length < fuel →
      pwritevLoop s f fuel (fwd s n 0) =
        some ((l.map (fun m => f (getN s m).item)).filter
          (fun d => decide (d.length > 0))) := by
  intro l
  induction l with
  | nil =>
    intro n fuel h _
    have h' : fwd s n 0 = none := h
    rw [h']
    rcases fuel with _ | fuel
    · rfl
    · rfl
  | cons m rest ih =>
    intro n fuel h hfuel
    obtain ⟨f2, rfl⟩ := Nat.exists_eq_succ_of_ne_zero
      (Nat.pos_iff_ne_zero.mp (Nat.lt_of_le_of_lt (Nat.zero_le _) hfuel))
    obtain ⟨h1, h2⟩ := h
    rw [h1]
    show (pwritevLoop s f f2 (fwd s m 0)).map
        (fun r => if (f (getN s m).item).length > 0 then f (getN s m).item :: r else r) = _
    rw [ih m f2 h2 (Nat.lt_of_succ_lt_succ hfuel), Option.map_some', List.map_cons,
      List.filter_cons]
    by_cases hp : (f (getN s m).item).length > 0
    · rw [if_pos hp, if_pos (by simpa using hp)]
    · rw [if_neg hp, if_neg (by simpa using hp)]

theorem mergeLoopC_cleanRun (getKeyC : Option Nat → K) (other : CSL K C) (strat : Int)
    (rnd : Nat → Nat) :
    ∀ (pre : List Nat) (dest : CSL K C) (i : Nat) (tl : List Nat),
      noConflictRunC getKeyC other rnd dest i pre = true →
      mergeLoopC getKeyC other strat rnd dest (pre ++ tl) i =
        mergeLoopC getKeyC other strat rnd (insertAllFromC getKeyC other rnd dest i pre) tl
          (i + pre.length) := by
  intro pre
  induction pre with
  | nil =>
    intro dest i tl _
    rfl
  | cons n pre ih =>
    intro dest i tl hrun
    have hrun' : (match (searchC dest (nodeKeyC other n)).1 with
        | some _ => false
        | none =>
          noConflictRunC getKeyC other rnd
            (insertC getKeyC dest (getNC other n).item (getNC other n).context
              (min (rnd i) dest.maxLevel)).1 (i + 1) pre) = true := hrun
    rcases hs : (searchC dest (nodeKeyC other n)).1 with _ | c
    · rw [hs] at hrun'
      have hrest : noConflictRunC getKeyC other rnd
          (insertC getKeyC dest (getNC other n).item (getNC other n).context
            (min (rnd i) dest.maxLevel)).1 (i + 1) pre = true := hrun'
      rw [List.cons_append]
      have hstep : mergeLoopC getKeyC other strat rnd dest (n :: (pre ++ tl)) i =
          (match (searchC dest (nodeKeyC other n)).1 with
            | some _ =>
              if strat = MergeTheirs then
                mergeLoopC getKeyC other strat rnd
                  (insertC getKeyC dest (getNC other n).item (getNC other n).context
                    (min (rnd i) dest.maxLevel)).1 (pre ++ tl) (i + 1)
              else if strat = MergeOurs then
                mergeLoopC getKeyC other strat rnd dest (pre ++ tl) (i + 1)
              else if strat = MergeError then (dest, some "key conflict during merge")
              else mergeLoopC getKeyC other strat rnd dest (pre ++ tl) (i + 1)
            | none =>
              mergeLoopC getKeyC other strat rnd
                (insertC getKeyC dest (getNC other n).item (getNC other n).context
                  (min (rnd i) dest.maxLevel)).1 (pre ++ tl) (i + 1)) := rfl
      rw [hstep, hs, ih _ (i + 1) tl hrest]
      show _ = mergeLoopC getKeyC other strat rnd
        (insertAllFromC getKeyC other rnd
          (insertC getKeyC dest (getNC other n).item (getNC other n).context
            (min (rnd i) dest.maxLevel)).1 (i + 1) pre) tl (i + (n :: pre).length)
      rw [List.length_cons, show i + (pre.length + 1) = i + 1 + pre.length from by omega]
    · rw [hs] at hrun'
      exact absurd hrun' (by simp)

theorem mergeLoopC_conflict_error (getKeyC : Option Nat → K) (other : CSL K C)
    (rnd : Nat → Nat) (dest : CSL K C) (n : Nat) (rest : List Nat) (i : Nat)
    (hs : ((searchC dest (nodeKeyC other n)).1).isSome = true) :
    mergeLoopC getKeyC other MergeError rnd dest (n :: rest) i =
      (dest, some "key conflict during merge") := by
  rcases hx : (searchC dest (nodeKeyC other n)).1 with _ | c
  · rw [hx] at hs
    exact absurd hs (by simp)
  · have hstep : mergeLoopC getKeyC other MergeError rnd dest (n :: rest) i =
        (match (searchC dest (nodeKeyC other n)).1 with
          | some _ =>
            if (MergeError : Int) = MergeTheirs then
              mergeLoopC getKeyC other MergeError rnd
                (insertC getKeyC dest (getNC other n).item (getNC other n).context
                  (min (rnd i) dest.maxLevel)).1 rest (i + 1)
            else if (MergeError : Int) = MergeOurs then
              mergeLoopC getKeyC other MergeError rnd dest rest (i + 1)
            else if (MergeError : Int) = MergeError then
              (dest, some "key conflict during merge")
            else mergeLoopC getKeyC other MergeError rnd dest rest (i + 1)
          | none =>
            mergeLoopC getKeyC other MergeError rnd
              (insertC getKeyC dest (getNC other n).item (getNC other n).context
                (min (rnd i) dest.maxLevel)).1 rest (i + 1)) := rfl
    rw [hstep, hx]
    show (if (MergeError : Int) = MergeTheirs then _ else _) = _
    rw [if_neg (by decide)]
    show (if (MergeError : Int) = MergeOurs then _ else _) = _
    rw [if_neg (by decide)]
    show (if (MergeError : Int) = MergeError then _ else _) = _
    rw [if_pos rfl]

theorem linksTo0_of_inv {s : SL K} {L : List Nat} (hInv : Inv s L) :
    linksTo s 0 s.header L none := by
  have h := hInv.fwd_ok 0 (Nat.lt_of_le_of_lt (Nat.zero_le _) hInv.level_lt)
  rwa [show chainAt s L 0 = L from
    List.filter_eq_self.mpr (fun m hm => by simpa using hInv.lvl_pos m hm)] at h

/-! ## The claims -/

/-- C1: for every sequence of Insert and Delete operations starting from a
freshly constructed index (each Insert's drawn level in the `randomLevel`
range), the level-0 traversal via `forward[0]` from the header succeeds
and yields nodes whose keys are strictly increasing under the comparator;
pairwise strictness means in particular that no two live nodes carry
equal keys. -/
theorem C1_order_invariant (getKey : Nat → K) (maxLevel : Int) (ops : List (Op K))
    (hops : ∀ op ∈ ops, ValidOp (normMax maxLevel) op) :
    ∃ L, chain0? (runOps getKey maxLevel ops) = some L ∧
      (chainKeys (runOps getKey maxLevel ops) L).Pairwise (· < ·) := by
  obtain ⟨L, hL⟩ := inv_run getKey maxLevel ops hops
  exact ⟨L, chain0_eq hL, hL.sorted⟩

/-- witness for C1 at a concrete run: two inserts and a delete on keys
drawn by `exGetKey`. -/
theorem C1_order_invariant_witness :
    ∃ L, chain0? (runOps exGetKey 3 [Op.ins (some 11) 0, Op.ins (some 25) 1, Op.del 1]) =
        some L ∧
      (chainKeys (runOps exGetKey 3 [Op.ins (some 11) 0, Op.ins (some 25) 1, Op.del 1])
        L).Pairwise (· < ·) :=
  C1_order_invariant exGetKey 3 [Op.ins (some 11) 0, Op.ins (some 25) 1, Op.del 1]
    (by decide)

/-- C3 (amended to the variant without tags, which is the only variant
with a configuration check): when the two indexes' configured maximum
heights differ, `Merge` returns the configuration-mismatch error and the
destination exactly as it was, before any traversal or mutation.  The
context variant has no such check (see the counterexample). -/
theorem C3_merge_config_mismatch (getKey : Nat → K) (dest other : SL K) (strat : Int)
    (rnd : Nat → Nat) (hne : dest.maxLevel ≠ other.maxLevel) :
    mergeGo getKey dest other strat rnd =
      some (dest, some "cannot merge skiplists with different maxLevel configurations") := by
  show (if dest.maxLevel ≠ other.maxLevel then _ else _) = _
  rw [if_pos hne]

/-- witness for C3: merging height-16 and height-3 configurations
(variant without tags). -/
theorem C3_merge_config_mismatch_witness :
    mergeGo exGetKey (mk 0) (mk 3) MergeTheirs (fun _ => 0) =
      some (mk 0, some "cannot merge skiplists with different maxLevel configurations") :=
  C3_merge_config_mismatch exGetKey (mk 0) (mk 3) MergeTheirs (fun _ => 0) (by decide)

/-- counterexample to C3 as stated for the context variant: its `Merge`
has no configuration check at all; with `maxLevel` 2 versus 3 the merge
proceeds and mutates the destination (one element copied in, no error). -/
theorem C3_counterexample_merge_config :
    (mkC 2 : CSL Int Int).maxLevel ≠ exCtxOther.maxLevel ∧
    (mergeC exGetKeyC (mkC 2 : CSL Int Int) exCtxOther MergeTheirs (fun _ => 0)).map
      (fun r => (r.1.length, r.2)) = some (1, none) := by decide

/-- C5: for every sequence of Insert and Delete operations starting from a
freshly constructed index, the level-0 traversal succeeds and along it
every adjacent pair (A, B) satisfies `A.Next() == B` and `B.Prev() == A`,
and the first non-header node's backward link is absent. -/
theorem C5_backward_bijection (getKey : Nat → K) (maxLevel : Int) (ops : List (Op K))
    (hops : ∀ op ∈ ops, ValidOp (normMax maxLevel) op) :
    ∃ L, chain0? (runOps getKey maxLevel ops) = some L ∧
      (getN (runOps getKey maxLevel ops)
        (L.headD (runOps getKey maxLevel ops).header)).backward = none ∧
      L.Chain' (fun a b => nextGo (runOps getKey maxLevel ops) (some a) = some b ∧
        prevGo (runOps getKey maxLevel ops) (some b) = some a) := by
  obtain ⟨L, hL⟩ := inv_run getKey maxLevel ops hops
  refine ⟨L, chain0_eq hL, hL.back_head, ?_⟩
  have hfwd := linksTo_chain' (linksTo0_of_inv hL)
  have hconj := chain'_conj L hfwd hL.back_chain
  refine chain'_imp_mem L ?_ hconj
  intro a b _ _ hr
  exact ⟨hr.1, hr.2⟩

/-- witness for C5 at a concrete run: two out-of-order inserts. -/
theorem C5_backward_bijection_witness :
    ∃ L, chain0? (runOps exGetKey 3 [Op.ins (some 31) 1, Op.ins (some 15) 0]) = some L ∧
      (getN (runOps exGetKey 3 [Op.ins (some 31) 1, Op.ins (some 15) 0])
        (L.headD (runOps exGetKey 3 [Op.ins (some 31) 1, Op.ins (some 15) 0]).header)).backward =
        none ∧
      L.Chain' (fun a b =>
        nextGo (runOps exGetKey 3 [Op.ins (some 31) 1, Op.ins (some 15) 0]) (some a) = some b ∧
        prevGo (runOps exGetKey 3 [Op.ins (some 31) 1, Op.ins (some 15) 0]) (some b) = some a) :=
  C5_backward_bijection exGetKey 3 [Op.ins (some 31) 1, Op.ins (some 15) 0] (by decide)

/-- C6 (amended to the variant without tags, which is the only variant
with a nil-record check): Insert called with a nil record reference is a
pure no-op returning false.  The context variant has no such check and
happily stores a nil record (see the counterexample). -/
theorem C6_insert_nil_rejected (getKey : Nat → K) (s : SL K) (nl : Nat) :
    insertGo getKey s none nl = (s, false) := rfl

/-- counterexample to C6 as stated for the context variant: inserting a
nil record succeeds (returns true), the count grows and the stored record
reference is nil. -/
theorem C6_counterexample_nil_insert :
    (insertC exGetKeyC (mkC 3 : CSL Int Int) none (0 : Int) 0).2 = true ∧
    (insertC exGetKeyC (mkC 3 : CSL Int Int) none (0 : Int) 0).1.length = 1 ∧
    (getNC (insertC exGetKeyC (mkC 3 : CSL Int Int) none (0 : Int) 0).1 1).item = none := by
  decide

/-- C7 (amended to the variant without tags, whose `Next`/`Prev` do carry
a nil-receiver check): Next and Prev return the level-0 forward and
backward link, a nil receiver yields nil, and on well-formed states both
are absent at the respective ends of the list.  The context variant's
`Next`/`Prev` dereference a nil receiver (see the counterexample). -/
theorem C7_next_prev :
    (∀ (s : SL K), nextGo s none = none ∧ prevGo s none = none) ∧
    (∀ (s : SL K) (n : Nat), nextGo s (some n) = fwd s n 0 ∧
      prevGo s (some n) = (getN s n).backward) ∧
    (∀ (getKey : Nat → K) (maxLevel : Int) (ops : List (Op K)),
      (∀ op ∈ ops, ValidOp (normMax maxLevel) op) →
      ∃ L, chain0? (runOps getKey maxLevel ops) = some L ∧
        (∀ b, L.getLast? = some b → nextGo (runOps getKey maxLevel ops) (some b) = none) ∧
        (∀ a, L.head? = some a → prevGo (runOps getKey maxLevel ops) (some a) = none)) := by
  refine ⟨fun s => ⟨rfl, rfl⟩, fun s n => ⟨rfl, rfl⟩, ?_⟩
  intro getKey maxLevel ops hops
  obtain ⟨L, hL⟩ := inv_run getKey maxLevel ops hops
  refine ⟨L, chain0_eq hL, ?_, ?_⟩
  · intro b hb
    have hlast := linksTo_last (linksTo0_of_inv hL)
    have hbd : L.getLastD (runOps getKey maxLevel ops).header = b := by
      rw [List.getLastD_eq_getLast?, hb]
      rfl
    show fwd (runOps getKey maxLevel ops) b 0 = none
    rw [← hbd]
    exact hlast
  · intro a ha
    cases L with
    | nil => exact absurd ha (by simp)
    | cons x xs =>
      have hax : a = x := (by simpa using ha : x = a).symm
      show (getN (runOps getKey maxLevel ops) a).backward = none
      rw [hax]
      exact hL.back_head

/-- witness for C7's end-of-list clause at a concrete run. -/
theorem C7_next_prev_witness :
    ∃ L, chain0? (runOps exGetKey 3 [Op.ins (some 42) 1]) = some L ∧
      (∀ b, L.getLast? = some b →
        nextGo (runOps exGetKey 3 [Op.ins (some 42) 1]) (some b) = none) ∧
      (∀ a, L.head? = some a →
        prevGo (runOps exGetKey 3 [Op.ins (some 42) 1]) (some a) = none) :=
  C7_next_prev.2.2 exGetKey 3 [Op.ins (some 42) 1] (by decide)

/-- counterexample to C7 as stated for the context variant: `Next` and
`Prev` on a nil node reference fault (modelled as an error) instead of
returning absent. -/
theorem C7_counterexample_next_prev_nil :
    nextC (mkC 3 : CSL Int Int) none = Except.error () ∧
    prevC (mkC 3 : CSL Int Int) none = Except.error () :=
  ⟨rfl, rfl⟩

/-- C10: the context variant's unconditional exporter ignores its context
argument entirely, and equals the callback exporter with the
constantly-true predicate. -/
theorem C10_toiovec_ignores_context (s : CSL K C) (size : Option Nat → Int) (c1 c2 : C) :
    toIovecSliceC s size c1 = toIovecSliceC s size c2 ∧
    toIovecSliceC s size c1 = callbackToIovecSliceC s size (fun _ => true) :=
  ⟨rfl, rfl⟩

/-- C2 (amended): only the context variant's Insert updates in place on a
duplicate key — it overwrites the stored record reference and context,
leaves the topology, the keys and the element count unchanged, and
returns false.  The variant without tags leaves the stored record exactly
as it was on a duplicate key (see the counterexample); its Insert is a
pure no-op returning false, as the second conjunct states. -/
theorem C2_insert_existing_update (getKeyC : Option Nat → K) {s : CSL K C} {L : List Nat}
    (hInv : InvC s L) (item : Option Nat) (ctx : C) (nl : Nat)
    (hk : getKeyC item ∈ chainKeysC s L) :
    (∃ c0, (BgeC s L (getKeyC item)).head? = some c0 ∧
      nodeKeyC s c0 = getKeyC item ∧
      insertC getKeyC s item ctx nl = (setItemCtx s c0 item ctx, false) ∧
      (getNC (insertC getKeyC s item ctx nl).1 c0).item = item ∧
      (getNC (insertC getKeyC s item ctx nl).1 c0).context = ctx ∧
      (insertC getKeyC s item ctx nl).1.length = s.length ∧
      (insertC getKeyC s item ctx nl).1.nodes.length = s.nodes.length ∧
      (∀ m j, fwdC (insertC getKeyC s item ctx nl).1 m j = fwdC s m j) ∧
      (∀ m, (getNC (insertC getKeyC s item ctx nl).1 m).backward = (getNC s m).backward) ∧
      (∀ m, nodeKeyC (insertC getKeyC s item ctx nl).1 m = nodeKeyC s m)) ∧
    (∀ (getKey : Nat → K) (s1 : SL K) (L1 : List Nat), Inv s1 L1 → ∀ (it nl1 : Nat),
      getKey it ∈ chainKeys s1 L1 → insertGo getKey s1 (some it) nl1 = (s1, false)) := by
  constructor
  · have hk' : getKeyC item ∈ chainKeys (toSL s) L := by
      rw [chainKeys_toSL]
      exact hk
    obtain ⟨c0, hc0, hck⟩ := (key_mem_iff_head (InvC_toSL hInv).sorted).mp hk'
    have hc0' : (BgeC s L (getKeyC item)).head? = some c0 := by
      rw [← Bge_toSL]
      exact hc0
    have hckC : nodeKeyC s c0 = getKeyC item := by
      rw [← nodeKey_toSL]
      exact hck
    have hc0L : c0 ∈ L :=
      (List.mem_filter.mp (List.mem_of_mem_head? (Option.mem_def.mpr hc0'))).1
    have hlt : c0 < s.nodes.length := hInv.mem_lt c0 hc0L
    have hbody : insertC getKeyC s item ctx nl =
        (match fwdC s (searchDownC s (getKeyC item) s.level s.header
            (List.replicate (s.maxLevel + 1) none)).2 0 with
          | some c1 =>
            if cmp3 (nodeKeyC s c1) (getKeyC item) == 0 then (setItemCtx s c1 item ctx, false)
            else insertC.insertFreshC s item ctx (getKeyC item)
              (searchDownC s (getKeyC item) s.level s.header
                (List.replicate (s.maxLevel + 1) none)).1 nl
          | none => insertC.insertFreshC s item ctx (getKeyC item)
              (searchDownC s (getKeyC item) s.level s.header
                (List.replicate (s.maxLevel + 1) none)).1 nl) := rfl
    have hres : insertC getKeyC s item ctx nl = (setItemCtx s c0 item ctx, false) := by
      rw [hbody, insertC_search_spec hInv (getKeyC item), hc0']
      show (if cmp3 (nodeKeyC s c0) (getKeyC item) == 0 then (setItemCtx s c0 item ctx, false)
        else _) = _
      rw [if_pos ((cmp3_beq_zero_iff _ _).mpr hckC)]
    refine ⟨c0, hc0', hckC, hres, ?_, ?_, ?_, ?_, ?_, ?_, ?_⟩
    · rw [hres]
      show (getNC (setItemCtx s c0 item ctx) c0).item = item
      rw [getNC_setItemCtx, if_pos ⟨rfl, hlt⟩]
    · rw [hres]
      show (getNC (setItemCtx s c0 item ctx) c0).context = ctx
      rw [getNC_setItemCtx, if_pos ⟨rfl, hlt⟩]
    · rw [hres]
      rfl
    · rw [hres]
      show (s.nodes.set c0 _).length = s.nodes.length
      exact List.length_set s.nodes c0 _
    · intro m j
      rw [hres]
      show (getNC (setItemCtx s c0 item ctx) m).forward.getD j none =
        (getNC s m).forward.getD j none
      rw [getNC_setItemCtx]
      by_cases hm : m = c0 ∧ c0 < s.nodes.length
      · rw [if_pos hm, hm.1]
      · rw [if_neg hm]
    · intro m
      rw [hres]
      show (getNC (setItemCtx s c0 item ctx) m).backward = (getNC s m).backward
      rw [getNC_setItemCtx]
      by_cases hm : m = c0 ∧ c0 < s.nodes.length
      · rw [if_pos hm, hm.1]
      · rw [if_neg hm]
    · intro m
      rw [hres]
      show (getNC (setItemCtx s c0 item ctx) m).key = (getNC s m).key
      rw [getNC_setItemCtx]
      by_cases hm : m = c0 ∧ c0 < s.nodes.length
      · rw [if_pos hm, hm.1]
      · rw [if_neg hm]
  · intro getKey s1 L1 hInv1 it nl1 hk1
    exact insert_existing hInv1 getKey it nl1 hk1

/-- witness for C2 on the context variant: updating the record stored
under key 0 of a one-element list (record 5 becomes record 7). -/
theorem C2_insert_existing_update_witness :
    (insertC exGetKeyC exCtxOther (some 7) (99 : Int) 0).2 = false ∧
    (insertC exGetKeyC exCtxOther (some 7) (99 : Int) 0).1.length = exCtxOther.length ∧
    (getNC (insertC exGetKeyC exCtxOther (some 7) (99 : Int) 0).1 1).item = some 7 ∧
    (getNC (insertC exGetKeyC exCtxOther (some 7) (99 : Int) 0).1 1).context = 99 := by
  obtain ⟨⟨c0, hc0, hck, hres, hitem, hctx, hlen, hnlen, hfwd, hback, hkey⟩, -⟩ :=
    C2_insert_existing_update exGetKeyC
      (show InvC exCtxOther [1] from ⟨by decide, by decide, by decide, by decide, by decide,
        by decide, by decide, by decide, by decide, by decide, by decide, by decide,
        List.chain'_singleton 1⟩)
      (some 7) (99 : Int) 0 (by decide)
  have hc01 : c0 = 1 := by
    have h1 : (BgeC exCtxOther [1] (exGetKeyC (some 7))).head? = some 1 := by decide
    simpa using (hc0.symm.trans h1)
  rw [hc01] at hitem hctx
  exact ⟨by rw [hres], hlen, hitem, hctx⟩

/-- counterexample to C2 as stated for the variant without tags: records
10 and 11 share key 1 under `exGetKey`; inserting record 11 over record 10
returns false but leaves the whole state — in particular the stored
record reference — unchanged, instead of replacing it. -/
theorem C2_counterexample_insert_update :
    (insertGo exGetKey (insertGo exGetKey (mk 3) (some 10) 0).1 (some 11) 0).2 = false ∧
    (insertGo exGetKey (insertGo exGetKey (mk 3) (some 10) 0).1 (some 11) 0).1 =
      (insertGo exGetKey (mk 3) (some 10) 0).1 ∧
    (getN (insertGo exGetKey (insertGo exGetKey (mk 3) (some 10) 0).1 (some 11) 0).1 1).item =
      some 10 := by decide

/-- C4: in both variants, a Merge under the Error strategy whose level-0
traversal of the source reaches a first key conflict (after a
conflict-free prefix that was inserted) stops right there with that
variant's conflict error, and the destination it returns is exactly the
fold of the earlier conflict-free insertions — partially merged, not
rolled back. -/
theorem C4_merge_error_first_conflict :
    (∀ (getKey : Nat → K) (dest other : SL K) (rnd : Nat → Nat)
      (pre : List Nat) (n : Nat) (rest : List Nat),
      chain0? other = some (pre ++ n :: rest) →
      dest.maxLevel = other.maxLevel →
      noConflictRun getKey other rnd dest 0 pre = true →
      keyExists (insertAllFrom getKey other rnd dest 0 pre)
        (search (insertAllFrom getKey other rnd dest 0 pre) (nodeKey other n)).2
        (nodeKey other n) = true →
      mergeGo getKey dest other MergeError rnd =
        some (insertAllFrom getKey other rnd dest 0 pre,
          some "key conflict detected during merge")) ∧
    (∀ (getKeyC : Option Nat → K) (dest other : CSL K C) (rnd : Nat → Nat)
      (pre : List Nat) (n : Nat) (rest : List Nat),
      chainC0? other = some (pre ++ n :: rest) →
      noConflictRunC getKeyC other rnd dest 0 pre = true →
      ((searchC (insertAllFromC getKeyC other rnd dest 0 pre) (nodeKeyC other n)).1).isSome =
        true →
      mergeC getKeyC dest other MergeError rnd =
        some (insertAllFromC getKeyC other rnd dest 0 pre,
          some "key conflict during merge")) := by
  constructor
  · intro getKey dest other rnd pre n rest hchain hmax hrun hconf
    show (if dest.maxLevel ≠ other.maxLevel then _ else _) = _
    rw [if_neg (fun hh => hh hmax), hchain, Option.map_some',
      mergeLoop_cleanRun getKey other MergeError rnd pre dest 0 (n :: rest) hrun]
    have h1 : mergeLoop getKey other MergeError rnd
        (insertAllFrom getKey other rnd dest 0 pre) (n :: rest) (0 + pre.length) =
        (insertAllFrom getKey other rnd dest 0 pre,
          some "key conflict detected during merge") := by
      show (if keyExists (insertAllFrom getKey other rnd dest 0 pre)
          (search (insertAllFrom getKey other rnd dest 0 pre) (nodeKey other n)).2
          (nodeKey other n) then _ else _) = _
      rw [hconf, if_pos rfl]
      show (if (MergeError : Int) = MergeTheirs then _ else _) = _
      rw [if_neg (by decide)]
      show (if (MergeError : Int) = MergeOurs then _ else _) = _
      rw [if_neg (by decide)]
      show (if (MergeError : Int) = MergeError then _ else _) = _
      rw [if_pos rfl]
    rw [h1]
  · intro getKeyC dest other rnd pre n rest hchain hrun hconf
    show (chainC0? other).map _ = _
    rw [hchain, Option.map_some',
      mergeLoopC_cleanRun getKeyC other MergeError rnd pre dest 0 (n :: rest) hrun,
      mergeLoopC_conflict_error getKeyC other rnd _ n rest _ hconf]

/-- witness for C4 on both variants: each destination already holds the
conflicting key, the conflict-free prefix is copied in, and the merge
stops with the respective conflict error. -/
theorem C4_merge_error_first_conflict_witness :
    (mergeGo exGetKey (insertGo exGetKey (mk 3) (some 25) 0).1
        (insertGo exGetKey (insertGo exGetKey (mk 3) (some 10) 0).1 (some 20) 0).1
        MergeError (fun _ => 0) =
      some (insertAllFrom exGetKey
          (insertGo exGetKey (insertGo exGetKey (mk 3) (some 10) 0).1 (some 20) 0).1
          (fun _ => 0) (insertGo exGetKey (mk 3) (some 25) 0).1 0 [1],
        some "key conflict detected during merge")) ∧
    (mergeC exGetKeyC (insertC exGetKeyC (mkC 3) (some 7) (5 : Int) 0).1 exCtxOther
        MergeError (fun _ => 0) =
      some (insertAllFromC exGetKeyC exCtxOther (fun _ => 0)
          (insertC exGetKeyC (mkC 3) (some 7) (5 : Int) 0).1 0 [],
        some "key conflict during merge")) :=
  ⟨(@C4_merge_error_first_conflict Int _ _ Int _ _).1 exGetKey
      (insertGo exGetKey (mk 3) (some 25) 0).1
      (insertGo exGetKey (insertGo exGetKey (mk 3) (some 10) 0).1 (some 20) 0).1
      (fun _ => 0) [1] 2 [] (by decide) (by decide) (by decide) (by decide),
    (@C4_merge_error_first_conflict Int _ _ Int _ _).2 exGetKeyC
      (insertC exGetKeyC (mkC 3) (some 7) (5 : Int) 0).1
      exCtxOther (fun _ => 0) [] 1 [] (by decide) (by decide) (by decide)⟩

/-- C8 (amended to the exporters of the variant without tags, which are
the only ones that skip empty spans): every descriptor either exporter
emits has positive length, and on well-formed states each exporter emits
exactly the positive-span descriptors of the level-0 chain, in its
(sorted) order.  The context variant's callback exporter emits
zero-length descriptors (see the counterexample). -/
theorem C8_zero_span_skip :
    (∀ (s : SL K) (f : Option Nat → List Int) (out : List (List Int)),
      toPwritevSlice s f = some out → ∀ d ∈ out, 0 < d.length) ∧
    (∀ (s : SL K) (size : Option Nat → Int) (out : List (Option Nat × Int)),
      toPwritevSliceRaw s size = some out → ∀ e ∈ out, 0 < e.2) ∧
    (∀ (s : SL K) (L : List Nat), Inv s L → ∀ (f : Option Nat → List Int),
      toPwritevSlice s f =
        some ((L.map (fun m => f (getN s m).item)).filter
          (fun d => decide (d.length > 0)))) ∧
    (∀ (s : SL K) (L : List Nat), Inv s L → ∀ (size : Option Nat → Int),
      toPwritevSliceRaw s size =
        some ((L.map (fun m => ((getN s m).item, size (getN s m).item))).filter
          (fun e => decide (e.2 > 0)))) := by
  refine ⟨?_, ?_, ?_, ?_⟩
  · intro s f out h
    exact pwritevLoop_pos s f s.nodes.length (fwd s s.header 0) out h
  · intro s size out h
    exact pwritevRawLoop_pos s size s.nodes.length (fwd s s.header 0) out h
  · intro s L hInv f
    exact pwritevLoop_spec s f L s.header s.nodes.length (linksTo0_of_inv hInv)
      (chainLen_lt hInv)
  · intro s L hInv size
    exact pwritevRawLoop_spec s size L s.header s.nodes.length (linksTo0_of_inv hInv)
      (chainLen_lt hInv)

/-- witness for C8: a one-record list exported by both exporters with
size callbacks that report an empty span; each emits the corresponding
filtered span list of the chain. -/
theorem C8_zero_span_skip_witness :
    (toPwritevSlice (insertGo exGetKey (mk 3) (some 10) 0).1 (fun _ => ([] : List Int)) =
      some ((([1] : List Nat).map (fun _ => ([] : List Int))).filter
        (fun d => decide (d.length > 0)))) ∧
    (toPwritevSliceRaw (insertGo exGetKey (mk 3) (some 10) 0).1 (fun _ => (0 : Int)) =
      some ((([1] : List Nat).map (fun m =>
          ((getN (insertGo exGetKey (mk 3) (some 10) 0).1 m).item, (0 : Int)))).filter
        (fun e => decide (e.2 > 0)))) := by
  have hInv : Inv (insertGo exGetKey (mk 3) (some 10) 0).1 [1] :=
    ⟨by decide, by decide, by decide, by decide, by decide, by decide, by decide,
      by decide, by decide, by decide, by decide, by decide, by decide,
      List.chain'_singleton 1⟩
  exact ⟨C8_zero_span_skip.2.2.1 (insertGo exGetKey (mk 3) (some 10) 0).1 [1] hInv
      (fun _ => []),
    C8_zero_span_skip.2.2.2 (insertGo exGetKey (mk 3) (some 10) 0).1 [1] hInv (fun _ => 0)⟩

/-- counterexample to C8 as stated for the context variant: with a size
callback that reports zero, `CallbackToIovecSlice` still emits a
descriptor — base record 5, length 0 — instead of skipping it. -/
theorem C8_counterexample_zero_span :
    callbackToIovecSliceC exCtxOther (fun _ => 0) (fun _ => true) =
      some [⟨some 5, 0⟩] := by decide

/-- C9 (amended to the variant without tags, whose conflict switch has a
default branch): an unknown strategy value is reported as the
invalid-strategy error as soon as a key conflict forces a strategy
decision; conflict-free records reached before that point are inserted
normally.  The context variant's switch has no default branch and an
unknown strategy silently skips the conflicting record, behaving as Ours
(see the counterexample). -/
theorem C9_invalid_strategy :
    (∀ (getKey : Nat → K) (dest other : SL K) (strat : Int) (rnd : Nat → Nat)
      (pre : List Nat) (n : Nat) (rest : List Nat),
      strat ≠ MergeTheirs → strat ≠ MergeOurs → strat ≠ MergeError →
      chain0? other = some (pre ++ n :: rest) →
      dest.maxLevel = other.maxLevel →
      noConflictRun getKey other rnd dest 0 pre = true →
      keyExists (insertAllFrom getKey other rnd dest 0 pre)
        (search (insertAllFrom getKey other rnd dest 0 pre) (nodeKey other n)).2
        (nodeKey other n) = true →
      mergeGo getKey dest other strat rnd =
        some (insertAllFrom getKey other rnd dest 0 pre, some "invalid merge strategy")) ∧
    (∀ (getKey : Nat → K) (dest other : SL K) (strat : Int) (rnd : Nat → Nat)
      (src : List Nat),
      chain0? other = some src →
      dest.maxLevel = other.maxLevel →
      noConflictRun getKey other rnd dest 0 src = true →
      mergeGo getKey dest other strat rnd =
        some (insertAllFrom getKey other rnd dest 0 src, none)) := by
  constructor
  · intro getKey dest other strat rnd pre n rest hs0 hs1 hs2 hchain hmax hrun hconf
    show (if dest.maxLevel ≠ other.maxLevel then _ else _) = _
    rw [if_neg (fun hh => hh hmax), hchain, Option.map_some',
      mergeLoop_cleanRun getKey other strat rnd pre dest 0 (n :: rest) hrun]
    have h1 : mergeLoop getKey other strat rnd (insertAllFrom getKey other rnd dest 0 pre)
        (n :: rest) (0 + pre.length) =
        (insertAllFrom getKey other rnd dest 0 pre, some "invalid merge strategy") := by
      show (if keyExists (insertAllFrom getKey other rnd dest 0 pre)
          (search (insertAllFrom getKey other rnd dest 0 pre) (nodeKey other n)).2
          (nodeKey other n) then _ else _) = _
      rw [hconf, if_pos rfl]
      show (if strat = MergeTheirs then _ else _) = _
      rw [if_neg hs0]
      show (if strat = MergeOurs then _ else _) = _
      rw [if_neg hs1]
      show (if strat = MergeError then _ else _) = _
      rw [if_neg hs2]
    rw [h1]
  · intro getKey dest other strat rnd src hchain hmax hrun
    show (if dest.maxLevel ≠ other.maxLevel then _ else _) = _
    rw [if_neg (fun hh => hh hmax), hchain, Option.map_some']
    have h := mergeLoop_cleanRun getKey other strat rnd src dest 0 [] hrun
    rw [List.append_nil] at h
    rw [h]
    rfl

/-- witness for C9: strategy value 5 reports the invalid-strategy error
on an immediate key-2 conflict, and the same strategy value merges a
conflict-free source into an empty destination silently (variant without
tags). -/
theorem C9_invalid_strategy_witness :
    (mergeGo exGetKey (insertGo exGetKey (mk 3) (some 25) 0).1
        (insertGo exGetKey (mk 3) (some 20) 0).1 5 (fun _ => 0) =
      some (insertAllFrom exGetKey (insertGo exGetKey (mk 3) (some 20) 0).1
          (fun _ => 0) (insertGo exGetKey (mk 3) (some 25) 0).1 0 [],
        some "invalid merge strategy")) ∧
    (mergeGo exGetKey (mk 3) (insertGo exGetKey (mk 3) (some 20) 0).1 5 (fun _ => 0) =
      some (insertAllFrom exGetKey (insertGo exGetKey (mk 3) (some 20) 0).1
          (fun _ => 0) (mk 3) 0 [1], none)) :=
  ⟨C9_invalid_strategy.1 exGetKey (insertGo exGetKey (mk 3) (some 25) 0).1
      (insertGo exGetKey (mk 3) (some 20) 0).1 5 (fun _ => 0) [] 1 []
      (by decide) (by decide) (by decide) (by decide) (by decide) (by decide) (by decide),
    C9_invalid_strategy.2 exGetKey (mk 3) (insertGo exGetKey (mk 3) (some 20) 0).1 5
      (fun _ => 0) [1] (by decide) (by decide) (by decide)⟩

/-- counterexample to C9 as stated for the context variant: strategy 99
with a key conflict returns no error and leaves the destination's record
in place — it silently behaves as Ours instead of reporting the invalid
strategy. -/
theorem C9_counterexample_invalid_strategy :
    (mergeC exGetKeyC (insertC exGetKeyC (mkC 3) (some 7) (5 : Int) 0).1 exCtxOther 99
      (fun _ => 0)).map (fun r => (r.1.length, r.2, (getNC r.1 1).item)) =
      some (1, none, some 7) := by decide

end ZeroCopySkiplist
